import Mathlib

/-!
# abbs-dep: dependency resolver (`src/main.c`)

A shallow embedding of the three core functions of `src/main.c`
(`find_deps`, `calc_depth`, `toposort`) and of the exit status computed by
`main`, followed by theorems about them.

Modelling conventions.

* The `GHashTable` keyed by package name is a `List depitem`; the key of an
  entry is the `name` field of its item (both `g_hash_table_insert` sites
  insert an item under `item->name`).  The iteration order of the hash table
  is the order of the list, so a statement about every table is a statement
  about every iteration order.  Uniqueness of keys is the hypothesis
  `keys_unique`.
* C `int` is `Int`.  On a fresh table (every depth `0`, the only kind `main`
  hands to `toposort`) no depth exceeds the number of nodes in absolute value
  (`fresh_depth_bound`), so no overflow occurs on tables that fit in memory.
  For a stored depth of `INT_MIN` the negation `-depth` of `toposort` is not
  a C `int`, so the theorems about the buckets assume a fresh table.
* Recursion depth is bounded by a fuel argument; running out of fuel is the
  result `none` (`Run.no_fuel` for the builder).
-/

namespace AbbsDep

/-! ## Data model -/

/-- The flag bit `PKG_VISITED`. -/
def PKG_VISITED : Nat := 1
/-- The flag bit `PKG_BUILDDEP`. -/
def PKG_BUILDDEP : Nat := 2
/-- The flag bit `PKG_NOT_FOUND`. -/
def PKG_NOT_FOUND : Nat := 4
/-- The flag bit `PKG_DEP_NOT_MET`. -/
def PKG_DEP_NOT_MET : Nat := 8
/-- The exit status `EXIT_CIRCULAR`. -/
def EXIT_CIRCULAR : Nat := 2
/-- The exit status `EXIT_SUCCESS`. -/
def EXIT_SUCCESS : Nat := 0
/-- The exit status `EXIT_FAILURE`. -/
def EXIT_FAILURE : Nat := 1

/-- The struct `depitem`; `version = none` is the `NULL` pointer and
`deps = []` is the `NULL` list. -/
structure depitem where
  depth : Int
  flag : Nat
  name : String
  version : Option String
  deps : List String
deriving DecidableEq, Repr

/-- The dependency table (`GHashTable *dep_table`), in iteration order. -/
abbrev Table := List depitem

/-- The keys of the table, in iteration order. -/
def keys (tbl : Table) : List String := tbl.map (fun it => it.name)

/-- The call `g_hash_table_lookup(dep_table, name)`. -/
def lookup (tbl : Table) (name : String) : Option depitem :=
  tbl.find? (fun it => decide (it.name = name))

/-- The item created by `calloc(1, sizeof(depitem))` followed by
`item->name = name`. -/
def calloc_item (name : String) : depitem :=
  { depth := 0, flag := 0, name := name, version := none, deps := [] }

/-- An update through the item pointer of the entry stored under `name`. -/
def modify_item : Table → String → (depitem → depitem) → Table
  | [], _, _ => []
  | it :: rest, name, f =>
    if it.name = name then f it :: rest else it :: modify_item rest name f

/-- The assignment `item->depth = d` for the item stored under `name`. -/
def set_depth (tbl : Table) (name : String) (d : Int) : Table :=
  modify_item tbl name (fun it => { it with depth := d })

/-! ## `calc_depth` -/

/-- The `while (ptr_item != NULL)` loop of `calc_depth`, with the recursive
call abstracted as `recur`.  The arguments are the table, the remaining
dependency names and `max_depth`; the result is the table and `max_depth`
after the loop. -/
def calc_depth_loop (recur : Table → String → Option (Table × Int)) :
    Table → List String → Int → Option (Table × Int)
  | tbl, [], max_depth => some (tbl, max_depth)
  | tbl, next_package :: rest, max_depth =>
    match recur tbl next_package with
    | none => none
    | some (tbl1, depth) =>
      if depth < 0 then some (tbl1, depth)
      else if max_depth < depth + 1 then calc_depth_loop recur tbl1 rest (depth + 1)
      else calc_depth_loop recur tbl1 rest max_depth

/-- The function `calc_depth(dep_table, package, loop)`: the table after the
call and the returned depth.  The first argument bounds the recursion
depth. -/
def calc_depth : Nat → Table → String → Int → Option (Table × Int)
  | 0, _, _, _ => none
  | fuel + 1, tbl, package, loop =>
    match lookup tbl package with
    | none => some (tbl, 0)
    | some item =>
      if item.deps = [] then some (set_depth tbl package 1, 1)
      else if item.depth < 0 then some (tbl, item.depth)
      else
        match calc_depth_loop (fun t n => calc_depth fuel t n loop)
            (set_depth tbl package loop) item.deps 0 with
        | none => none
        | some (tbl1, max_depth) => some (set_depth tbl1 package max_depth, max_depth)

/-! ## `toposort` -/

/-- The first loop of `toposort`: every entry whose depth is still `0` is
resolved with the current sentinel `loop`, which is decremented when the
resolution returns it.  The list is what is left of the iteration. -/
def toposort_resolve (fuel : Nat) : List String → Table → Int → Option (Table × Int)
  | [], tbl, loop => some (tbl, loop)
  | name :: rest, tbl, loop =>
    match lookup tbl name with
    | none => toposort_resolve fuel rest tbl loop
    | some item =>
      if item.depth = 0 then
        match calc_depth fuel tbl name loop with
        | none => none
        | some (tbl1, depth) =>
          toposort_resolve fuel rest tbl1 (if depth = loop then loop - 1 else loop)
      else toposort_resolve fuel rest tbl loop

/-- The array of buckets (`GPtrArray` of `GSList *`). -/
abbrev Buckets := List (List String)

/-- The call `g_ptr_array_set_size(arr, n)` for `n > arr->len`: the new
slots are `NULL`. -/
def set_size (arr : Buckets) (n : Nat) : Buckets :=
  arr ++ List.replicate (n - arr.length) []

/-- The statement `*ptr_arr = g_slist_prepend(*ptr_arr, name)` for
`ptr_arr = &g_ptr_array_index(arr, i)`. -/
def prepend_at : Buckets → Nat → String → Buckets
  | [], _, _ => []
  | b :: bs, 0, name => (name :: b) :: bs
  | b :: bs, i + 1, name => b :: prepend_at bs i name

/-- One iteration of the second loop of `toposort`.  An index outside the
array (depth `0`, which selects index `-1`) is the result `none`.  The
negation is that of the integers, which is the one of a C `int` for every
depth but `INT_MIN`. -/
def bucket_step (levels loops : Buckets) (name : String) (depth : Int) :
    Option (Buckets × Buckets) :=
  if depth > 0 then
    let levels1 := if depth.toNat > levels.length then set_size levels depth.toNat else levels
    some (prepend_at levels1 (depth - 1).toNat name, loops)
  else
    let loops1 := if (-depth).toNat > loops.length then set_size loops (-depth).toNat else loops
    if 0 ≤ -depth - 1 ∧ (-depth - 1).toNat < loops1.length then
      some (levels, prepend_at loops1 (-depth - 1).toNat name)
    else none

/-- The second loop of `toposort` over the entries of the table. -/
def toposort_bucket : Table → Buckets → Buckets → Option (Buckets × Buckets)
  | [], levels, loops => some (levels, loops)
  | item :: rest, levels, loops =>
    match bucket_step levels loops item.name item.depth with
    | none => none
    | some (levels1, loops1) => toposort_bucket rest levels1 loops1

/-- The function `toposort(dep_table, levels, loops)`: the arrays `levels`
and `loops` after the call. -/
def toposort (fuel : Nat) (tbl : Table) (levels loops : Buckets) :
    Option (Buckets × Buckets) :=
  match toposort_resolve fuel (keys tbl) tbl (-1) with
  | none => none
  | some (tbl1, _) => toposort_bucket tbl1 levels loops

/-- A node with the given name and dependency list and all other fields as
after `calloc`. -/
def node (name : String) (deps : List String) : depitem :=
  { calloc_item name with deps := deps }

/-! ## Views of a table -/

/-- The depth stored for `name`, and `0` when `name` has no node (the value
`calc_depth` returns for it). -/
def depthOf (tbl : Table) (name : String) : Int :=
  match lookup tbl name with
  | none => 0
  | some it => it.depth

/-- The dependency list stored for `name`, empty when `name` has no node. -/
def depsOf (tbl : Table) (name : String) : List String :=
  match lookup tbl name with
  | none => []
  | some it => it.deps

/-- The table with every depth erased: the graph and the flags. -/
def strip (tbl : Table) : Table := tbl.map (fun it => { it with depth := 0 })

/-- Two tables that differ in the depth fields only. -/
def same_graph (a b : Table) : Prop := strip a = strip b

/-- A dependency edge: `b` is in the dependency list of `a`. -/
def edge (tbl : Table) (a b : String) : Prop := b ∈ depsOf tbl a

/-- A dependency cycle passes through `c`. -/
def on_cycle (tbl : Table) (c : String) : Prop := Relation.TransGen (edge tbl) c c

/-- The node `a` lies on a dependency cycle or reaches one. -/
def reaches_cycle (tbl : Table) (a : String) : Prop :=
  ∃ c, Relation.ReflTransGen (edge tbl) a c ∧ on_cycle tbl c

/-- Every name in a dependency list has a node. -/
def closed (tbl : Table) : Prop :=
  ∀ it ∈ tbl, ∀ d ∈ it.deps, d ∈ keys tbl

/-- Every depth is `0`, as after `calloc`. -/
def fresh (tbl : Table) : Prop := ∀ it ∈ tbl, it.depth = 0

/-- The keys of the hash table are pairwise distinct. -/
def keys_unique (tbl : Table) : Prop := (keys tbl).Nodup

/-- The value of `max_depth` after the loop of `calc_depth` when no
dependency returns a negative depth. -/
def max_fold (tbl : Table) : List String → Int → Int
  | [], acc => acc
  | m :: rest, acc =>
    if acc < depthOf tbl m + 1 then max_fold tbl rest (depthOf tbl m + 1)
    else max_fold tbl rest acc

/-! ## `find_deps` -/

/-- The result of `sqlite3_step(ctx->stmt_package)` for a package and an
architecture: `SQLITE_ROW` with the text of column 0 (`none` is `NULL`),
`SQLITE_DONE`, or another code, on which `check_sqlite_ret` exits. -/
inductive package_step where
  | row (full_version : Option String)
  | done
  | error
deriving DecidableEq, Repr

/-- One row of `stmt_dep`: columns `dependency`, `full_version` (`none` is
`NULL`) and `builddep`. -/
structure dep_row where
  dependency : String
  full_version : Option String
  builddep : Bool
deriving DecidableEq, Repr

/-- The database behind `db_ctx`, as the two prepared statements see it.
`stmt_package package arch` is the first step of `sql_package`;
`stmt_dep package arch relationship` is the list of rows `sql_dep` returns
before it ends, and whether it ends with `SQLITE_DONE` (`true`) or with an
error code (`false`). -/
structure db_ctx where
  stmt_package : String → String → package_step
  stmt_dep : String → String → String → List dep_row × Bool

/-- How a run ends: it returns, it exits with `EXIT_FAILURE` in
`check_sqlite_ret`, or the model runs out of fuel. -/
inductive Run (α : Type) where
  | ok (a : α)
  | exit_failure
  | no_fuel
deriving DecidableEq, Repr

/-- The test `flag & bit`. -/
def has_flag (flag bit : Nat) : Bool := flag &&& bit != 0

/-- The call `g_hash_table_insert(dep_table, item->name, item)` for a name
that has no node. -/
def insert_item (tbl : Table) (it : depitem) : Table := tbl ++ [it]

/-- The flag stored for `name`, and `0` when `name` has no node. -/
def flagOf (tbl : Table) (name : String) : Nat :=
  match lookup tbl name with
  | none => 0
  | some it => it.flag

/-- The version stored for `name` (`none` is `NULL`). -/
def versionOf (tbl : Table) (name : String) : Option String :=
  match lookup tbl name with
  | none => none
  | some it => it.version

/-- The item created for a dependency that has no node: `calloc`, the name
and `next_item->version = g_strdup(p_dep_version)`. -/
def new_dep_item (r : dep_row) : depitem :=
  { calloc_item r.dependency with version := r.full_version }

/-- The flags a row of `stmt_dep` sets on the dependency. -/
def row_flags (r : dep_row) (flag : Nat) : Nat :=
  let f1 := if r.builddep then flag ||| PKG_BUILDDEP else flag
  if r.full_version = none then f1 ||| PKG_DEP_NOT_MET else f1

/-- The body of the `for` loop of `find_deps` for one row of `stmt_dep`:
the name is prepended to the dependency list of the current item, its node
is created when missing, and the two flags are set. -/
def dep_row_step (tbl : Table) (cur : String) (r : dep_row) : Table :=
  let tbl1 := modify_item tbl cur (fun it => { it with deps := r.dependency :: it.deps })
  let tbl2 :=
    match lookup tbl1 r.dependency with
    | none => insert_item tbl1 (new_dep_item r)
    | some _ => tbl1
  let tbl3 :=
    if r.builddep then
      modify_item tbl2 r.dependency (fun it => { it with flag := it.flag ||| PKG_BUILDDEP })
    else tbl2
  if r.full_version = none then
    modify_item tbl3 r.dependency (fun it => { it with flag := it.flag ||| PKG_DEP_NOT_MET })
  else tbl3

/-- The start of an iteration of `find_deps` for a name that is not yet
visited: the node is created when missing and `flag = PKG_VISITED` is
stored. -/
def enter_item (tbl : Table) (cur : String) : Table :=
  let tbl1 :=
    match lookup tbl cur with
    | none => insert_item tbl (calloc_item cur)
    | some _ => tbl
  modify_item tbl1 cur (fun it => { it with flag := PKG_VISITED })

/-- The relationship bound to `?3` of `sql_dep`. -/
def relationship (builddep : Bool) : String := if builddep then "BUILDDEP" else "PKGDEP"

/-- The dependency query of `find_deps` for the current item: the table
after the rows, and whether the query ended with `SQLITE_DONE`. -/
def expand_item (ctx : db_ctx) (arch : String) (builddep : Bool) (tbl : Table)
    (cur : String) : Table × Bool :=
  let res := ctx.stmt_dep cur arch (relationship builddep)
  (res.1.foldl (fun t r => dep_row_step t cur r) tbl, res.2)

/-- One iteration of the `while` loop of `find_deps` for the name `cur`,
with the recursive call abstracted as `recur`.  The arguments `verbose`,
`root_package` and `depth` of the C function only feed `g_printerr` and are
left out. -/
def find_deps_visit (recur : List String → Table → Run Table) (ctx : db_ctx)
    (arch : String) (builddep : Bool) (cur : String) (tbl : Table) : Run Table :=
  if has_flag (flagOf tbl cur) PKG_VISITED then Run.ok tbl
  else
    let tbl1 := enter_item tbl cur
    match versionOf tbl1 cur with
    | some _ =>
      if (expand_item ctx arch builddep tbl1 cur).2 then
        recur (depsOf (expand_item ctx arch builddep tbl1 cur).1 cur)
          (expand_item ctx arch builddep tbl1 cur).1
      else Run.exit_failure
    | none =>
      match ctx.stmt_package cur arch with
      | package_step.row v =>
        let tbl2 := modify_item tbl1 cur (fun it => { it with version := v })
        if (expand_item ctx arch builddep tbl2 cur).2 then
          recur (depsOf (expand_item ctx arch builddep tbl2 cur).1 cur)
            (expand_item ctx arch builddep tbl2 cur).1
        else Run.exit_failure
      | package_step.done =>
        Run.ok (modify_item tbl1 cur (fun it => { it with flag := it.flag ||| PKG_NOT_FOUND }))
      | package_step.error => Run.exit_failure

/-- The `while` loop of `find_deps` over the list `packages`. -/
def find_deps_loop (recur : List String → Table → Run Table) (ctx : db_ctx)
    (arch : String) (builddep : Bool) : List String → Table → Run Table
  | [], tbl => Run.ok tbl
  | cur :: rest, tbl =>
    match find_deps_visit recur ctx arch builddep cur tbl with
    | Run.ok tbl1 => find_deps_loop recur ctx arch builddep rest tbl1
    | Run.exit_failure => Run.exit_failure
    | Run.no_fuel => Run.no_fuel

/-- The function `find_deps(ctx, arch, builddep, ..., packages, dep_table)`:
the table after the call.  The first argument bounds the recursion depth. -/
def find_deps : Nat → db_ctx → String → Bool → List String → Table → Run Table
  | 0, _, _, _, _, _ => Run.no_fuel
  | fuel + 1, ctx, arch, builddep, packages, tbl =>
    find_deps_loop (find_deps fuel ctx arch builddep) ctx arch builddep packages tbl

/-- The exit status `main` computes from the arrays `toposort` filled. -/
def exit_status (loops : Buckets) : Nat :=
  if loops.length ≠ 0 then EXIT_CIRCULAR else EXIT_SUCCESS

/-- The function `main` after the options are parsed and the database is
opened: `args` are the package names `argv[1..]`, which are prepended one by
one to `packages`.  The result is the exit status, `none` when the model
runs out of fuel. -/
def main (fuel : Nat) (ctx : db_ctx) (arch : String) (builddep : Bool)
    (args : List String) : Option Nat :=
  if args = [] then some EXIT_FAILURE
  else
    match find_deps fuel ctx arch builddep args.reverse [] with
    | Run.ok tbl =>
      match toposort fuel tbl [] [] with
      | some (_, loops) => some (exit_status loops)
      | none => none
    | Run.exit_failure => some EXIT_FAILURE
    | Run.no_fuel => none

/-- The node `name` carries `PKG_VISITED`. -/
def visited (tbl : Table) (name : String) : Prop :=
  has_flag (flagOf tbl name) PKG_VISITED = true

/-- The node `name` carries `PKG_NOT_FOUND`. -/
def not_found (tbl : Table) (name : String) : Prop :=
  has_flag (flagOf tbl name) PKG_NOT_FOUND = true

/-- A dependency row of the database: the version query of `a` returns a
row and the dependency query of `a` returns a row that names `b`. -/
def db_edge (ctx : db_ctx) (arch : String) (builddep : Bool) (a b : String) : Prop :=
  (∃ v, ctx.stmt_package a arch = package_step.row v) ∧
  ∃ r ∈ (ctx.stmt_dep a arch (relationship builddep)).1, r.dependency = b

/-- A database without any package. -/
def db_empty : db_ctx :=
  { stmt_package := fun _ _ => package_step.done
    stmt_dep := fun _ _ _ => ([], true) }

/-- A database with the packages `A` and `B`, each depending on the other,
`A` at build time, and `B` also on the missing package `X`. -/
def db_cycle : db_ctx :=
  { stmt_package := fun p _ =>
      if p = "A" ∨ p = "B" then package_step.row (some "1.0") else package_step.done
    stmt_dep := fun p _ _ =>
      if p = "A" then ([{ dependency := "B", full_version := some "1.0", builddep := true }], true)
      else if p = "B" then
        ([{ dependency := "A", full_version := some "1.0", builddep := false },
          { dependency := "X", full_version := none, builddep := false }], true)
      else ([], true) }

/-- A database with the chain `A -> B -> C`. -/
def db_chain : db_ctx :=
  { stmt_package := fun p _ =>
      if p = "A" ∨ p = "B" ∨ p = "C" then package_step.row (some "2.1") else package_step.done
    stmt_dep := fun p _ _ =>
      if p = "A" then ([{ dependency := "B", full_version := some "2.1", builddep := false }], true)
      else if p = "B" then
        ([{ dependency := "C", full_version := some "2.1", builddep := false }], true)
      else ([], true) }

/-! ## Invariants used in the proofs -/

/-- Every name in the dependency list that is looked up for a name has a
node. -/
def closed_view (t : Table) : Prop := ∀ x, ∀ d ∈ depsOf t x, d ∈ keys t

/-- The nodes of the active call chain of `calc_depth`: each has a node, a
non-empty dependency list and a negative depth. -/
def chain_ok (tbl : Table) (chain : List String) : Prop :=
  ∀ c ∈ chain, c ∈ keys tbl ∧ depsOf tbl c ≠ [] ∧ depthOf tbl c < 0

/-- The positive depth of `x` is settled: a leaf has depth `1`, and a node
with dependencies has only dependencies of positive depth (or without a
node) and the depth `max_fold` computes from them. -/
def settled_at (tbl : Table) (x : String) : Prop :=
  (depsOf tbl x = [] → depthOf tbl x = 1) ∧
  (depsOf tbl x ≠ [] →
    (∀ m ∈ depsOf tbl x, m ∈ keys tbl → 0 < depthOf tbl m) ∧
    depthOf tbl x = max_fold tbl (depsOf tbl x) 0)

/-- The positive depths up to `k` are settled. -/
def pos_ok_below (tbl : Table) (k : Int) : Prop :=
  ∀ x ∈ keys tbl, 0 < depthOf tbl x → depthOf tbl x ≤ k → settled_at tbl x

/-- The state of the table when `calc_depth` is entered with sentinel `loop`
while the nodes of `chain` are in progress: no call of the current top-level
resolution has returned a negative depth yet. -/
structure entry_inv (tbl : Table) (loop : Int) (chain : List String) : Prop where
  pos : ∀ k, pos_ok_below tbl k
  leaf : ∀ x ∈ keys tbl, depsOf tbl x = [] → depthOf tbl x = 0 ∨ depthOf tbl x = 1
  on_chain : ∀ c ∈ chain, c ∈ keys tbl ∧ depsOf tbl c ≠ [] ∧ depthOf tbl c = loop
  cyc : ∀ x, depthOf tbl x < 0 → x ∉ chain → reaches_cycle tbl x
  same : ∀ x, depthOf tbl x < 0 → x ∉ chain →
    ∃ m ∈ depsOf tbl x, depthOf tbl m = depthOf tbl x
  above : ∀ x, x ∉ chain → loop < depthOf tbl x

/-- The state of the table when a call of `calc_depth` has returned the
negative depth `d` and the call chain `chain` is still to be unwound. -/
structure unwind_inv (tbl : Table) (loop : Int) (chain : List String) (d : Int) : Prop where
  pos : ∀ k, pos_ok_below tbl k
  leaf : ∀ x ∈ keys tbl, depsOf tbl x = [] → depthOf tbl x = 0 ∨ depthOf tbl x = 1
  on_chain : ∀ c ∈ chain, c ∈ keys tbl ∧ depsOf tbl c ≠ [] ∧ depthOf tbl c = loop
  cyc : ∀ x, depthOf tbl x < 0 → x ∉ chain →
    reaches_cycle tbl x ∨ ∃ c ∈ chain, Relation.ReflTransGen (edge tbl) x c
  same : ∀ x, depthOf tbl x < 0 → x ∉ chain →
    ∃ m ∈ depsOf tbl x, depthOf tbl m = depthOf tbl x
  above : ∀ x, x ∉ chain → loop ≤ depthOf tbl x
  strict : d ≠ loop → ∀ x, x ∉ chain → loop < depthOf tbl x
  dge : loop ≤ d

instance (tbl : Table) : Decidable (closed tbl) := by
  unfold closed; infer_instance

instance (tbl : Table) : Decidable (fresh tbl) := by
  unfold fresh; infer_instance

instance (tbl : Table) : Decidable (keys_unique tbl) := by
  unfold keys_unique; infer_instance

instance (tbl : Table) (a b : String) : Decidable (edge tbl a b) := by
  unfold edge; infer_instance

/-! ## Example tables -/

/-- The table of the scenario `A -> B -> C`, `C` a leaf. -/
def chain_abc : Table := [node "A" ["B"], node "B" ["C"], node "C" []]

/-- The table of the scenario `A -> B`, `A -> C`, `B` and `C` leaves. -/
def fork_abc : Table := [node "A" ["B", "C"], node "B" [], node "C" []]

/-- The table of the scenario `A -> B`, `B -> A`. -/
def cycle_ab : Table := [node "A" ["B"], node "B" ["A"]]

/-- A table with the cycle `N -> M -> N` whose two members also depend on
two other cycles: `N` on the cycle `N -> Q -> N`, `M` on `R -> R2 -> R`. -/
def split_cycle : Table :=
  [node "R" ["R2"], node "R2" ["R"], node "N" ["Q", "M"], node "Q" ["N"],
   node "M" ["R", "N"]]

/-- A table with the cycle `A -> B -> A` and a node `N` that depends on it. -/
def tail_cycle : Table := [node "N" ["A"], node "A" ["B"], node "B" ["A"]]

/-- The table `find_deps` builds for `db_cycle` from the root `A`. -/
def table_cycle : Table :=
  [{ depth := 0, flag := 1, name := "A", version := some "1.0", deps := ["B"] },
   { depth := 0, flag := 1, name := "B", version := some "1.0", deps := ["X", "A"] },
   { depth := 0, flag := 5, name := "X", version := none, deps := [] }]

/-- The table `find_deps` builds for `db_empty` from the root `X`. -/
def table_missing : Table :=
  [{ depth := 0, flag := 5, name := "X", version := none, deps := [] }]

/-- A table with stored depths that no run of `toposort` produces: `A` and
`B` depend on each other, `C` depends on both. -/
def stale_cycle : Table :=
  [{ depth := 7, flag := 0, name := "A", version := none, deps := ["B"] },
   { depth := -3, flag := 0, name := "B", version := none, deps := ["A"] },
   { depth := 2, flag := 0, name := "C", version := none, deps := ["A", "B"] }]

/-- A table in which the dependency name `Z` has no node. -/
def dangling : Table := [node "B" ["A"], node "A" ["Z"]]

/-- The number of iterations of the first loop of `toposort` in which
`calc_depth` is called and returns the sentinel it was given, that is the
number of times `loop--` is executed. -/
def toposort_closed (fuel : Nat) : List String → Table → Int → Nat
  | [], _, _ => 0
  | name :: rest, tbl, loop =>
    match lookup tbl name with
    | none => toposort_closed fuel rest tbl loop
    | some item =>
      if item.depth = 0 then
        match calc_depth fuel tbl name loop with
        | none => 0
        | some (tbl1, depth) =>
          if depth = loop then 1 + toposort_closed fuel rest tbl1 (loop - 1)
          else toposort_closed fuel rest tbl1 loop
      else toposort_closed fuel rest tbl loop

/-- The table `b` is the table `a` with every dependency list replaced by a
permutation of it: same names in the same iteration order. -/
def deps_reordered (a b : Table) : Prop :=
  List.Forall₂ (fun x y => x.name = y.name ∧ x.deps.Perm y.deps) a b

/-- A table whose four nodes lie on common cycles: `N -> Q -> N`,
`N -> M -> N` and `M -> M2 -> M`. -/
def scc_split : Table :=
  [node "N" ["Q", "M"], node "Q" ["N"], node "M" ["M2", "N"], node "M2" ["M"]]

/-- The table `scc_split` with the dependency list of `N` reversed. -/
def scc_split_rev : Table :=
  [node "N" ["M", "Q"], node "Q" ["N"], node "M" ["M2", "N"], node "M2" ["M"]]

/-- One iteration of the `while` loop of `find_deps` as in `find_deps_visit`,
with a log: the second component of the state lists the names for which the
dependency query `stmt_dep` has been issued, latest first. -/
def find_deps_visit_log
    (recur : List String → Table × List String → Run (Table × List String))
    (ctx : db_ctx) (arch : String) (builddep : Bool) (cur : String)
    (st : Table × List String) : Run (Table × List String) :=
  if has_flag (flagOf st.1 cur) PKG_VISITED then Run.ok st
  else
    let tbl1 := enter_item st.1 cur
    match versionOf tbl1 cur with
    | some _ =>
      if (expand_item ctx arch builddep tbl1 cur).2 then
        recur (depsOf (expand_item ctx arch builddep tbl1 cur).1 cur)
          ((expand_item ctx arch builddep tbl1 cur).1, cur :: st.2)
      else Run.exit_failure
    | none =>
      match ctx.stmt_package cur arch with
      | package_step.row v =>
        let tbl2 := modify_item tbl1 cur (fun it => { it with version := v })
        if (expand_item ctx arch builddep tbl2 cur).2 then
          recur (depsOf (expand_item ctx arch builddep tbl2 cur).1 cur)
            ((expand_item ctx arch builddep tbl2 cur).1, cur :: st.2)
        else Run.exit_failure
      | package_step.done =>
        Run.ok (modify_item tbl1 cur (fun it => { it with flag := it.flag ||| PKG_NOT_FOUND }),
          st.2)
      | package_step.error => Run.exit_failure

/-- The `while` loop of `find_deps` with the log of dependency queries. -/
def find_deps_loop_log
    (recur : List String → Table × List String → Run (Table × List String))
    (ctx : db_ctx) (arch : String) (builddep : Bool) :
    List String → Table × List String → Run (Table × List String)
  | [], st => Run.ok st
  | cur :: rest, st =>
    match find_deps_visit_log recur ctx arch builddep cur st with
    | Run.ok st1 => find_deps_loop_log recur ctx arch builddep rest st1
    | Run.exit_failure => Run.exit_failure
    | Run.no_fuel => Run.no_fuel

/-- The function `find_deps` with the log of dependency queries. -/
def find_deps_log : Nat → db_ctx → String → Bool → List String → Table × List String →
    Run (Table × List String)
  | 0, _, _, _, _, _ => Run.no_fuel
  | fuel + 1, ctx, arch, builddep, packages, st =>
    find_deps_loop_log (find_deps_log fuel ctx arch builddep) ctx arch builddep packages st

/-- The table of a run with a log. -/
def run_table : Run (Table × List String) → Run Table
  | Run.ok st => Run.ok st.1
  | Run.exit_failure => Run.exit_failure
  | Run.no_fuel => Run.no_fuel

/-- The number of entries of `names` that do not carry `PKG_VISITED`. -/
def unvisited (names : List String) (tbl : Table) : Nat :=
  names.countP (fun x => !has_flag (flagOf tbl x) PKG_VISITED)

/-- The invariant of a run of `find_deps` with a log over the names `names`:
every stored dependency name is in `names`, no name is logged twice, and every
logged name carries `PKG_VISITED`. -/
def log_inv (names : List String) (tbl : Table) (log : List String) : Prop :=
  (∀ x, ∀ d ∈ depsOf tbl x, d ∈ names) ∧ log.Nodup ∧ ∀ x ∈ log, visited tbl x

/-- The outcome of a run with a log that does not run out of fuel: the
invariant holds at the end and no name loses `PKG_VISITED`. -/
def log_run_ok (names : List String) (st : Table × List String)
    (r : Run (Table × List String)) : Prop :=
  r = Run.exit_failure ∨
    ∃ st1, r = Run.ok st1 ∧ log_inv names st1.1 st1.2 ∧
      (∀ x, visited st.1 x → visited st1.1 x) ∧ ∀ x ∈ st.2, x ∈ st1.2

/-! ## Basic facts -/

theorem lookup_none_iff (tbl : Table) (n : String) :
    lookup tbl n = none ↔ n ∉ keys tbl := by
  induction tbl with
  | nil => simp [lookup, keys]
  | cons it rest ih =>
    simp only [lookup, keys, List.find?_cons, List.map_cons, List.mem_cons, not_or] at ih ⊢
    by_cases h : it.name = n
    · simp [h]
    · simp only [h, decide_False]
      constructor
      · intro hh; exact ⟨fun e => h e.symm, ih.mp hh⟩
      · intro hh; exact ih.mpr hh.2

theorem lookup_some_name {tbl : Table} {n : String} {it : depitem}
    (h : lookup tbl n = some it) : it.name = n := by
  have := List.find?_some h
  simpa using this

theorem lookup_some_mem {tbl : Table} {n : String} {it : depitem}
    (h : lookup tbl n = some it) : it ∈ tbl :=
  List.mem_of_find?_eq_some h

theorem lookup_some_key {tbl : Table} {n : String} {it : depitem}
    (h : lookup tbl n = some it) : n ∈ keys tbl := by
  have h1 := lookup_some_mem h
  have h2 := lookup_some_name h
  simp only [keys, List.mem_map]
  exact ⟨it, h1, h2⟩

theorem lookup_of_key {tbl : Table} {n : String} (h : n ∈ keys tbl) :
    ∃ it, lookup tbl n = some it := by
  cases hl : lookup tbl n with
  | none => exact absurd h ((lookup_none_iff tbl n).mp hl)
  | some it => exact ⟨it, rfl⟩

theorem lookup_modify_item (tbl : Table) (n m : String) (f : depitem → depitem)
    (hf : ∀ it, (f it).name = it.name) :
    lookup (modify_item tbl n f) m
      = if m = n then (lookup tbl m).map f else lookup tbl m := by
  induction tbl with
  | nil => simp [lookup, modify_item]
  | cons it rest ih =>
    simp only [lookup] at ih ⊢
    by_cases h1 : it.name = n
    · by_cases h2 : m = n
      · subst h2
        simp [modify_item, h1, List.find?_cons, hf]
      · have h3 : ¬ n = m := fun e => h2 e.symm
        simp [modify_item, h1, h2, List.find?_cons, hf, h3]
    · by_cases h2 : m = n
      · subst h2
        simp only [modify_item, h1, if_false, List.find?_cons, decide_False]
        simpa using ih
      · simp only [modify_item, h1, if_false, List.find?_cons, h2]
        by_cases h3 : it.name = m
        · simp [h3]
        · simp only [h3, decide_False]
          simpa [h2] using ih

theorem keys_modify_item (tbl : Table) (n : String) (f : depitem → depitem)
    (hf : ∀ it, (f it).name = it.name) :
    keys (modify_item tbl n f) = keys tbl := by
  induction tbl with
  | nil => rfl
  | cons it rest ih =>
    simp only [keys] at ih ⊢
    by_cases h1 : it.name = n
    · simp [modify_item, h1, hf]
    · simp [modify_item, h1, ih]

theorem strip_set_depth (tbl : Table) (n : String) (d : Int) :
    strip (set_depth tbl n d) = strip tbl := by
  induction tbl with
  | nil => rfl
  | cons it rest ih =>
    simp only [strip, set_depth] at ih ⊢
    by_cases h1 : it.name = n
    · simp [modify_item, h1]
    · simp [modify_item, h1, ih]

theorem keys_strip (tbl : Table) : keys (strip tbl) = keys tbl := by
  simp [keys, strip, List.map_map, Function.comp_def]

theorem lookup_strip (tbl : Table) (n : String) :
    lookup (strip tbl) n = (lookup tbl n).map (fun it => { it with depth := 0 }) := by
  induction tbl with
  | nil => rfl
  | cons it rest ih =>
    simp only [lookup, strip, List.map_cons, List.find?_cons] at ih ⊢
    by_cases h : it.name = n
    · simp [h]
    · simp only [h, decide_False]
      exact ih

theorem depsOf_strip (tbl : Table) (n : String) : depsOf (strip tbl) n = depsOf tbl n := by
  simp only [depsOf, lookup_strip]
  cases lookup tbl n <;> rfl

theorem same_graph.keys_eq {a b : Table} (h : same_graph a b) : keys a = keys b := by
  rw [← keys_strip a, ← keys_strip b, h]

theorem same_graph.depsOf_eq {a b : Table} (h : same_graph a b) (n : String) :
    depsOf a n = depsOf b n := by
  rw [← depsOf_strip a, ← depsOf_strip b, h]

theorem same_graph.length_eq {a b : Table} (h : same_graph a b) : a.length = b.length := by
  have := congrArg List.length h
  simpa [strip] using this

theorem same_graph.refl (a : Table) : same_graph a a := rfl

theorem same_graph.trans {a b c : Table} (h1 : same_graph a b) (h2 : same_graph b c) :
    same_graph a c := Eq.trans h1 h2

theorem same_graph_set_depth (tbl : Table) (n : String) (d : Int) :
    same_graph tbl (set_depth tbl n d) := (strip_set_depth tbl n d).symm

theorem same_graph.edge_eq {a b : Table} (h : same_graph a b) : edge a = edge b := by
  funext x y
  simp only [edge, h.depsOf_eq]

theorem depthOf_set_depth_self {tbl : Table} {n : String} (d : Int) (h : n ∈ keys tbl) :
    depthOf (set_depth tbl n d) n = d := by
  obtain ⟨it, hit⟩ := lookup_of_key h
  simp [depthOf, set_depth, lookup_modify_item, hit]

theorem depthOf_set_depth_ne {tbl : Table} {n m : String} (d : Int) (h : m ≠ n) :
    depthOf (set_depth tbl n d) m = depthOf tbl m := by
  simp [depthOf, set_depth, lookup_modify_item, h]

theorem depsOf_set_depth (tbl : Table) (n m : String) (d : Int) :
    depsOf (set_depth tbl n d) m = depsOf tbl m :=
  ((same_graph_set_depth tbl n d).depsOf_eq m).symm

theorem keys_set_depth (tbl : Table) (n : String) (d : Int) :
    keys (set_depth tbl n d) = keys tbl :=
  ((same_graph_set_depth tbl n d).keys_eq).symm

theorem set_depth_set_depth (tbl : Table) (n : String) (a b : Int) :
    set_depth (set_depth tbl n a) n b = set_depth tbl n b := by
  induction tbl with
  | nil => rfl
  | cons it rest ih =>
    simp only [set_depth] at ih ⊢
    by_cases h1 : it.name = n
    · simp [modify_item, h1]
    · simp [modify_item, h1, ih]

theorem set_depth_same {tbl : Table} {n : String} (h : n ∈ keys tbl) :
    set_depth tbl n (depthOf tbl n) = tbl := by
  induction tbl with
  | nil => rfl
  | cons it rest ih =>
    by_cases h1 : it.name = n
    · subst h1
      simp [set_depth, modify_item, depthOf, lookup, List.find?_cons]
    · have h2 : n ∈ keys rest := by
        simp only [keys, List.map_cons, List.mem_cons] at h
        rcases h with h | h
        · exact absurd h.symm h1
        · exact h
      have h3 : depthOf (it :: rest) n = depthOf rest n := by
        simp [depthOf, lookup, List.find?_cons, h1]
      rw [h3]
      simp only [set_depth, modify_item, h1, if_false]
      congr 1
      exact ih h2

theorem depthOf_absent {tbl : Table} {n : String} (h : n ∉ keys tbl) : depthOf tbl n = 0 := by
  simp [depthOf, (lookup_none_iff tbl n).mpr h]

/-- The body of `calc_depth` in terms of the views. -/
theorem calc_depth_succ (fuel : Nat) (tbl : Table) (n : String) (loop : Int) :
    calc_depth (fuel + 1) tbl n loop =
      if n ∉ keys tbl then some (tbl, 0)
      else if depsOf tbl n = [] then some (set_depth tbl n 1, 1)
      else if depthOf tbl n < 0 then some (tbl, depthOf tbl n)
      else
        match calc_depth_loop (fun t m => calc_depth fuel t m loop)
            (set_depth tbl n loop) (depsOf tbl n) 0 with
        | none => none
        | some (tbl1, max_depth) => some (set_depth tbl1 n max_depth, max_depth) := by
  cases hl : lookup tbl n with
  | none =>
    have := (lookup_none_iff tbl n).mp hl
    simp [calc_depth, hl, this]
  | some it =>
    have := lookup_some_key hl
    simp only [calc_depth, hl, this, not_true_eq_false, if_false, depsOf, depthOf]

/-! ## Fuel -/

theorem calc_depth_loop_congr {r1 r2 : Table → String → Option (Table × Int)}
    (h : ∀ t n res, r1 t n = some res → r2 t n = some res) :
    ∀ (l : List String) (t : Table) (acc : Int) (res : Table × Int),
      calc_depth_loop r1 t l acc = some res → calc_depth_loop r2 t l acc = some res := by
  intro l
  induction l with
  | nil => intro t acc res hres; simpa [calc_depth_loop] using hres
  | cons m rest ih =>
    intro t acc res hres
    simp only [calc_depth_loop] at hres ⊢
    cases h1 : r1 t m with
    | none => simp [h1] at hres
    | some r =>
      obtain ⟨t1, d⟩ := r
      rw [h1] at hres
      rw [h t m _ h1]
      simp only at hres ⊢
      split_ifs at hres ⊢ with ha hb
      · exact hres
      · exact ih _ _ _ hres
      · exact ih _ _ _ hres

theorem calc_depth_mono : ∀ (fuel : Nat) (t : Table) (n : String) (loop : Int)
    (res : Table × Int),
    calc_depth fuel t n loop = some res → calc_depth (fuel + 1) t n loop = some res := by
  intro fuel
  induction fuel with
  | zero => intro t n loop res h; simp [calc_depth] at h
  | succ f ih =>
    intro t n loop res h
    rw [calc_depth_succ] at h ⊢
    by_cases h1 : n ∈ keys t
    swap
    · simpa [h1] using h
    simp only [h1, not_true_eq_false, if_false] at h ⊢
    by_cases h2 : depsOf t n = []
    · simpa [h2] using h
    simp only [h2, if_false] at h ⊢
    by_cases h3 : depthOf t n < 0
    · simpa [h3] using h
    simp only [h3, if_false] at h ⊢
    cases hl : calc_depth_loop (fun t m => calc_depth f t m loop)
        (set_depth t n loop) (depsOf t n) 0 with
    | none => simp [hl] at h
    | some r =>
      rw [hl] at h
      have hstep : ∀ t m res, (fun t m => calc_depth f t m loop) t m = some res →
          (fun t m => calc_depth (f + 1) t m loop) t m = some res :=
        fun t m res hh => ih t m loop res hh
      have := calc_depth_loop_congr hstep _ _ _ _ hl
      rw [this]
      exact h

theorem calc_depth_mono_le {fuel fuel1 : Nat} (hle : fuel ≤ fuel1) {t : Table} {n : String}
    {loop : Int} {res : Table × Int} (h : calc_depth fuel t n loop = some res) :
    calc_depth fuel1 t n loop = some res := by
  induction hle with
  | refl => exact h
  | step _ ih => exact calc_depth_mono _ _ _ _ _ ih

/-! ## Termination of `calc_depth` on an arbitrary table -/

theorem calc_depth_loop_spec {recur : Table → String → Option (Table × Int)}
    (P : Table → Prop)
    (h : ∀ t n, P t → ∃ t1 d, recur t n = some (t1, d) ∧ P t1) :
    ∀ (l : List String) (t : Table) (acc : Int), P t →
      ∃ t1 d, calc_depth_loop recur t l acc = some (t1, d) ∧ P t1 ∧
        (d < 0 ∨ (acc ≤ d ∧ (l ≠ [] → 1 ≤ d))) := by
  intro l
  induction l with
  | nil =>
    intro t acc hP
    exact ⟨t, acc, rfl, hP, Or.inr ⟨le_refl _, fun hh => absurd rfl hh⟩⟩
  | cons m rest ih =>
    intro t acc hP
    obtain ⟨t1, d, h1, hP1⟩ := h t m hP
    simp only [calc_depth_loop, h1]
    by_cases hd : d < 0
    · exact ⟨t1, d, by simp [hd], hP1, Or.inl hd⟩
    · simp only [hd, if_false]
      by_cases ha : acc < d + 1
      · simp only [ha, if_true]
        obtain ⟨t2, d2, h2, hP2, hd2⟩ := ih t1 (d + 1) hP1
        refine ⟨t2, d2, h2, hP2, ?_⟩
        rcases hd2 with hd2 | hd2
        · exact Or.inl hd2
        · exact Or.inr ⟨by omega, fun _ => by omega⟩
      · simp only [ha, if_false]
        obtain ⟨t2, d2, h2, hP2, hd2⟩ := ih t1 acc hP1
        refine ⟨t2, d2, h2, hP2, ?_⟩
        rcases hd2 with hd2 | hd2
        · exact Or.inl hd2
        · exact Or.inr ⟨hd2.1, fun _ => by omega⟩

theorem chain_length_le {tbl : Table} {chain : List String} (hc : chain_ok tbl chain)
    (hn : chain.Nodup) : chain.length ≤ (keys tbl).length :=
  (hn.subperm (fun c hcm => (hc c hcm).1)).length_le

/-- With a negative sentinel and fuel above the number of nodes that are
not on the call chain, `calc_depth` returns; it changes depths only, leaves
the call chain alone, never stores `0` and returns the depth it stored. -/
theorem calc_depth_total {loop : Int} (hloop : loop < 0) :
    ∀ (fuel : Nat) (t : Table) (chain : List String) (n : String),
      chain_ok t chain → chain.Nodup → (keys t).length + 1 ≤ fuel + chain.length →
      ∃ t1 d, calc_depth fuel t n loop = some (t1, d) ∧ same_graph t t1 ∧
        (∀ c ∈ chain, depthOf t1 c = depthOf t c) ∧
        (n ∈ keys t → d ≠ 0 ∧ depthOf t1 n = d) ∧
        (∀ x, depthOf t x ≠ 0 → depthOf t1 x ≠ 0) := by
  intro fuel
  induction fuel with
  | zero =>
    intro t chain n hc hn hf
    have := chain_length_le hc hn
    omega
  | succ f ih =>
    intro t chain n hc hn hf
    rw [calc_depth_succ]
    by_cases h1 : n ∈ keys t
    swap
    · exact ⟨t, 0, by simp [h1], same_graph.refl t, fun _ _ => rfl,
        fun hh => absurd hh h1, fun _ hx => hx⟩
    simp only [h1, not_true_eq_false, if_false]
    by_cases h2 : depsOf t n = []
    · simp only [h2, if_true]
      have hnc : n ∉ chain := fun hm => (hc n hm).2.1 h2
      refine ⟨_, 1, rfl, same_graph_set_depth t n 1, ?_, fun _ => ⟨by decide, ?_⟩, ?_⟩
      · intro c hcm
        exact depthOf_set_depth_ne 1 (fun e => hnc (e ▸ hcm))
      · exact depthOf_set_depth_self 1 h1
      · intro x hx
        by_cases hxn : x = n
        · subst hxn; rw [depthOf_set_depth_self 1 h1]; decide
        · rw [depthOf_set_depth_ne 1 hxn]; exact hx
    simp only [h2, if_false]
    by_cases h3 : depthOf t n < 0
    · simp only [h3, if_true]
      exact ⟨t, _, rfl, same_graph.refl t, fun _ _ => rfl, fun _ => ⟨by omega, rfl⟩,
        fun _ hx => hx⟩
    simp only [h3, if_false]
    have hnc : n ∉ chain := fun hm => h3 (hc n hm).2.2
    -- the state in which the loop runs
    have hg0 := same_graph_set_depth t n loop
    let P : Table → Prop := fun s =>
      same_graph t s ∧ (∀ c ∈ n :: chain, depthOf s c = depthOf (set_depth t n loop) c) ∧
        (∀ x, depthOf t x ≠ 0 → x ≠ n → depthOf s x ≠ 0)
    have hP0 : P (set_depth t n loop) :=
      ⟨hg0, fun _ _ => rfl, fun x hx hxn => by rw [depthOf_set_depth_ne loop hxn]; exact hx⟩
    have hstep : ∀ s m, P s →
        ∃ s1 d, (fun t m => calc_depth f t m loop) s m = some (s1, d) ∧ P s1 := by
      intro s m hPs
      obtain ⟨hg, hch, hnz⟩ := hPs
      have hc1 : chain_ok s (n :: chain) := by
        intro c hcm
        rw [← hg.keys_eq, ← hg.depsOf_eq, hch c hcm]
        rcases List.mem_cons.mp hcm with e | hcm1
        · subst e
          exact ⟨h1, h2, by rw [depthOf_set_depth_self loop h1]; exact hloop⟩
        · have hcn : c ≠ n := fun e => hnc (e ▸ hcm1)
          rw [depthOf_set_depth_ne loop hcn]
          exact hc c hcm1
      have hn1 : (n :: chain).Nodup := List.nodup_cons.mpr ⟨hnc, hn⟩
      have hf1 : (keys s).length + 1 ≤ f + (n :: chain).length := by
        rw [← hg.keys_eq]; simp only [List.length_cons]; omega
      obtain ⟨s1, d, he, hg1, hch1, _, hnz1⟩ := ih s (n :: chain) m hc1 hn1 hf1
      refine ⟨s1, d, he, hg.trans hg1, fun c hcm => (hch1 c hcm).trans (hch c hcm), ?_⟩
      intro x hx hxn
      exact hnz1 x (hnz x hx hxn)
    obtain ⟨s1, d, he, ⟨hg, hch, hnz⟩, hd⟩ :=
      calc_depth_loop_spec P hstep (depsOf t n) (set_depth t n loop) 0 hP0
    rw [he]
    have h1s : n ∈ keys s1 := hg.keys_eq ▸ h1
    have hd0 : d ≠ 0 := by
      rcases hd with hd | hd
      · omega
      · have := hd.2 h2; omega
    refine ⟨_, d, rfl, hg.trans (same_graph_set_depth s1 n d), ?_,
      fun _ => ⟨hd0, depthOf_set_depth_self d h1s⟩, ?_⟩
    · intro c hcm
      have hcn : c ≠ n := fun e => hnc (e ▸ hcm)
      rw [depthOf_set_depth_ne d hcn, hch c (List.mem_cons_of_mem _ hcm),
        depthOf_set_depth_ne loop hcn]
    · intro x hx
      by_cases hxn : x = n
      · subst hxn; rw [depthOf_set_depth_self d h1s]; exact hd0
      · rw [depthOf_set_depth_ne d hxn]; exact hnz x hx hxn

/-! ## Recomputing a settled positive depth -/

theorem max_fold_ge_acc (t : Table) : ∀ (l : List String) (acc : Int),
    acc ≤ max_fold t l acc := by
  intro l
  induction l with
  | nil => intro acc; exact le_refl _
  | cons m rest ih =>
    intro acc
    simp only [max_fold]
    split_ifs with h
    · exact le_trans (le_of_lt h) (ih _)
    · exact ih _

theorem max_fold_ge (t : Table) : ∀ (l : List String) (acc : Int) (m : String),
    m ∈ l → depthOf t m + 1 ≤ max_fold t l acc := by
  intro l
  induction l with
  | nil => intro acc m hm; simp at hm
  | cons a rest ih =>
    intro acc m hm
    simp only [max_fold]
    rcases List.mem_cons.mp hm with e | hm1
    · subst e
      split_ifs with h
      · exact max_fold_ge_acc t rest _
      · exact le_trans (not_lt.mp h) (max_fold_ge_acc t rest _)
    · split_ifs with h
      · exact ih _ m hm1
      · exact ih _ m hm1

theorem max_fold_attained (t : Table) : ∀ (l : List String) (acc : Int),
    max_fold t l acc = acc ∨ ∃ m ∈ l, max_fold t l acc = depthOf t m + 1 := by
  intro l
  induction l with
  | nil => intro acc; exact Or.inl rfl
  | cons a rest ih =>
    intro acc
    simp only [max_fold]
    split_ifs with h
    · rcases ih (depthOf t a + 1) with h1 | ⟨m, hm, h1⟩
      · exact Or.inr ⟨a, List.mem_cons_self _ _, h1⟩
      · exact Or.inr ⟨m, List.mem_cons_of_mem _ hm, h1⟩
    · rcases ih acc with h1 | ⟨m, hm, h1⟩
      · exact Or.inl h1
      · exact Or.inr ⟨m, List.mem_cons_of_mem _ hm, h1⟩

theorem max_fold_congr {t s : Table} : ∀ (l : List String) (acc : Int),
    (∀ m ∈ l, depthOf t m = depthOf s m) → max_fold t l acc = max_fold s l acc := by
  intro l
  induction l with
  | nil => intro acc _; rfl
  | cons a rest ih =>
    intro acc h
    simp only [max_fold]
    rw [h a (List.mem_cons_self _ _)]
    have h1 : ∀ m ∈ rest, depthOf t m = depthOf s m :=
      fun m hm => h m (List.mem_cons_of_mem _ hm)
    rw [ih _ h1, ih _ h1]

theorem max_fold_pos (t : Table) {l : List String} (hl : l ≠ [])
    (h : ∀ m ∈ l, 0 ≤ depthOf t m) : 1 ≤ max_fold t l 0 := by
  cases l with
  | nil => exact absurd rfl hl
  | cons a rest =>
    have h1 := max_fold_ge t (a :: rest) 0 a (List.mem_cons_self _ _)
    have h2 := h a (List.mem_cons_self _ _)
    omega

theorem calc_depth_loop_fixed {recur : Table → String → Option (Table × Int)} {t : Table} :
    ∀ (l : List String) (acc : Int),
      (∀ m ∈ l, recur t m = some (t, depthOf t m) ∧ 0 ≤ depthOf t m) →
      calc_depth_loop recur t l acc = some (t, max_fold t l acc) := by
  intro l
  induction l with
  | nil => intro acc _; rfl
  | cons a rest ih =>
    intro acc h
    obtain ⟨h1, h2⟩ := h a (List.mem_cons_self _ _)
    have h3 : ∀ m ∈ rest, recur t m = some (t, depthOf t m) ∧ 0 ≤ depthOf t m :=
      fun m hm => h m (List.mem_cons_of_mem _ hm)
    simp only [calc_depth_loop, h1, max_fold, not_lt.mpr h2, if_false]
    split_ifs with h4
    · exact ih _ h3
    · exact ih _ h3

/-- A node whose positive depth is settled is recomputed to the same depth,
and the table is the same after the call. -/
theorem calc_depth_settled {loop : Int} (hloop : loop < 0) :
    ∀ (k : Nat) (t : Table) (n : String) (fuel : Nat),
      n ∈ keys t → 0 < depthOf t n → depthOf t n ≤ k → pos_ok_below t (depthOf t n) →
      k < fuel → calc_depth fuel t n loop = some (t, depthOf t n) := by
  intro k
  induction k with
  | zero => intro t n fuel _ h1 h2; omega
  | succ k ih =>
    intro t n fuel hn hpos hle hok hfuel
    obtain ⟨f, rfl⟩ : ∃ f, fuel = f + 1 := ⟨fuel - 1, by omega⟩
    rw [calc_depth_succ]
    simp only [hn, not_true_eq_false, if_false]
    obtain ⟨hleaf, hnode⟩ := hok n hn hpos (le_refl _)
    by_cases h2 : depsOf t n = []
    · simp only [h2, if_true]
      rw [← hleaf h2, set_depth_same hn]
    simp only [h2, if_false, not_lt.mpr (le_of_lt hpos)]
    obtain ⟨hch, hd⟩ := hnode h2
    have hlt : ∀ m ∈ depsOf t n, depthOf t m < depthOf t n := by
      intro m hm
      have := max_fold_ge t (depsOf t n) 0 m hm
      omega
    have hne : ∀ m ∈ depsOf t n, m ≠ n := by
      intro m hm e
      have := hlt m hm
      rw [e] at this
      exact lt_irrefl _ this
    have hsame : ∀ m ∈ depsOf t n, depthOf (set_depth t n loop) m = depthOf t m :=
      fun m hm => depthOf_set_depth_ne loop (hne m hm)
    have hcall : ∀ m ∈ depsOf t n,
        (fun s m => calc_depth f s m loop) (set_depth t n loop) m
          = some (set_depth t n loop, depthOf (set_depth t n loop) m) ∧
        0 ≤ depthOf (set_depth t n loop) m := by
      intro m hm
      rw [hsame m hm]
      by_cases hmk : m ∈ keys t
      swap
      · obtain ⟨f1, rfl⟩ : ∃ f1, f = f1 + 1 := ⟨f - 1, by omega⟩
        have hmk1 : m ∉ keys (set_depth t n loop) := by rw [keys_set_depth]; exact hmk
        simp [calc_depth_succ, hmk1, depthOf_absent hmk]
      have hmpos := hch m hm hmk
      refine ⟨?_, le_of_lt hmpos⟩
      have hmk1 : m ∈ keys (set_depth t n loop) := by rw [keys_set_depth]; exact hmk
      have := ih (set_depth t n loop) m f hmk1 (by rw [hsame m hm]; exact hmpos)
        (by rw [hsame m hm]; have := hlt m hm; omega) ?_ (by omega)
      · rw [hsame m hm] at this; exact this
      · -- the settled part below `m` does not contain `n`
        rw [hsame m hm]
        intro x hx hxpos hxle
        have hxn : x ≠ n := by
          intro e
          rw [e, depthOf_set_depth_self loop hn] at hxpos
          omega
        rw [keys_set_depth] at hx
        rw [depthOf_set_depth_ne loop hxn] at hxpos hxle
        have hxlt : depthOf t x < depthOf t n := lt_of_le_of_lt hxle (hlt m hm)
        obtain ⟨hxleaf, hxnode⟩ := hok x hx hxpos (le_of_lt hxlt)
        unfold settled_at
        rw [depthOf_set_depth_ne loop hxn, depsOf_set_depth]
        refine ⟨hxleaf, fun hxd => ?_⟩
        obtain ⟨hxch, hxd1⟩ := hxnode hxd
        have hxsame : ∀ y ∈ depsOf t x, depthOf (set_depth t n loop) y = depthOf t y := by
          intro y hy
          apply depthOf_set_depth_ne
          intro e
          have := max_fold_ge t (depsOf t x) 0 y hy
          rw [← hxd1, e] at this
          omega
        refine ⟨fun y hy hyk => ?_, ?_⟩
        · rw [hxsame y hy]
          rw [keys_set_depth] at hyk
          exact hxch y hy hyk
        · rw [max_fold_congr _ _ hxsame]; exact hxd1
    rw [calc_depth_loop_fixed _ _ hcall, max_fold_congr _ _ hsame, ← hd]
    simp only
    rw [set_depth_set_depth, set_depth_same hn]

/-! ## The invariants of a resolution -/

theorem depthOf_neg_key {t : Table} {x : String} (h : depthOf t x ≠ 0) : x ∈ keys t := by
  by_contra hx
  exact h (depthOf_absent hx)

theorem reaches_cycle_congr {a b : Table} (h : same_graph a b) (x : String) :
    reaches_cycle a x ↔ reaches_cycle b x := by
  simp only [reaches_cycle, on_cycle, h.edge_eq]

theorem edge_set_depth (t : Table) (n : String) (v : Int) :
    edge (set_depth t n v) = edge t :=
  ((same_graph_set_depth t n v).edge_eq).symm

theorem settled_at_set_depth {t : Table} {n x : String} (v : Int) (hxn : x ≠ n)
    (hnd : n ∉ depsOf t x) (h : settled_at t x) : settled_at (set_depth t n v) x := by
  unfold settled_at at h ⊢
  rw [depthOf_set_depth_ne v hxn, depsOf_set_depth]
  have hsame : ∀ y ∈ depsOf t x, depthOf (set_depth t n v) y = depthOf t y :=
    fun y hy => depthOf_set_depth_ne v (fun e => hnd (e ▸ hy))
  refine ⟨h.1, fun hd => ⟨fun m hm hmk => ?_, ?_⟩⟩
  · rw [hsame m hm]
    rw [keys_set_depth] at hmk
    exact (h.2 hd).1 m hm hmk
  · rw [max_fold_congr _ _ hsame]
    exact (h.2 hd).2

theorem pos_ok_set_depth {t : Table} {n : String} {v : Int} (hn : n ∈ keys t)
    (hle : depthOf t n ≤ 0) (hpos : ∀ k, pos_ok_below t k)
    (hv : 0 < v → settled_at (set_depth t n v) n) :
    ∀ k, pos_ok_below (set_depth t n v) k := by
  intro k x hx hxpos _
  by_cases hxn : x = n
  · subst hxn
    rw [depthOf_set_depth_self v hn] at hxpos
    exact hv hxpos
  · rw [depthOf_set_depth_ne v hxn] at hxpos
    rw [keys_set_depth] at hx
    have hs := hpos (depthOf t x) x hx hxpos (le_refl _)
    refine settled_at_set_depth v hxn (fun hnd => ?_) hs
    have hne : depsOf t x ≠ [] := List.ne_nil_of_mem hnd
    have := (hs.2 hne).1 n hnd hn
    omega

theorem entry_inv.to_unwind {t : Table} {loop : Int} {chain : List String} {d : Int}
    (h : entry_inv t loop chain) (hd : loop ≤ d) : unwind_inv t loop chain d :=
  { pos := h.pos
    leaf := h.leaf
    on_chain := h.on_chain
    cyc := fun x hx hxc => Or.inl (h.cyc x hx hxc)
    same := h.same
    above := fun x hxc => le_of_lt (h.above x hxc)
    strict := fun _ x hxc => h.above x hxc
    dge := hd }

/-- Entering a node of depth `0`: the sentinel is stored and the node joins
the call chain. -/
theorem entry_inv.push {t : Table} {loop : Int} {chain : List String} {n : String}
    (h : entry_inv t loop chain) (hloop : loop < 0) (hn : n ∈ keys t)
    (hd : depsOf t n ≠ []) (h0 : depthOf t n = 0) :
    entry_inv (set_depth t n loop) loop (n :: chain) := by
  refine ⟨?_, ?_, ?_, ?_, ?_, ?_⟩
  · exact pos_ok_set_depth hn (le_of_eq h0) h.pos (fun hh => by omega)
  · intro x hx hxd
    rw [keys_set_depth] at hx
    rw [depsOf_set_depth] at hxd
    have hxn : x ≠ n := fun e => hd (e ▸ hxd)
    rw [depthOf_set_depth_ne loop hxn]
    exact h.leaf x hx hxd
  · intro c hc
    rw [keys_set_depth, depsOf_set_depth]
    rcases List.mem_cons.mp hc with e | hc1
    · subst e
      exact ⟨hn, hd, depthOf_set_depth_self loop hn⟩
    · have hcn : c ≠ n := by
        intro e
        have := (h.on_chain c hc1).2.2
        rw [e, h0] at this
        omega
      rw [depthOf_set_depth_ne loop hcn]
      exact h.on_chain c hc1
  · intro x hx hxc
    have hxn : x ≠ n := fun e => hxc (e ▸ List.mem_cons_self _ _)
    rw [depthOf_set_depth_ne loop hxn] at hx
    rw [← reaches_cycle_congr (same_graph_set_depth t n loop)]
    exact h.cyc x hx (fun hh => hxc (List.mem_cons_of_mem _ hh))
  · intro x hx hxc
    have hxn : x ≠ n := fun e => hxc (e ▸ List.mem_cons_self _ _)
    rw [depthOf_set_depth_ne loop hxn] at hx ⊢
    rw [depsOf_set_depth]
    obtain ⟨m, hm, hmd⟩ := h.same x hx (fun hh => hxc (List.mem_cons_of_mem _ hh))
    have hmn : m ≠ n := by
      intro e
      rw [e, h0] at hmd
      omega
    exact ⟨m, hm, by rw [depthOf_set_depth_ne loop hmn]; exact hmd⟩
  · intro x hxc
    have hxn : x ≠ n := fun e => hxc (e ▸ List.mem_cons_self _ _)
    rw [depthOf_set_depth_ne loop hxn]
    exact h.above x (fun hh => hxc (List.mem_cons_of_mem _ hh))

/-- Leaving a node all of whose dependencies returned a non-negative depth. -/
theorem entry_inv.pop_settled {s : Table} {loop : Int} {chain : List String} {n : String} {d : Int}
    (h : entry_inv s loop (n :: chain)) (hloop : loop < 0) (hnc : n ∉ chain)
    (hch : ∀ m ∈ depsOf s n, m ∈ keys s → 0 < depthOf s m)
    (hd : d = max_fold s (depsOf s n) 0) :
    entry_inv (set_depth s n d) loop chain := by
  obtain ⟨hn, hdeps, hdn⟩ := h.on_chain n (List.mem_cons_self _ _)
  have hnd : n ∉ depsOf s n := by
    intro hh
    have := hch n hh hn
    omega
  have hsame : ∀ y ∈ depsOf s n, depthOf (set_depth s n d) y = depthOf s y :=
    fun y hy => depthOf_set_depth_ne d (fun e => hnd (e ▸ hy))
  have hdpos : 1 ≤ d := by
    rw [hd]
    apply max_fold_pos s hdeps
    intro m hm
    by_cases hmk : m ∈ keys s
    · exact le_of_lt (hch m hm hmk)
    · rw [depthOf_absent hmk]
  refine ⟨?_, ?_, ?_, ?_, ?_, ?_⟩
  · apply pos_ok_set_depth hn (by omega) h.pos
    intro _
    unfold settled_at
    rw [depthOf_set_depth_self d hn, depsOf_set_depth]
    refine ⟨fun hh => absurd hh hdeps, fun _ => ⟨fun m hm hmk => ?_, ?_⟩⟩
    · rw [hsame m hm]
      rw [keys_set_depth] at hmk
      exact hch m hm hmk
    · rw [max_fold_congr _ _ hsame]; exact hd
  · intro x hx hxd
    rw [keys_set_depth] at hx
    rw [depsOf_set_depth] at hxd
    have hxn : x ≠ n := fun e => hdeps (e ▸ hxd)
    rw [depthOf_set_depth_ne d hxn]
    exact h.leaf x hx hxd
  · intro c hc
    have hcn : c ≠ n := fun e => hnc (e ▸ hc)
    rw [keys_set_depth, depsOf_set_depth, depthOf_set_depth_ne d hcn]
    exact h.on_chain c (List.mem_cons_of_mem _ hc)
  · intro x hx hxc
    have hxn : x ≠ n := by
      intro e
      rw [e, depthOf_set_depth_self d hn] at hx
      omega
    rw [depthOf_set_depth_ne d hxn] at hx
    rw [← reaches_cycle_congr (same_graph_set_depth s n d)]
    exact h.cyc x hx (by simp [hxn, hxc])
  · intro x hx hxc
    have hxn : x ≠ n := by
      intro e
      rw [e, depthOf_set_depth_self d hn] at hx
      omega
    rw [depthOf_set_depth_ne d hxn] at hx ⊢
    rw [depsOf_set_depth]
    have hxc1 : x ∉ n :: chain := by simp [hxn, hxc]
    obtain ⟨m, hm, hmd⟩ := h.same x hx hxc1
    have hmn : m ≠ n := by
      intro e
      have := h.above x hxc1
      rw [e, hdn] at hmd
      omega
    exact ⟨m, hm, by rw [depthOf_set_depth_ne d hmn]; exact hmd⟩
  · intro x hxc
    by_cases hxn : x = n
    · subst hxn
      rw [depthOf_set_depth_self d hn]
      omega
    · rw [depthOf_set_depth_ne d hxn]
      exact h.above x (by simp [hxn, hxc])

/-- Leaving a node one of whose dependencies returned the negative depth
`d`. -/
theorem unwind_inv.pop_negative {s : Table} {loop : Int} {chain : List String} {n : String} {d : Int}
    (h : unwind_inv s loop (n :: chain) d) (hloop : loop < 0) (hnc : n ∉ chain) (hd : d < 0)
    (hm : ∃ m ∈ depsOf s n, depthOf s m = d) :
    unwind_inv (set_depth s n d) loop chain d := by
  obtain ⟨hn, hdeps, hdn⟩ := h.on_chain n (List.mem_cons_self _ _)
  obtain ⟨m, hm, hmd⟩ := hm
  have hF : reaches_cycle s n ∨ ∃ c ∈ chain, Relation.ReflTransGen (edge s) n c := by
    have hnm : edge s n m := hm
    by_cases hmc : m ∈ n :: chain
    · rcases List.mem_cons.mp hmc with e | hmc1
      · subst e
        exact Or.inl ⟨m, Relation.ReflTransGen.refl, Relation.TransGen.single hnm⟩
      · exact Or.inr ⟨m, hmc1, Relation.ReflTransGen.single hnm⟩
    · rcases h.cyc m (by rw [hmd]; exact hd) hmc with ⟨c, hc1, hc2⟩ | ⟨c, hc1, hc2⟩
      · exact Or.inl ⟨c, Relation.ReflTransGen.head hnm hc1, hc2⟩
      · rcases List.mem_cons.mp hc1 with e | hc3
        · subst e
          exact Or.inl ⟨c, Relation.ReflTransGen.refl, Relation.TransGen.head' hnm hc2⟩
        · exact Or.inr ⟨c, hc3, Relation.ReflTransGen.head hnm hc2⟩
  refine ⟨?_, ?_, ?_, ?_, ?_, ?_, ?_, h.dge⟩
  · exact pos_ok_set_depth hn (by omega) h.pos (fun hh => by omega)
  · intro x hx hxd
    rw [keys_set_depth] at hx
    rw [depsOf_set_depth] at hxd
    have hxn : x ≠ n := fun e => hdeps (e ▸ hxd)
    rw [depthOf_set_depth_ne d hxn]
    exact h.leaf x hx hxd
  · intro c hc
    have hcn : c ≠ n := fun e => hnc (e ▸ hc)
    rw [keys_set_depth, depsOf_set_depth, depthOf_set_depth_ne d hcn]
    exact h.on_chain c (List.mem_cons_of_mem _ hc)
  · intro x hx hxc
    rw [← reaches_cycle_congr (same_graph_set_depth s n d), edge_set_depth]
    by_cases hxn : x = n
    · subst hxn; exact hF
    · rw [depthOf_set_depth_ne d hxn] at hx
      rcases h.cyc x hx (by simp [hxn, hxc]) with hc | ⟨c, hc1, hc2⟩
      · exact Or.inl hc
      · rcases List.mem_cons.mp hc1 with e | hc3
        · subst e
          rcases hF with ⟨c1, hc4, hc5⟩ | ⟨c1, hc4, hc5⟩
          · exact Or.inl ⟨c1, hc2.trans hc4, hc5⟩
          · exact Or.inr ⟨c1, hc4, hc2.trans hc5⟩
        · exact Or.inr ⟨c, hc3, hc2⟩
  · intro x hx hxc
    rw [depsOf_set_depth]
    by_cases hxn : x = n
    · subst hxn
      rw [depthOf_set_depth_self d hn]
      refine ⟨m, hm, ?_⟩
      by_cases hmx : m = x
      · subst hmx; exact depthOf_set_depth_self d hn
      · rw [depthOf_set_depth_ne d hmx]; exact hmd
    · rw [depthOf_set_depth_ne d hxn] at hx ⊢
      have hxc1 : x ∉ n :: chain := by simp [hxn, hxc]
      obtain ⟨y, hy, hyd⟩ := h.same x hx hxc1
      refine ⟨y, hy, ?_⟩
      by_cases hyn : y = n
      · subst hyn
        rw [depthOf_set_depth_self d hn, ← hyd, hdn]
        by_contra hne
        have := h.strict hne x hxc1
        rw [← hyd, hdn] at this
        exact lt_irrefl _ this
      · rw [depthOf_set_depth_ne d hyn]; exact hyd
  · intro x hxc
    by_cases hxn : x = n
    · subst hxn
      rw [depthOf_set_depth_self d hn]
      exact h.dge
    · rw [depthOf_set_depth_ne d hxn]
      exact h.above x (by simp [hxn, hxc])
  · intro hne x hxc
    by_cases hxn : x = n
    · subst hxn
      rw [depthOf_set_depth_self d hn]
      exact lt_of_le_of_ne h.dge (Ne.symm hne)
    · rw [depthOf_set_depth_ne d hxn]
      exact h.strict hne x (by simp [hxn, hxc])

/-- The loop of `calc_depth` under an entry invariant `I` and an unwinding
invariant `U` of the recursive call. -/
theorem calc_depth_loop_inv {recur : Table → String → Option (Table × Int)}
    (I : Table → Prop) (U : Table → Int → Prop)
    (hrec : ∀ t m t1 d, recur t m = some (t1, d) → I t →
      same_graph t t1 ∧ (m ∈ keys t → depthOf t1 m = d ∧ d ≠ 0) ∧ (m ∉ keys t → d = 0) ∧
      (0 ≤ d → I t1 ∧ ∀ x, depthOf t x ≠ 0 → depthOf t1 x = depthOf t x) ∧
      (d < 0 → U t1 d)) :
    ∀ (l : List String) (t : Table) (acc : Int) (t1 : Table) (d : Int), 0 ≤ acc →
      calc_depth_loop recur t l acc = some (t1, d) → I t →
      same_graph t t1 ∧
      (0 ≤ d → I t1 ∧ (∀ x, depthOf t x ≠ 0 → depthOf t1 x = depthOf t x) ∧
        (∀ m ∈ l, m ∈ keys t → 0 < depthOf t1 m) ∧ d = max_fold t1 l acc) ∧
      (d < 0 → U t1 d ∧ ∃ m ∈ l, depthOf t1 m = d) := by
  intro l
  induction l with
  | nil =>
    intro t acc t1 d hacc h hI
    simp only [calc_depth_loop, Option.some.injEq, Prod.mk.injEq] at h
    obtain ⟨rfl, rfl⟩ := h
    refine ⟨same_graph.refl t, fun _ => ⟨hI, fun _ _ => rfl, ?_, rfl⟩, fun hd => ?_⟩
    · intro m hm; simp at hm
    · omega
  | cons a rest ih =>
    intro t acc t1 d hacc h hI
    simp only [calc_depth_loop] at h
    cases ha : recur t a with
    | none => simp [ha] at h
    | some r =>
      obtain ⟨ta, da⟩ := r
      rw [ha] at h
      simp only at h
      obtain ⟨hg, hin, hout, hnn, hneg⟩ := hrec t a ta da ha hI
      by_cases hda : da < 0
      · simp only [hda, if_true, Option.some.injEq, Prod.mk.injEq] at h
        obtain ⟨rfl, rfl⟩ := h
        refine ⟨hg, fun hh => by omega, fun _ => ⟨hneg hda, a, List.mem_cons_self _ _, ?_⟩⟩
        by_cases hak : a ∈ keys t
        · exact (hin hak).1
        · have := hout hak; omega
      · simp only [hda, if_false] at h
        obtain ⟨hIa, hmono⟩ := hnn (not_lt.mp hda)
        have hda_eq : depthOf ta a = da := by
          by_cases hak : a ∈ keys t
          · exact (hin hak).1
          · rw [hout hak]
            exact depthOf_absent (hg.keys_eq ▸ hak)
        have key : ∀ acc1, 0 ≤ acc1 →
            calc_depth_loop recur ta rest acc1 = some (t1, d) →
            acc1 = (if acc < da + 1 then da + 1 else acc) →
            same_graph t t1 ∧
            (0 ≤ d → I t1 ∧ (∀ x, depthOf t x ≠ 0 → depthOf t1 x = depthOf t x) ∧
              (∀ m ∈ a :: rest, m ∈ keys t → 0 < depthOf t1 m) ∧
              d = max_fold t1 (a :: rest) acc) ∧
            (d < 0 → U t1 d ∧ ∃ m ∈ a :: rest, depthOf t1 m = d) := by
          intro acc1 hacc1 h1 he
          obtain ⟨hg1, hnn1, hneg1⟩ := ih ta acc1 t1 d hacc1 h1 hIa
          refine ⟨hg.trans hg1, fun hd => ?_, fun hd => ?_⟩
          · obtain ⟨hI1, hmono1, hpos1, hd1⟩ := hnn1 hd
            have hda1 : a ∈ keys t → depthOf t1 a = da := by
              intro hak
              rw [hmono1 a (by rw [hda_eq]; exact (hin hak).2), hda_eq]
            have hda2 : depthOf t1 a = da := by
              by_cases hak : a ∈ keys t
              · exact hda1 hak
              · rw [hout hak]
                exact depthOf_absent (hg1.keys_eq ▸ hg.keys_eq ▸ hak)
            refine ⟨hI1, ?_, ?_, ?_⟩
            · intro x hx
              rw [hmono1 x (by rw [hmono x hx]; exact hx), hmono x hx]
            · intro m hm hmk
              rcases List.mem_cons.mp hm with e | hm1
              · subst e
                rw [hda1 hmk]
                have := (hin hmk).2
                omega
              · exact hpos1 m hm1 (hg.keys_eq ▸ hmk)
            · simp only [max_fold, hda2]
              rw [hd1, he]
              split_ifs <;> rfl
          · obtain ⟨hU, m, hm, hmd⟩ := hneg1 hd
            exact ⟨hU, m, List.mem_cons_of_mem _ hm, hmd⟩
        by_cases hacc2 : acc < da + 1
        · simp only [hacc2, if_true] at h
          exact key (da + 1) (by omega) h (by simp [hacc2])
        · simp only [hacc2, if_false] at h
          exact key acc hacc h (by simp [hacc2])

/-- The effect of `calc_depth` on a table in which the earlier resolutions
are settled: a non-negative result keeps the entry invariant and changes no
depth that was not `0`; a negative result gives the unwinding invariant. -/
theorem calc_depth_inv {loop : Int} (hloop : loop < 0) :
    ∀ (fuel : Nat) (t : Table) (chain : List String) (n : String) (t1 : Table) (d : Int),
      calc_depth fuel t n loop = some (t1, d) → entry_inv t loop chain →
      same_graph t t1 ∧ (n ∈ keys t → depthOf t1 n = d ∧ d ≠ 0) ∧ (n ∉ keys t → d = 0) ∧
      (0 ≤ d → entry_inv t1 loop chain ∧ ∀ x, depthOf t x ≠ 0 → depthOf t1 x = depthOf t x) ∧
      (d < 0 → unwind_inv t1 loop chain d) := by
  intro fuel
  induction fuel with
  | zero => intro t chain n t1 d h; simp [calc_depth] at h
  | succ f ih =>
    intro t chain n t1 d h0 hI
    have h := h0
    rw [calc_depth_succ] at h
    by_cases h1 : n ∈ keys t
    swap
    · simp only [h1, not_false_eq_true, if_true, Option.some.injEq, Prod.mk.injEq] at h
      obtain ⟨rfl, rfl⟩ := h
      exact ⟨same_graph.refl _, fun hh => absurd hh h1, fun _ => rfl,
        fun _ => ⟨hI, fun _ _ => rfl⟩, fun hh => by omega⟩
    simp only [h1, not_true_eq_false, if_false] at h
    -- a call that gives the table back unchanged
    have hsame_case : t1 = t → d = depthOf t n → d ≠ 0 →
        same_graph t t1 ∧ (n ∈ keys t → depthOf t1 n = d ∧ d ≠ 0) ∧ (n ∉ keys t → d = 0) ∧
        (0 ≤ d → entry_inv t1 loop chain ∧
          ∀ x, depthOf t x ≠ 0 → depthOf t1 x = depthOf t x) ∧
        (d < 0 → unwind_inv t1 loop chain d) := by
      intro e1 e2 hd0
      subst e1
      refine ⟨same_graph.refl _, fun _ => ⟨e2.symm, hd0⟩, fun hh => absurd h1 hh,
        fun _ => ⟨hI, fun _ _ => rfl⟩, fun _ => hI.to_unwind ?_⟩
      rw [e2]
      by_cases hnc : n ∈ chain
      · exact le_of_eq (hI.on_chain n hnc).2.2.symm
      · exact le_of_lt (hI.above n hnc)
    by_cases h2 : depsOf t n = []
    · simp only [h2, if_true, Option.some.injEq, Prod.mk.injEq] at h
      obtain ⟨rfl, rfl⟩ := h
      have hnc : n ∉ chain := fun hm => (hI.on_chain n hm).2.1 h2
      rcases hI.leaf n h1 h2 with hz | ho
      swap
      · apply hsame_case
        · rw [← ho, set_depth_same h1]
        · exact ho.symm
        · decide
      have hn1 := depthOf_set_depth_self 1 h1
      refine ⟨same_graph_set_depth t n 1, fun _ => ⟨hn1, by decide⟩,
        fun hh => absurd h1 hh, fun _ => ⟨?_, ?_⟩, fun hh => by omega⟩
      · refine ⟨?_, ?_, ?_, ?_, ?_, ?_⟩
        · apply pos_ok_set_depth h1 (le_of_eq hz) hI.pos
          intro _
          unfold settled_at
          rw [depsOf_set_depth]
          exact ⟨fun _ => hn1, fun hh => absurd h2 hh⟩
        · intro x hx hxd
          rw [keys_set_depth] at hx
          rw [depsOf_set_depth] at hxd
          by_cases hxn : x = n
          · subst hxn; exact Or.inr hn1
          · rw [depthOf_set_depth_ne 1 hxn]; exact hI.leaf x hx hxd
        · intro c hc
          have hcn : c ≠ n := fun e => hnc (e ▸ hc)
          rw [keys_set_depth, depsOf_set_depth, depthOf_set_depth_ne 1 hcn]
          exact hI.on_chain c hc
        · intro x hx hxc
          have hxn : x ≠ n := by
            intro e
            rw [e, hn1] at hx
            omega
          rw [depthOf_set_depth_ne 1 hxn] at hx
          rw [← reaches_cycle_congr (same_graph_set_depth t n 1)]
          exact hI.cyc x hx hxc
        · intro x hx hxc
          have hxn : x ≠ n := by
            intro e
            rw [e, hn1] at hx
            omega
          rw [depthOf_set_depth_ne 1 hxn] at hx ⊢
          rw [depsOf_set_depth]
          obtain ⟨m, hm, hmd⟩ := hI.same x hx hxc
          have hmn : m ≠ n := by
            intro e
            rw [e, hz] at hmd
            omega
          exact ⟨m, hm, by rw [depthOf_set_depth_ne 1 hmn]; exact hmd⟩
        · intro x hxc
          by_cases hxn : x = n
          · subst hxn; rw [hn1]; omega
          · rw [depthOf_set_depth_ne 1 hxn]; exact hI.above x hxc
      · intro x hx
        have hxn : x ≠ n := fun e => hx (e ▸ hz)
        exact depthOf_set_depth_ne 1 hxn
    simp only [h2, if_false] at h
    by_cases h3 : depthOf t n < 0
    · simp only [h3, if_true, Option.some.injEq, Prod.mk.injEq] at h
      obtain ⟨rfl, rfl⟩ := h
      exact hsame_case rfl rfl (by omega)
    simp only [h3, if_false] at h
    by_cases h4 : 0 < depthOf t n
    · -- a settled positive depth is recomputed
      have hset := calc_depth_settled hloop (depthOf t n).toNat t n
        (max (f + 1) ((depthOf t n).toNat + 1)) h1 h4 (by omega) (hI.pos _) (by omega)
      have hmono := calc_depth_mono_le (le_max_left (f + 1) ((depthOf t n).toNat + 1)) h0
      rw [hset] at hmono
      simp only [Option.some.injEq, Prod.mk.injEq] at hmono
      exact hsame_case hmono.1.symm hmono.2.symm (by omega)
    have hz : depthOf t n = 0 := by omega
    have hnc : n ∉ chain := by
      intro hm
      have := (hI.on_chain n hm).2.2
      omega
    cases hl : calc_depth_loop (fun t m => calc_depth f t m loop)
        (set_depth t n loop) (depsOf t n) 0 with
    | none => simp [hl] at h
    | some r =>
      obtain ⟨s, dl⟩ := r
      rw [hl] at h
      simp only [Option.some.injEq, Prod.mk.injEq] at h
      obtain ⟨rfl, rfl⟩ := h
      have hpush := hI.push hloop h1 h2 hz
      obtain ⟨hg, hnn, hneg⟩ := calc_depth_loop_inv
        (fun s => entry_inv s loop (n :: chain)) (fun s d => unwind_inv s loop (n :: chain) d)
        (fun t m t1 d he hIt => ih t (n :: chain) m t1 d he hIt)
        (depsOf t n) (set_depth t n loop) 0 s dl (le_refl _) hl hpush
      have hgs : same_graph t s := (same_graph_set_depth t n loop).trans hg
      have h1s : n ∈ keys s := hgs.keys_eq ▸ h1
      have hds : depsOf s n = depsOf t n := (hgs.depsOf_eq n).symm
      have hnd := depthOf_set_depth_self dl h1s
      by_cases hdl : dl < 0
      · obtain ⟨hU, hm⟩ := hneg hdl
        refine ⟨hgs.trans (same_graph_set_depth s n dl), fun _ => ⟨hnd, by omega⟩,
          fun hh => absurd h1 hh, fun hh => by omega, fun _ => ?_⟩
        exact hU.pop_negative hloop hnc hdl (by rw [hds]; exact hm)
      · obtain ⟨hIs, hmono, hpos, hdeq⟩ := hnn (not_lt.mp hdl)
        have hch : ∀ m ∈ depsOf s n, m ∈ keys s → 0 < depthOf s m := by
          intro m hm hmk
          rw [hds] at hm
          have hmk1 : m ∈ keys (set_depth t n loop) := by
            rw [keys_set_depth, hgs.keys_eq]; exact hmk
          exact hpos m hm hmk1
        have hpop : entry_inv (set_depth s n dl) loop chain :=
          hIs.pop_settled hloop hnc hch (by rw [hds]; exact hdeq)
        have hdl1 : 1 ≤ dl := by
          rw [hdeq, ← hds]
          apply max_fold_pos s (by rw [hds]; exact h2)
          intro m hm
          by_cases hmk : m ∈ keys s
          · exact le_of_lt (hch m hm hmk)
          · rw [depthOf_absent hmk]
        refine ⟨hgs.trans (same_graph_set_depth s n dl), fun _ => ⟨hnd, by omega⟩,
          fun hh => absurd h1 hh, fun _ => ⟨hpop, ?_⟩, fun hh => absurd hh hdl⟩
        intro x hx
        have hxn : x ≠ n := fun e => hx (e ▸ hz)
        rw [depthOf_set_depth_ne dl hxn, hmono x (by rw [depthOf_set_depth_ne loop hxn]; exact hx),
          depthOf_set_depth_ne loop hxn]

/-! ## The first loop of `toposort` -/

theorem depthOf_eq_of_lookup {t : Table} {n : String} {it : depitem}
    (h : lookup t n = some it) : depthOf t n = it.depth := by
  simp [depthOf, h]

theorem depsOf_eq_of_lookup {t : Table} {n : String} {it : depitem}
    (h : lookup t n = some it) : depsOf t n = it.deps := by
  simp [depsOf, h]

/-- One iteration of the first loop of `toposort` in terms of the views. -/
theorem toposort_resolve_cons (fuel : Nat) (name : String) (rest : List String)
    (t : Table) (loop : Int) :
    toposort_resolve fuel (name :: rest) t loop =
      if name ∈ keys t ∧ depthOf t name = 0 then
        match calc_depth fuel t name loop with
        | none => none
        | some (t1, depth) =>
          toposort_resolve fuel rest t1 (if depth = loop then loop - 1 else loop)
      else toposort_resolve fuel rest t loop := by
  cases hl : lookup t name with
  | none =>
    have := (lookup_none_iff t name).mp hl
    simp [toposort_resolve, hl, this]
  | some it =>
    have h1 := lookup_some_key hl
    have h2 := depthOf_eq_of_lookup hl
    simp only [toposort_resolve, hl, h1, h2, true_and]

/-- The first loop of `toposort` returns when the fuel exceeds the number of
nodes; it changes depths only and leaves no visited entry at depth `0`. -/
theorem toposort_resolve_total (fuel : Nat) :
    ∀ (names : List String) (t : Table) (loop : Int), loop < 0 →
      (keys t).length + 1 ≤ fuel →
      ∃ t1 loop1, toposort_resolve fuel names t loop = some (t1, loop1) ∧
        same_graph t t1 ∧ loop1 < 0 ∧
        (∀ x, depthOf t x ≠ 0 → depthOf t1 x ≠ 0) ∧
        (∀ x ∈ names, x ∈ keys t → depthOf t1 x ≠ 0) := by
  intro names
  induction names with
  | nil =>
    intro t loop hloop _
    exact ⟨t, loop, rfl, same_graph.refl t, hloop, fun _ h => h, fun x hx => by simp at hx⟩
  | cons name rest ih =>
    intro t loop hloop hf
    rw [toposort_resolve_cons]
    by_cases hc : name ∈ keys t ∧ depthOf t name = 0
    · simp only [hc, and_self, if_true]
      obtain ⟨ta, d, he, hg, _, hin, hnz⟩ := calc_depth_total hloop fuel t [] name
        (fun c hcm => by simp at hcm) List.nodup_nil (by simpa using hf)
      rw [he]
      simp only
      have hloop1 : (if d = loop then loop - 1 else loop) < 0 := by split_ifs <;> omega
      obtain ⟨t1, loop1, he1, hg1, hl1, hnz1, hall1⟩ :=
        ih ta _ hloop1 (by rw [← hg.keys_eq]; exact hf)
      refine ⟨t1, loop1, he1, hg.trans hg1, hl1, fun x hx => hnz1 x (hnz x hx), ?_⟩
      intro x hx hxk
      rcases List.mem_cons.mp hx with e | hx1
      · subst e
        apply hnz1
        rw [(hin hxk).2]
        exact (hin hxk).1
      · exact hall1 x hx1 (hg.keys_eq ▸ hxk)
    · simp only [hc, if_false]
      obtain ⟨t1, loop1, he1, hg1, hl1, hnz1, hall1⟩ := ih t loop hloop hf
      refine ⟨t1, loop1, he1, hg1, hl1, hnz1, ?_⟩
      intro x hx hxk
      rcases List.mem_cons.mp hx with e | hx1
      · subst e
        apply hnz1
        intro hz
        exact hc ⟨hxk, hz⟩
      · exact hall1 x hx1 hxk

theorem unwind_inv.finish {t : Table} {loop d : Int} (h : unwind_inv t loop [] d) :
    entry_inv t (if d = loop then loop - 1 else loop) [] := by
  refine ⟨h.pos, h.leaf, fun c hc => by simp at hc, ?_, h.same, ?_⟩
  · intro x hx hxc
    rcases h.cyc x hx hxc with hc | ⟨c, hc, _⟩
    · exact hc
    · simp at hc
  · intro x hxc
    by_cases hd : d = loop
    · simp only [hd, if_true]
      have := h.above x hxc
      omega
    · simp only [hd, if_false]
      exact h.strict hd x hxc

/-- The first loop of `toposort` keeps the invariant of the settled
resolutions. -/
theorem toposort_resolve_inv (fuel : Nat) :
    ∀ (names : List String) (t : Table) (loop : Int) (t1 : Table) (loop1 : Int),
      toposort_resolve fuel names t loop = some (t1, loop1) → loop < 0 →
      entry_inv t loop [] → entry_inv t1 loop1 [] ∧ loop1 < 0 := by
  intro names
  induction names with
  | nil =>
    intro t loop t1 loop1 h hloop hI
    simp only [toposort_resolve, Option.some.injEq, Prod.mk.injEq] at h
    obtain ⟨rfl, rfl⟩ := h
    exact ⟨hI, hloop⟩
  | cons name rest ih =>
    intro t loop t1 loop1 h hloop hI
    rw [toposort_resolve_cons] at h
    by_cases hc : name ∈ keys t ∧ depthOf t name = 0
    · simp only [hc, and_self, if_true] at h
      cases he : calc_depth fuel t name loop with
      | none => simp [he] at h
      | some r =>
        obtain ⟨ta, d⟩ := r
        rw [he] at h
        simp only at h
        obtain ⟨_, _, _, hnn, hneg⟩ := calc_depth_inv hloop fuel t [] name ta d he hI
        have hloop1 : (if d = loop then loop - 1 else loop) < 0 := by split_ifs <;> omega
        apply ih ta _ t1 loop1 h hloop1
        by_cases hd : d < 0
        · exact (hneg hd).finish
        · have hne : d ≠ loop := by omega
          simp only [hne, if_false]
          exact (hnn (not_lt.mp hd)).1
    · simp only [hc, if_false] at h
      exact ih t loop t1 loop1 h hloop hI

theorem depthOf_fresh {t : Table} (h : fresh t) (x : String) : depthOf t x = 0 := by
  cases hl : lookup t x with
  | none => simp [depthOf, hl]
  | some it => rw [depthOf_eq_of_lookup hl]; exact h it (lookup_some_mem hl)

theorem entry_inv_of_fresh {t : Table} (h : fresh t) : entry_inv t (-1) [] := by
  have h0 := depthOf_fresh h
  refine ⟨?_, ?_, ?_, ?_, ?_, ?_⟩
  · intro k x _ hx; rw [h0] at hx; omega
  · intro x _ _; exact Or.inl (h0 x)
  · intro c hc; simp at hc
  · intro x hx; rw [h0] at hx; omega
  · intro x hx; rw [h0] at hx; omega
  · intro x _; rw [h0]; decide

/-- The table after the first loop of `toposort` on a fresh table: the loop
returns, changes depths only, leaves no depth `0`, and the depths satisfy the
invariant of the settled resolutions. -/
theorem toposort_resolve_fresh {t : Table} (hfresh : fresh t) {fuel : Nat}
    (hfuel : t.length + 1 ≤ fuel) :
    ∃ t1 loop1, toposort_resolve fuel (keys t) t (-1) = some (t1, loop1) ∧
      same_graph t t1 ∧ loop1 < 0 ∧ entry_inv t1 loop1 [] ∧
      (∀ x ∈ keys t, depthOf t1 x ≠ 0) := by
  have hf : (keys t).length + 1 ≤ fuel := by simpa [keys] using hfuel
  obtain ⟨t1, loop1, he, hg, hl, _, hall⟩ :=
    toposort_resolve_total fuel (keys t) t (-1) (by decide) hf
  obtain ⟨hI, _⟩ := toposort_resolve_inv fuel (keys t) t (-1) t1 loop1 he (by decide)
    (entry_inv_of_fresh hfresh)
  exact ⟨t1, loop1, he, hg, hl, hI, fun x hx => hall x hx hx⟩

/-! ## The second loop of `toposort` -/

theorem length_prepend_at : ∀ (bs : Buckets) (i : Nat) (name : String),
    (prepend_at bs i name).length = bs.length := by
  intro bs
  induction bs with
  | nil => intro i name; rfl
  | cons b rest ih =>
    intro i name
    cases i with
    | zero => rfl
    | succ i => simp [prepend_at, ih]

theorem getD_prepend_at : ∀ (bs : Buckets) (i : Nat) (name : String) (j : Nat),
    i < bs.length →
    (prepend_at bs i name).getD j [] =
      if j = i then name :: bs.getD j [] else bs.getD j [] := by
  intro bs
  induction bs with
  | nil => intro i name j hi; simp at hi
  | cons b rest ih =>
    intro i name j hi
    cases i with
    | zero =>
      cases j with
      | zero => simp [prepend_at]
      | succ j => simp [prepend_at]
    | succ i =>
      cases j with
      | zero => simp [prepend_at]
      | succ j =>
        have hi1 : i < rest.length := by simpa using hi
        simp only [prepend_at, List.getD_cons_succ, ih i name j hi1]
        simp

theorem getD_set_size (bs : Buckets) (n j : Nat) :
    (set_size bs n).getD j [] = bs.getD j [] := by
  simp only [set_size, List.getD_eq_getElem?_getD, List.getElem?_append]
  split_ifs with h
  · rfl
  · simp only [List.getElem?_replicate]
    split_ifs <;> simp [List.getElem?_eq_none (not_lt.mp h)]

theorem length_set_size (bs : Buckets) (n : Nat) :
    (set_size bs n).length = bs.length + (n - bs.length) := by
  simp [set_size]

/-- An entry of positive depth `d` is prepended to `levels[d-1]`. -/
theorem bucket_step_pos (levels loops : Buckets) (name : String) {d : Int} (hd : 0 < d) :
    ∃ levels1, bucket_step levels loops name d = some (levels1, loops) ∧
      levels1.length = max levels.length d.toNat ∧
      ∀ j, levels1.getD j [] =
        if j = (d - 1).toNat then name :: levels.getD j [] else levels.getD j [] := by
  simp only [bucket_step, gt_iff_lt, hd, if_true]
  by_cases h : levels.length < d.toNat
  · simp only [h, if_true]
    refine ⟨_, rfl, ?_, fun j => ?_⟩
    · rw [length_prepend_at, length_set_size]; omega
    · rw [getD_prepend_at _ _ _ _ (by rw [length_set_size]; omega)]
      simp only [getD_set_size]
  · simp only [h, if_false]
    refine ⟨_, rfl, ?_, fun j => ?_⟩
    · rw [length_prepend_at]; omega
    · rw [getD_prepend_at _ _ _ _ (by omega)]

/-- An entry of negative depth `d` is prepended to `loops[-d-1]`. -/
theorem bucket_step_neg (levels loops : Buckets) (name : String) {d : Int} (hd : d < 0) :
    ∃ loops1, bucket_step levels loops name d = some (levels, loops1) ∧
      loops1.length = max loops.length (-d).toNat ∧
      ∀ j, loops1.getD j [] =
        if j = (-d - 1).toNat then name :: loops.getD j [] else loops.getD j [] := by
  have hd1 : ¬ 0 < d := by omega
  simp only [bucket_step, gt_iff_lt, hd1, if_false]
  by_cases h : loops.length < (-d).toNat
  · simp only [h, if_true]
    have hidx : 0 ≤ -d - 1 ∧ (-d - 1).toNat < (set_size loops (-d).toNat).length := by
      rw [length_set_size]; omega
    simp only [hidx, and_self, if_true]
    refine ⟨_, rfl, ?_, fun j => ?_⟩
    · rw [length_prepend_at, length_set_size]; omega
    · rw [getD_prepend_at _ _ _ _ hidx.2]
      simp only [getD_set_size]
  · simp only [h, if_false]
    have hidx : 0 ≤ -d - 1 ∧ (-d - 1).toNat < loops.length := by omega
    simp only [hidx, and_self, if_true]
    refine ⟨_, rfl, ?_, fun j => ?_⟩
    · rw [length_prepend_at]; omega
    · rw [getD_prepend_at _ _ _ _ hidx.2]

theorem count_cons_if (x name : String) (l : List String) (c : Prop) [Decidable c] :
    (if c then name :: l else l).count x = l.count x + if name = x ∧ c then 1 else 0 := by
  by_cases hc : c
  · by_cases hx : name = x
    · simp [hc, hx]
    · simp [hc, hx, List.count_cons]
  · simp [hc]

theorem countP_cons_if (p : depitem → Prop) [DecidablePred p] (it : depitem) (l : Table) :
    (it :: l).countP (fun a => decide (p a)) =
      l.countP (fun a => decide (p a)) + if p it then 1 else 0 := by
  rw [List.countP_cons]
  simp only [decide_eq_true_eq]

/-- The second loop of `toposort` on a table without depth `0`: it returns,
and bucket `j` of `levels` (of `loops`) gains one occurrence of a name for
every entry of that name and of depth `j+1` (of depth `-(j+1)`). -/
theorem toposort_bucket_spec : ∀ (t : Table) (levels loops : Buckets),
    (∀ it ∈ t, it.depth ≠ 0) →
    ∃ levels1 loops1, toposort_bucket t levels loops = some (levels1, loops1) ∧
      (∀ j x, (levels1.getD j []).count x = (levels.getD j []).count x +
        t.countP (fun it => decide (it.name = x ∧ it.depth = (j : Int) + 1))) ∧
      (∀ j x, (loops1.getD j []).count x = (loops.getD j []).count x +
        t.countP (fun it => decide (it.name = x ∧ it.depth = -((j : Int) + 1)))) ∧
      levels1.length = (t.map (fun it => it.depth.toNat)).foldl max levels.length ∧
      loops1.length = (t.map (fun it => (-it.depth).toNat)).foldl max loops.length := by
  intro t
  induction t with
  | nil =>
    intro levels loops _
    exact ⟨levels, loops, rfl, by simp, by simp, rfl, rfl⟩
  | cons it rest ih =>
    intro levels loops hnz
    have hit := hnz it (List.mem_cons_self _ _)
    have hrest : ∀ it1 ∈ rest, it1.depth ≠ 0 := fun a ha => hnz a (List.mem_cons_of_mem _ ha)
    simp only [toposort_bucket]
    by_cases hd : 0 < it.depth
    · obtain ⟨lv, he, hlen, hget⟩ := bucket_step_pos levels loops it.name hd
      obtain ⟨lv1, lp1, he1, h1, h2, h3, h4⟩ := ih lv loops hrest
      rw [he]
      refine ⟨lv1, lp1, he1, ?_, ?_, ?_, ?_⟩
      · intro j x
        rw [h1 j x, hget j, count_cons_if, countP_cons_if (fun a => a.name = x ∧ a.depth = (j : Int) + 1)]
        have hiff : (j = (it.depth - 1).toNat) ↔ it.depth = (j : Int) + 1 := by omega
        simp only [hiff]
        omega
      · intro j x
        rw [h2 j x, countP_cons_if (fun a => a.name = x ∧ a.depth = -((j : Int) + 1))]
        have hj1 : ¬ (it.name = x ∧ it.depth = -((j : Int) + 1)) := fun hh => by omega
        rw [if_neg hj1]
        rfl
      · rw [h3, hlen]; rfl
      · rw [h4]
        have : (-it.depth).toNat = 0 := by omega
        simp only [List.map_cons, List.foldl_cons, this]
        congr 1
        omega
    · have hd1 : it.depth < 0 := by omega
      obtain ⟨lp, he, hlen, hget⟩ := bucket_step_neg levels loops it.name hd1
      obtain ⟨lv1, lp1, he1, h1, h2, h3, h4⟩ := ih levels lp hrest
      rw [he]
      refine ⟨lv1, lp1, he1, ?_, ?_, ?_, ?_⟩
      · intro j x
        rw [h1 j x, countP_cons_if (fun a => a.name = x ∧ a.depth = (j : Int) + 1)]
        have hj1 : ¬ (it.name = x ∧ it.depth = (j : Int) + 1) := fun hh => by omega
        rw [if_neg hj1]
        rfl
      · intro j x
        rw [h2 j x, hget j, count_cons_if,
          countP_cons_if (fun a => a.name = x ∧ a.depth = -((j : Int) + 1))]
        have hiff : (j = (-it.depth - 1).toNat) ↔ it.depth = -((j : Int) + 1) := by omega
        simp only [hiff]
        omega
      · rw [h3]
        have : it.depth.toNat = 0 := by omega
        simp only [List.map_cons, List.foldl_cons, this]
        congr 1
        omega
      · rw [h4, hlen]; rfl

/-! ## The result of `toposort` -/

theorem closed.deps_mem {t : Table} (h : closed t) {x m : String} (hm : m ∈ depsOf t x) :
    m ∈ keys t := by
  cases hl : lookup t x with
  | none => simp [depsOf, hl] at hm
  | some it =>
    rw [depsOf_eq_of_lookup hl] at hm
    exact h it (lookup_some_mem hl) m hm

theorem lookup_of_mem_unique {t : Table} (hu : keys_unique t) {it : depitem} (h : it ∈ t) :
    lookup t it.name = some it := by
  induction t with
  | nil => simp at h
  | cons a rest ih =>
    simp only [keys_unique, keys, List.map_cons, List.nodup_cons, List.mem_map, not_exists,
      not_and] at hu
    rcases List.mem_cons.mp h with e | h1
    · subst e
      simp [lookup, List.find?_cons]
    · have hne : ¬ a.name = it.name := fun e => hu.1 it h1 e.symm
      have := ih hu.2 h1
      simp only [lookup, List.find?_cons, hne, decide_False] at this ⊢
      exact this

theorem countP_unique {t : Table} (hu : keys_unique t) (x : String) (k : Int) :
    t.countP (fun it => decide (it.name = x ∧ it.depth = k)) =
      if x ∈ keys t ∧ depthOf t x = k then 1 else 0 := by
  by_cases hc : x ∈ keys t ∧ depthOf t x = k
  · rw [if_pos hc]
    obtain ⟨it, hit⟩ := lookup_of_key hc.1
    have hd := depthOf_eq_of_lookup hit
    have hn := lookup_some_name hit
    have hmem := lookup_some_mem hit
    have hle : t.countP (fun it => decide (it.name = x ∧ it.depth = k)) ≤
        t.countP (fun it => decide (it.name = x)) :=
      List.countP_mono_left (fun a _ ha => by
        simp only [decide_eq_true_eq] at ha ⊢
        exact ha.1)
    have hcnt : t.countP (fun it => decide (it.name = x)) = (keys t).count x := by
      simp only [keys, List.count, List.countP_map]
      congr 1
    have h1 : (keys t).count x ≤ 1 := List.nodup_iff_count_le_one.mp hu x
    have hpos : 0 < t.countP (fun it => decide (it.name = x ∧ it.depth = k)) :=
      List.countP_pos_iff.mpr ⟨it, hmem, by simp [hn, ← hd, hc.2]⟩
    omega
  · rw [if_neg hc]
    rw [List.countP_eq_zero]
    intro a ha hp
    simp only [decide_eq_true_eq] at hp
    apply hc
    have hl := lookup_of_mem_unique hu ha
    rw [hp.1] at hl
    exact ⟨lookup_some_key hl, by rw [depthOf_eq_of_lookup hl]; exact hp.2⟩

/-- The function `toposort` on a table with unique keys and from empty
arrays: it returns, and a name is in `levels[j]` (in `loops[j]`) exactly
once when it is a key whose depth after the first loop is `j+1` (is
`-(j+1)`), and not at all otherwise. -/
theorem toposort_total {t : Table} (hu : keys_unique t) {fuel : Nat}
    (hfuel : t.length + 1 ≤ fuel) :
    ∃ t1 loop1 levels loops, toposort_resolve fuel (keys t) t (-1) = some (t1, loop1) ∧
      toposort fuel t [] [] = some (levels, loops) ∧ same_graph t t1 ∧
      (∀ x ∈ keys t, depthOf t1 x ≠ 0) ∧
      (∀ j x, (levels.getD j []).count x =
        if x ∈ keys t ∧ depthOf t1 x = (j : Int) + 1 then 1 else 0) ∧
      (∀ j x, (loops.getD j []).count x =
        if x ∈ keys t ∧ depthOf t1 x = -((j : Int) + 1) then 1 else 0) ∧
      levels.length = (t1.map (fun it => it.depth.toNat)).foldl max 0 ∧
      loops.length = (t1.map (fun it => (-it.depth).toNat)).foldl max 0 := by
  have hf : (keys t).length + 1 ≤ fuel := by simpa [keys] using hfuel
  obtain ⟨t1, loop1, he, hg, _, _, hall⟩ :=
    toposort_resolve_total fuel (keys t) t (-1) (by decide) hf
  have hu1 : keys_unique t1 := by unfold keys_unique; rw [← hg.keys_eq]; exact hu
  have hnz : ∀ it ∈ t1, it.depth ≠ 0 := by
    intro it hit
    have hl := lookup_of_mem_unique hu1 hit
    rw [← depthOf_eq_of_lookup hl]
    have hk : it.name ∈ keys t := hg.keys_eq ▸ lookup_some_key hl
    exact hall _ hk hk
  obtain ⟨levels, loops, hb, h1, h2, h3, h4⟩ := toposort_bucket_spec t1 [] [] hnz
  refine ⟨t1, loop1, levels, loops, he, ?_, hg, fun x hx => hall x hx hx, ?_, ?_, h3, h4⟩
  · simp only [toposort, he]
    exact hb
  · intro j x
    rw [h1 j x, countP_unique hu1, hg.keys_eq]
    simp
  · intro j x
    rw [h2 j x, countP_unique hu1, hg.keys_eq]
    simp

theorem mem_of_count_ite {l : List String} {x : String} {c : Prop} [Decidable c]
    (h : l.count x = if c then 1 else 0) : x ∈ l ↔ c := by
  rw [← List.count_pos_iff, h]
  by_cases hc : c <;> simp [hc]

/-! ## Depths and cycles -/

theorem on_cycle_congr {a b : Table} (h : same_graph a b) (x : String) :
    on_cycle a x ↔ on_cycle b x := by
  simp only [on_cycle, h.edge_eq]

theorem settled_step {t : Table} {loop : Int} (hI : entry_inv t loop []) (hc : closed t)
    {x y : String} (hx : 0 < depthOf t x) (hxy : edge t x y) :
    0 < depthOf t y ∧ depthOf t y < depthOf t x := by
  have hxk : x ∈ keys t := depthOf_neg_key (by omega)
  have hs := hI.pos (depthOf t x) x hxk hx (le_refl _)
  have hne : depsOf t x ≠ [] := List.ne_nil_of_mem hxy
  obtain ⟨h1, h2⟩ := hs.2 hne
  have h3 := max_fold_ge t (depsOf t x) 0 y hxy
  exact ⟨h1 y hxy (hc.deps_mem hxy), by omega⟩

theorem settled_trans {t : Table} {loop : Int} (hI : entry_inv t loop []) (hc : closed t)
    {x y : String} (hxy : Relation.TransGen (edge t) x y) :
    0 < depthOf t x → 0 < depthOf t y ∧ depthOf t y < depthOf t x := by
  induction hxy with
  | single h => exact fun hx => settled_step hI hc hx h
  | tail _ h ih =>
    intro hx
    have h1 := ih hx
    have h2 := settled_step hI hc h1.1 h
    exact ⟨h2.1, by omega⟩

theorem settled_not_reaches_cycle {t : Table} {loop : Int} (hI : entry_inv t loop [])
    (hc : closed t) {x : String} (hx : 0 < depthOf t x) : ¬ reaches_cycle t x := by
  rintro ⟨c, hxc, hcc⟩
  have hcpos : 0 < depthOf t c := by
    rcases Relation.reflTransGen_iff_eq_or_transGen.mp hxc with e | h
    · rw [e]; exact hx
    · exact (settled_trans hI hc h hx).1
  have := (settled_trans hI hc hcc hcpos).2
  exact lt_irrefl _ this

theorem reaches_cycle_key {t : Table} {x : String} (h : reaches_cycle t x) : x ∈ keys t := by
  obtain ⟨c, hxc, hcc⟩ := h
  have hedge : ∃ y, edge t x y := by
    rcases Relation.ReflTransGen.cases_head hxc with e | ⟨y, hy, _⟩
    · subst e
      rcases Relation.TransGen.head'_iff.mp hcc with ⟨y, hy, _⟩
      exact ⟨y, hy⟩
    · exact ⟨y, hy⟩
  obtain ⟨y, hy⟩ := hedge
  by_contra hk
  simp [edge, depsOf, (lookup_none_iff t x).mpr hk] at hy

theorem closed_congr {a b : Table} (h : same_graph a b) (hc : closed a) : closed b := by
  intro it hit d hd
  have hmem : ({ it with depth := 0 } : depitem) ∈ strip b :=
    List.mem_map.mpr ⟨it, hit, rfl⟩
  rw [← h] at hmem
  obtain ⟨it0, hit0, he⟩ := List.mem_map.mp hmem
  have hdeps : it0.deps = it.deps := by
    have := congrArg depitem.deps he
    simpa using this
  rw [← h.keys_eq]
  exact hc it0 hit0 d (hdeps ▸ hd)

/-- The depths after the first loop of `toposort` on a fresh table in which
every dependency has a node. -/
theorem toposort_resolve_closed {t : Table} (hfresh : fresh t) (hc : closed t) {fuel : Nat}
    (hfuel : t.length + 1 ≤ fuel) :
    ∃ t1 loop1, toposort_resolve fuel (keys t) t (-1) = some (t1, loop1) ∧
      same_graph t t1 ∧ entry_inv t1 loop1 [] ∧ closed t1 ∧
      (∀ x ∈ keys t, depthOf t1 x ≠ 0) ∧
      (∀ x ∈ keys t, (depthOf t1 x < 0 ↔ reaches_cycle t x) ∧
        (0 < depthOf t1 x ↔ ¬ reaches_cycle t x)) := by
  obtain ⟨t1, loop1, he, hg, _, hI, hnz⟩ := toposort_resolve_fresh hfresh hfuel
  have hc1 := closed_congr hg hc
  refine ⟨t1, loop1, he, hg, hI, hc1, hnz, fun x hx => ?_⟩
  have h1 : depthOf t1 x < 0 → reaches_cycle t x := by
    intro hd
    rw [reaches_cycle_congr hg]
    exact hI.cyc x hd (by simp)
  have h2 : 0 < depthOf t1 x → ¬ reaches_cycle t x := by
    intro hd
    rw [reaches_cycle_congr hg]
    exact settled_not_reaches_cycle hI hc1 hd
  have h3 := hnz x hx
  constructor
  · refine ⟨h1, fun hr => ?_⟩
    by_contra hd
    exact h2 (by omega) hr
  · refine ⟨h2, fun hr => ?_⟩
    by_contra hd
    exact hr (h1 (by omega))

/-- The whole of `toposort` on a fresh table with unique keys in which every
dependency has a node. -/
theorem toposort_closed_total {t : Table} (hc : closed t) (hfresh : fresh t)
    (hu : keys_unique t) {fuel : Nat} (hfuel : t.length + 1 ≤ fuel) :
    ∃ t1 loop1 levels loops, toposort_resolve fuel (keys t) t (-1) = some (t1, loop1) ∧
      toposort fuel t [] [] = some (levels, loops) ∧ same_graph t t1 ∧
      entry_inv t1 loop1 [] ∧ closed t1 ∧
      (∀ x ∈ keys t, depthOf t1 x ≠ 0) ∧
      (∀ j x, x ∈ levels.getD j [] ↔ x ∈ keys t ∧ depthOf t1 x = (j : Int) + 1) ∧
      (∀ j x, x ∈ loops.getD j [] ↔ x ∈ keys t ∧ depthOf t1 x = -((j : Int) + 1)) := by
  obtain ⟨t1, loop1, levels, loops, he, hts, hg, hnz, hlv, hlp, _, _⟩ := toposort_total hu hfuel
  obtain ⟨t2, loop2, he2, _, hI, hc1, _, _⟩ := toposort_resolve_closed hfresh hc hfuel
  rw [he] at he2
  simp only [Option.some.injEq, Prod.mk.injEq] at he2
  obtain ⟨rfl, rfl⟩ := he2
  exact ⟨t1, loop1, levels, loops, he, hts, hg, hI, hc1, hnz,
    fun j x => mem_of_count_ite (hlv j x), fun j x => mem_of_count_ite (hlp j x)⟩

/-! ## Iteration order and acyclic tables -/

theorem lookup_perm {t t1 : Table} (hu : keys_unique t) (hp : t1.Perm t) (x : String) :
    lookup t1 x = lookup t x := by
  have hu1 : keys_unique t1 := (List.Perm.nodup_iff (hp.map _)).mpr hu
  cases hl : lookup t x with
  | none =>
    rw [lookup_none_iff] at hl ⊢
    intro hx
    exact hl ((hp.map _).mem_iff.mp hx)
  | some it =>
    have h1 := lookup_of_mem_unique hu1 (hp.mem_iff.mpr (lookup_some_mem hl))
    rw [lookup_some_name hl] at h1
    exact h1

theorem depsOf_perm {t t1 : Table} (hu : keys_unique t) (hp : t1.Perm t) (x : String) :
    depsOf t1 x = depsOf t x := by
  simp only [depsOf, lookup_perm hu hp]

theorem edge_perm {t t1 : Table} (hu : keys_unique t) (hp : t1.Perm t) :
    edge t1 = edge t := by
  funext a b
  simp only [edge, depsOf_perm hu hp]

theorem keys_perm {t t1 : Table} (hp : t1.Perm t) (x : String) :
    x ∈ keys t1 ↔ x ∈ keys t :=
  (hp.map _).mem_iff

theorem closed_perm {t t1 : Table} (hp : t1.Perm t) (hc : closed t) : closed t1 :=
  fun it hit d hd => (keys_perm hp d).mpr (hc it (hp.mem_iff.mp hit) d hd)

theorem fresh_perm {t t1 : Table} (hp : t1.Perm t) (hf : fresh t) : fresh t1 :=
  fun it hit => hf it (hp.mem_iff.mp hit)

theorem keys_unique_perm {t t1 : Table} (hp : t1.Perm t) (hu : keys_unique t) :
    keys_unique t1 :=
  (List.Perm.nodup_iff (hp.map _)).mpr hu

/-- Two settlements of the same graph in which every node has a positive
depth agree. -/
theorem settled_unique {a b : Table} {la lb : Int} (hIa : entry_inv a la [])
    (hIb : entry_inv b lb []) (hdeps : ∀ x, depsOf a x = depsOf b x)
    (hkeys : ∀ x, x ∈ keys a ↔ x ∈ keys b) (hposa : ∀ x ∈ keys a, 0 < depthOf a x)
    (hposb : ∀ x ∈ keys b, 0 < depthOf b x) :
    ∀ (n : Nat) (x : String), depthOf a x ≤ n → depthOf a x = depthOf b x := by
  intro n
  induction n with
  | zero =>
    intro x hx
    by_cases hk : x ∈ keys a
    · have := hposa x hk; omega
    · rw [depthOf_absent hk, depthOf_absent (fun h => hk ((hkeys x).mpr h))]
  | succ n ih =>
    intro x hx
    by_cases hk : x ∈ keys a
    swap
    · rw [depthOf_absent hk, depthOf_absent (fun h => hk ((hkeys x).mpr h))]
    have hkb := (hkeys x).mp hk
    have hsa := hIa.pos _ x hk (hposa x hk) (le_refl _)
    have hsb := hIb.pos _ x hkb (hposb x hkb) (le_refl _)
    by_cases hd : depsOf a x = []
    · rw [hsa.1 hd, hsb.1 (by rw [← hdeps]; exact hd)]
    · have hdb : depsOf b x ≠ [] := by rw [← hdeps]; exact hd
      rw [(hsa.2 hd).2, (hsb.2 hdb).2, ← hdeps]
      apply max_fold_congr
      intro m hm
      apply ih
      have := max_fold_ge a (depsOf a x) 0 m hm
      rw [← (hsa.2 hd).2] at this
      omega

theorem acyclic_of_rank {t : Table} (rank : String → Nat)
    (h : ∀ it ∈ t, ∀ d ∈ it.deps, rank d < rank it.name) (x : String) : ¬ on_cycle t x := by
  have hstep : ∀ a b, edge t a b → rank b < rank a := by
    intro a b hab
    cases hl : lookup t a with
    | none => simp [edge, depsOf, hl] at hab
    | some it =>
      have := h it (lookup_some_mem hl) b (by rw [← depsOf_eq_of_lookup hl]; exact hab)
      rw [lookup_some_name hl] at this
      exact this
  have htrans : ∀ a b, Relation.TransGen (edge t) a b → rank b < rank a := by
    intro a b hab
    induction hab with
    | single h1 => exact hstep _ _ h1
    | tail _ h1 ih => exact lt_trans (hstep _ _ h1) ih
  intro hx
  exact lt_irrefl _ (htrans x x hx)

theorem foldl_max_zero : ∀ (l : List Nat), (∀ a ∈ l, a = 0) → l.foldl max 0 = 0 := by
  intro l
  induction l with
  | nil => intro _; rfl
  | cons a rest ih =>
    intro h
    have ha := h a (List.mem_cons_self _ _)
    subst ha
    simpa using ih (fun b hb => h b (List.mem_cons_of_mem _ hb))

/-- The rank of the nodes of `chain_abc`. -/
theorem chain_abc_acyclic (x : String) : ¬ on_cycle chain_abc x :=
  acyclic_of_rank (fun s => if s = "A" then 2 else if s = "B" then 1 else 0)
    (by decide) x

/-! ## The claims about `toposort` -/

/-- C1 (build order).  On a fresh table with unique keys in which every
dependency name has a node, `toposort` returns, and every package of
`levels[k]` (depth `k+1`) has each of its dependencies in some `levels[j]`
with `j < k`, in no `levels[j]` with `j ≥ k` and in no cycle group; a package
of `levels[0]` has an empty dependency list.  The table is an arbitrary
list, so this holds for every iteration order. -/
theorem build_order_levels (t : Table) (hc : closed t) (hfresh : fresh t)
    (hu : keys_unique t) (fuel : Nat) (hfuel : t.length + 1 ≤ fuel) :
    ∃ levels loops, toposort fuel t [] [] = some (levels, loops) ∧
      ∀ k name, name ∈ levels.getD k [] →
        (∀ dep ∈ depsOf t name,
          (∃ j, j < k ∧ dep ∈ levels.getD j []) ∧
          (∀ j, k ≤ j → dep ∉ levels.getD j []) ∧
          (∀ j, dep ∉ loops.getD j [])) ∧
        (k = 0 → depsOf t name = []) := by
  obtain ⟨t1, loop1, levels, loops, _, hts, hg, hI, hc1, _, hlv, hlp⟩ :=
    toposort_closed_total hc hfresh hu hfuel
  refine ⟨levels, loops, hts, fun k name hname => ?_⟩
  obtain ⟨_, hd⟩ := (hlv k name).mp hname
  have hpos : 0 < depthOf t1 name := by omega
  have hdep : ∀ dep ∈ depsOf t name,
      dep ∈ keys t ∧ 0 < depthOf t1 dep ∧ depthOf t1 dep < (k : Int) + 1 := by
    intro dep hdep
    have he : edge t1 name dep := by
      unfold edge; rw [← hg.depsOf_eq]; exact hdep
    have := settled_step hI hc1 hpos he
    exact ⟨hc.deps_mem hdep, this.1, by omega⟩
  refine ⟨fun dep hdm => ?_, fun hk => ?_⟩
  · obtain ⟨h1, h2, h3⟩ := hdep dep hdm
    refine ⟨⟨(depthOf t1 dep - 1).toNat, by omega, ?_⟩, fun j hj hmem => ?_, fun j hmem => ?_⟩
    · exact (hlv _ dep).mpr ⟨h1, by omega⟩
    · have := ((hlv j dep).mp hmem).2
      omega
    · have := ((hlp j dep).mp hmem).2
      omega
  · cases hds : depsOf t name with
    | nil => rfl
    | cons dep rest =>
      have := hdep dep (by rw [hds]; exact List.mem_cons_self _ _)
      omega

/-- Witness of C1: the scenario `A -> B`, `A -> C` with leaves `B` and `C`. -/
theorem build_order_levels_witness :
    toposort 4 fork_abc [] [] = some ([["C", "B"], ["A"]], []) ∧
    ∃ levels loops, toposort 4 fork_abc [] [] = some (levels, loops) ∧
      ∀ k name, name ∈ levels.getD k [] →
        (∀ dep ∈ depsOf fork_abc name,
          (∃ j, j < k ∧ dep ∈ levels.getD j []) ∧
          (∀ j, k ≤ j → dep ∉ levels.getD j []) ∧
          (∀ j, dep ∉ loops.getD j [])) ∧
        (k = 0 → depsOf fork_abc name = []) :=
  ⟨by decide, build_order_levels fork_abc (by decide) (by decide) (by decide) 4 (by decide)⟩

/-- C4 (sign of the depth).  On a fresh table in which every dependency name
has a node, the first loop of `toposort` returns and leaves every node with
a negative depth exactly when the node lies on a dependency cycle or reaches
one, and with a positive depth exactly when it does not.  The table is an
arbitrary list, so this holds for every iteration order. -/
theorem depth_negative_iff_reaches_cycle (t : Table) (hc : closed t) (hfresh : fresh t)
    (fuel : Nat) (hfuel : t.length + 1 ≤ fuel) :
    ∃ t1 loop1, toposort_resolve fuel (keys t) t (-1) = some (t1, loop1) ∧
      keys t1 = keys t ∧
      ∀ x ∈ keys t, (depthOf t1 x < 0 ↔ reaches_cycle t x) ∧
        (0 < depthOf t1 x ↔ ¬ reaches_cycle t x) := by
  obtain ⟨t1, loop1, he, hg, _, _, _, h⟩ := toposort_resolve_closed hfresh hc hfuel
  exact ⟨t1, loop1, he, hg.keys_eq.symm, h⟩

/-- Witness of C4: the table `N -> A -> B -> A`. -/
theorem depth_negative_iff_reaches_cycle_witness :
    ∃ t1 loop1, toposort_resolve 4 (keys tail_cycle) tail_cycle (-1) = some (t1, loop1) ∧
      keys t1 = keys tail_cycle ∧
      ∀ x ∈ keys tail_cycle, (depthOf t1 x < 0 ↔ reaches_cycle tail_cycle x) ∧
        (0 < depthOf t1 x ↔ ¬ reaches_cycle tail_cycle x) :=
  depth_negative_iff_reaches_cycle tail_cycle (by decide) (by decide) 4 (by decide)

/-- C2 (depth of an acyclic table).  On a fresh acyclic table with unique
keys in which every dependency name has a node, the first loop of `toposort`
returns and gives every node depth `1` when its dependency list is empty and
otherwise one more than the largest depth of its dependencies; no cycle
group is emitted; and every permutation of the table (every iteration order)
gives the same depths. -/
theorem acyclic_depth_is_longest_chain (t : Table) (hc : closed t) (hfresh : fresh t)
    (hu : keys_unique t) (hacyc : ∀ x, ¬ on_cycle t x) (fuel : Nat)
    (hfuel : t.length + 1 ≤ fuel) :
    ∃ t1 loop1 levels, toposort_resolve fuel (keys t) t (-1) = some (t1, loop1) ∧
      toposort fuel t [] [] = some (levels, []) ∧
      (∀ x ∈ keys t,
        (depsOf t x = [] → depthOf t1 x = 1) ∧
        (depsOf t x ≠ [] →
          (∀ m ∈ depsOf t x, depthOf t1 m + 1 ≤ depthOf t1 x) ∧
          ∃ m ∈ depsOf t x, depthOf t1 x = depthOf t1 m + 1)) ∧
      (∀ t2 : Table, t2.Perm t →
        ∃ t3 loop3, toposort_resolve fuel (keys t2) t2 (-1) = some (t3, loop3) ∧
          ∀ x, depthOf t3 x = depthOf t1 x) := by
  have hnocyc : ∀ x, ¬ reaches_cycle t x := fun x ⟨c, _, hcc⟩ => hacyc c hcc
  obtain ⟨t1, loop1, levels, loops, he, hts, hg, hnz, _, _, _, hlen⟩ := toposort_total hu hfuel
  obtain ⟨t1a, loop1a, hea, _, hI, hc1, _, hsign⟩ := toposort_resolve_closed hfresh hc hfuel
  rw [he] at hea
  simp only [Option.some.injEq, Prod.mk.injEq] at hea
  obtain ⟨rfl, rfl⟩ := hea
  have hpos : ∀ x ∈ keys t, 0 < depthOf t1 x := fun x hx => (hsign x hx).2.mpr (hnocyc x)
  have hu1 : keys_unique t1 := by unfold keys_unique; rw [← hg.keys_eq]; exact hu
  have hloops : loops = [] := by
    apply List.eq_nil_of_length_eq_zero
    rw [hlen]
    apply foldl_max_zero
    intro a ha
    obtain ⟨it, hit, rfl⟩ := List.mem_map.mp ha
    have hl := lookup_of_mem_unique hu1 hit
    have := hpos it.name (hg.keys_eq ▸ lookup_some_key hl)
    rw [depthOf_eq_of_lookup hl] at this
    omega
  subst hloops
  refine ⟨t1, loop1, levels, he, hts, fun x hx => ?_, fun t2 hp => ?_⟩
  · have hs := hI.pos _ x (hg.keys_eq ▸ hx) (hpos x hx) (le_refl _)
    unfold settled_at at hs
    rw [← hg.depsOf_eq] at hs
    refine ⟨hs.1, fun hd => ⟨fun m hm => ?_, ?_⟩⟩
    · have := max_fold_ge t1 (depsOf t x) 0 m hm
      rw [← (hs.2 hd).2] at this
      exact this
    · rcases max_fold_attained t1 (depsOf t x) 0 with h0 | ⟨m, hm, h1⟩
      · have := hpos x hx
        rw [(hs.2 hd).2, h0] at this
        omega
      · exact ⟨m, hm, by rw [(hs.2 hd).2]; exact h1⟩
  · have hc2 := closed_perm hp hc
    have hf2 := fresh_perm hp hfresh
    have hfuel2 : t2.length + 1 ≤ fuel := by rw [hp.length_eq]; exact hfuel
    obtain ⟨t3, loop3, he3, hg3, hI3, _, _, hsign3⟩ := toposort_resolve_closed hf2 hc2 hfuel2
    refine ⟨t3, loop3, he3, fun x => ?_⟩
    have hnocyc2 : ∀ x, ¬ reaches_cycle t2 x := by
      intro x
      simp only [reaches_cycle, on_cycle, edge_perm hu hp]
      exact hnocyc x
    have hk : ∀ x, x ∈ keys t3 ↔ x ∈ keys t1 := by
      intro x
      rw [← hg3.keys_eq, ← hg.keys_eq]
      exact keys_perm hp x
    apply settled_unique hI3 hI
      (fun x => by rw [← hg3.depsOf_eq, ← hg.depsOf_eq]; exact depsOf_perm hu hp x) hk
      (fun x hx => (hsign3 x (hg3.keys_eq ▸ hx)).2.mpr (hnocyc2 x))
      (fun x hx => hpos x (hg.keys_eq ▸ hx)) (depthOf t3 x).toNat x (by omega)

/-- Witness of C2: the scenario `A -> B -> C` with `C` a leaf gives the levels
`[[C], [B], [A]]` and no cycle group. -/
theorem acyclic_depth_is_longest_chain_witness :
    toposort 4 chain_abc [] [] = some ([["C"], ["B"], ["A"]], []) ∧
    ∃ t1 loop1 levels, toposort_resolve 4 (keys chain_abc) chain_abc (-1) = some (t1, loop1) ∧
      toposort 4 chain_abc [] [] = some (levels, []) ∧
      (∀ x ∈ keys chain_abc,
        (depsOf chain_abc x = [] → depthOf t1 x = 1) ∧
        (depsOf chain_abc x ≠ [] →
          (∀ m ∈ depsOf chain_abc x, depthOf t1 m + 1 ≤ depthOf t1 x) ∧
          ∃ m ∈ depsOf chain_abc x, depthOf t1 x = depthOf t1 m + 1)) ∧
      (∀ t2 : Table, t2.Perm chain_abc →
        ∃ t3 loop3, toposort_resolve 4 (keys t2) t2 (-1) = some (t3, loop3) ∧
          ∀ x, depthOf t3 x = depthOf t1 x) :=
  ⟨by decide, acyclic_depth_is_longest_chain chain_abc (by decide) (by decide) (by decide)
    chain_abc_acyclic 4 (by decide)⟩

/-- C3, counterexample.  In `split_cycle` the packages `N` and `M` lie on
the cycle `N -> M -> N`, the table is fresh, has unique keys and a node for
every dependency name, and the first loop of `toposort` gives `N` the depth
`-2` and `M` the depth `-1`: the two members of one cycle are emitted in two
different cycle groups. -/
theorem cycle_members_split :
    closed split_cycle ∧ fresh split_cycle ∧ keys_unique split_cycle ∧
    edge split_cycle "N" "M" ∧ edge split_cycle "M" "N" ∧
    on_cycle split_cycle "N" ∧
    (toposort_resolve 6 (keys split_cycle) split_cycle (-1)).map
      (fun r => (depthOf r.1 "N", depthOf r.1 "M")) = some (-2, -1) ∧
    toposort 6 split_cycle [] [] = some ([], [["M", "R2", "R"], ["Q", "N"]]) := by
  have h1 : edge split_cycle "N" "M" := by decide
  have h2 : edge split_cycle "M" "N" := by decide
  exact ⟨by decide, by decide, by decide, h1, h2,
    Relation.TransGen.head h1 (Relation.TransGen.single h2), by decide, by decide⟩

/-- C3, amended.  On a fresh table in which every dependency name has a
node, the first loop of `toposort` returns and every package that lies on a
dependency cycle has a negative depth, which it shares with at least one of
its dependencies. -/
theorem cycle_members_negative (t : Table) (hc : closed t) (hfresh : fresh t)
    (fuel : Nat) (hfuel : t.length + 1 ≤ fuel) :
    ∃ t1 loop1, toposort_resolve fuel (keys t) t (-1) = some (t1, loop1) ∧
      ∀ x, on_cycle t x →
        depthOf t1 x < 0 ∧ ∃ m ∈ depsOf t x, depthOf t1 m = depthOf t1 x := by
  obtain ⟨t1, loop1, he, hg, hI, _, _, hsign⟩ := toposort_resolve_closed hfresh hc hfuel
  refine ⟨t1, loop1, he, fun x hx => ?_⟩
  have hr : reaches_cycle t x := ⟨x, Relation.ReflTransGen.refl, hx⟩
  have hneg := (hsign x (reaches_cycle_key hr)).1.mpr hr
  obtain ⟨m, hm, hmd⟩ := hI.same x hneg (by simp)
  exact ⟨hneg, m, by rw [hg.depsOf_eq]; exact hm, hmd⟩

/-- Witness of the amended C3: the scenario `A -> B`, `B -> A` gives exactly
one cycle group `{A, B}` and no levels. -/
theorem cycle_members_negative_witness :
    toposort 3 cycle_ab [] [] = some ([], [["B", "A"]]) ∧
    ∃ t1 loop1, toposort_resolve 3 (keys cycle_ab) cycle_ab (-1) = some (t1, loop1) ∧
      ∀ x, on_cycle cycle_ab x →
        depthOf t1 x < 0 ∧ ∃ m ∈ depsOf cycle_ab x, depthOf t1 m = depthOf t1 x :=
  ⟨by decide, cycle_members_negative cycle_ab (by decide) (by decide) 3 (by decide)⟩

/-- C10, counterexample.  In `tail_cycle` (fresh, unique keys, a node for
every dependency name) `toposort` puts `N` and `A` in the same cycle group,
and `N` is not reachable from `A`. -/
theorem cycle_group_not_mutually_reachable :
    closed tail_cycle ∧ fresh tail_cycle ∧ keys_unique tail_cycle ∧
    toposort 4 tail_cycle [] [] = some ([], [["B", "A", "N"]]) ∧
    ¬ Relation.ReflTransGen (edge tail_cycle) "A" "N" := by
  refine ⟨by decide, by decide, by decide, by decide, fun h => ?_⟩
  have hA : depsOf tail_cycle "A" = ["B"] := by decide
  have hB : depsOf tail_cycle "B" = ["A"] := by decide
  have key : ∀ y, Relation.ReflTransGen (edge tail_cycle) "A" y → y = "A" ∨ y = "B" := by
    intro y hy
    induction hy with
    | refl => exact Or.inl rfl
    | tail _ hbc ih =>
      unfold edge at hbc
      rcases ih with e | e
      · rw [e, hA] at hbc
        exact Or.inr (by simpa using hbc)
      · rw [e, hB] at hbc
        exact Or.inl (by simpa using hbc)
  rcases key "N" h with e | e
  · exact absurd e (by decide)
  · exact absurd e (by decide)

/-- C10, amended.  On a fresh table with unique keys in which every
dependency name has a node, `toposort` returns; every package of a cycle
group lies on a dependency cycle or reaches one and has at least one
dependency in the same cycle group; and every package that lies on a cycle
or reaches one is in some cycle group. -/
theorem cycle_group_members (t : Table) (hc : closed t) (hfresh : fresh t)
    (hu : keys_unique t) (fuel : Nat) (hfuel : t.length + 1 ≤ fuel) :
    ∃ levels loops, toposort fuel t [] [] = some (levels, loops) ∧
      (∀ j x, x ∈ loops.getD j [] →
        reaches_cycle t x ∧ ∃ m ∈ depsOf t x, m ∈ loops.getD j []) ∧
      (∀ x, reaches_cycle t x → ∃ j, x ∈ loops.getD j []) := by
  obtain ⟨t1, loop1, levels, loops, he, hts, hg, hI, hc1, _, _, hlp⟩ :=
    toposort_closed_total hc hfresh hu hfuel
  obtain ⟨t2, loop2, he2, _, _, _, _, hsign⟩ := toposort_resolve_closed hfresh hc hfuel
  rw [he] at he2
  simp only [Option.some.injEq, Prod.mk.injEq] at he2
  obtain ⟨rfl, rfl⟩ := he2
  refine ⟨levels, loops, hts, fun j x hx => ?_, fun x hx => ?_⟩
  · obtain ⟨hk, hd⟩ := (hlp j x).mp hx
    have hneg : depthOf t1 x < 0 := by omega
    obtain ⟨m, hm, hmd⟩ := hI.same x hneg (by simp)
    rw [← hg.depsOf_eq] at hm
    exact ⟨(hsign x hk).1.mp hneg, m, hm, (hlp j m).mpr ⟨hc.deps_mem hm, by omega⟩⟩
  · have hk := reaches_cycle_key hx
    have hneg := (hsign x hk).1.mpr hx
    exact ⟨(-depthOf t1 x - 1).toNat, (hlp _ x).mpr ⟨hk, by omega⟩⟩

/-- Witness of the amended C10: the table `N -> A -> B -> A`. -/
theorem cycle_group_members_witness :
    ∃ levels loops, toposort 4 tail_cycle [] [] = some (levels, loops) ∧
      (∀ j x, x ∈ loops.getD j [] →
        reaches_cycle tail_cycle x ∧ ∃ m ∈ depsOf tail_cycle x, m ∈ loops.getD j []) ∧
      (∀ x, reaches_cycle tail_cycle x → ∃ j, x ∈ loops.getD j []) :=
  cycle_group_members tail_cycle (by decide) (by decide) (by decide) 4 (by decide)


/-! ## The table operations of `find_deps` -/

theorem lookup_insert_item (t : Table) (it : depitem) (x : String) :
    lookup (insert_item t it) x =
      match lookup t x with
      | some a => some a
      | none => if it.name = x then some it else none := by
  simp only [lookup, insert_item, List.find?_append]
  cases h : List.find? (fun it => decide (it.name = x)) t with
  | some a => simp
  | none =>
    by_cases hx : it.name = x
    · simp [List.find?_cons, hx]
    · simp [List.find?_cons, hx]

theorem keys_insert_item (t : Table) (it : depitem) :
    keys (insert_item t it) = keys t ++ [it.name] := by
  simp [keys, insert_item]

theorem mem_modify_item {t : Table} {n : String} {f : depitem → depitem} {a : depitem}
    (h : a ∈ modify_item t n f) : a ∈ t ∨ ∃ b ∈ t, b.name = n ∧ a = f b := by
  induction t with
  | nil => simp [modify_item] at h
  | cons b rest ih =>
    by_cases hb : b.name = n
    · simp only [modify_item, hb, if_true, List.mem_cons] at h
      rcases h with e | h1
      · exact Or.inr ⟨b, List.mem_cons_self _ _, hb, e⟩
      · exact Or.inl (List.mem_cons_of_mem _ h1)
    · simp only [modify_item, hb, if_false, List.mem_cons] at h
      rcases h with e | h1
      · exact Or.inl (e ▸ List.mem_cons_self _ _)
      · rcases ih h1 with h2 | ⟨c, hc, hcn, hcf⟩
        · exact Or.inl (List.mem_cons_of_mem _ h2)
        · exact Or.inr ⟨c, List.mem_cons_of_mem _ hc, hcn, hcf⟩

/-- The lookup after `enter_item`. -/
theorem lookup_enter_item (t : Table) (cur x : String) :
    lookup (enter_item t cur) x =
      if x = cur then
        some { (match lookup t cur with
                | none => calloc_item cur
                | some it => it) with flag := PKG_VISITED }
      else lookup t x := by
  unfold enter_item
  simp only
  rw [lookup_modify_item _ _ _ (fun it : depitem => { it with flag := PKG_VISITED })
    (fun _ => rfl)]
  by_cases hx : x = cur
  · subst hx
    simp only [if_true]
    cases hl : lookup t x with
    | none => simp [lookup_insert_item, hl, calloc_item]
    | some it => simp [hl]
  · simp only [hx, if_false]
    cases hl : lookup t cur with
    | none =>
      simp only [lookup_insert_item]
      cases hl2 : lookup t x with
      | none => simp [calloc_item, Ne.symm hx]
      | some a => rfl
    | some it => rfl

theorem keys_enter_item (t : Table) (cur x : String) :
    x ∈ keys (enter_item t cur) ↔ x ∈ keys t ∨ x = cur := by
  unfold enter_item
  simp only
  rw [keys_modify_item _ _ (fun it : depitem => { it with flag := PKG_VISITED })
    (fun _ => rfl)]
  cases hl : lookup t cur with
  | none => simp [keys_insert_item, calloc_item]
  | some it =>
    simp only
    constructor
    · exact Or.inl
    · rintro (h | h)
      · exact h
      · exact h ▸ lookup_some_key hl

/-- The lookup after one row of `stmt_dep`. -/
theorem lookup_dep_row_step (t : Table) (cur : String) (r : dep_row) (x : String) :
    lookup (dep_row_step t cur r) x =
      (match lookup t x with
        | some it =>
          some (if x = cur then ({ it with deps := r.dependency :: it.deps } : depitem) else it)
        | none => if x = r.dependency then some (new_dep_item r) else none).map
        (fun it : depitem =>
          if x = r.dependency then { it with flag := row_flags r it.flag } else it) := by
  have h1 : ∀ y, lookup (modify_item t cur (fun it => { it with deps := r.dependency :: it.deps })) y
      = (lookup t y).map (fun it => if y = cur then { it with deps := r.dependency :: it.deps }
          else it) := by
    intro y
    rw [lookup_modify_item _ _ _
      (fun it : depitem => { it with deps := r.dependency :: it.deps }) (fun _ => rfl)]
    by_cases hy : y = cur
    · simp [hy]
    · simp [hy]
  have h2 : ∀ y, lookup (match lookup (modify_item t cur
        (fun it => { it with deps := r.dependency :: it.deps })) r.dependency with
      | none => insert_item (modify_item t cur
          (fun it => { it with deps := r.dependency :: it.deps })) (new_dep_item r)
      | some _ => modify_item t cur (fun it => { it with deps := r.dependency :: it.deps })) y
      = match lookup t y with
        | some it =>
          some (if y = cur then { it with deps := r.dependency :: it.deps } else it)
        | none => if y = r.dependency then some (new_dep_item r) else none := by
    intro y
    cases hd : lookup t r.dependency with
    | none =>
      simp only [h1, hd, Option.map_none', lookup_insert_item]
      cases hy : lookup t y with
      | none => simp [new_dep_item, calloc_item, eq_comm]
      | some a => simp
    | some d =>
      simp only [h1, hd, Option.map_some']
      cases hy : lookup t y with
      | none =>
        have : y ≠ r.dependency := fun e => by rw [e, hd] at hy; simp at hy
        simp [this]
      | some a => simp
  have h3 : ∀ (s : Table) (g : Nat → Nat) (y : String),
      lookup (modify_item s r.dependency (fun it => { it with flag := g it.flag })) y
        = (lookup s y).map (fun it => if y = r.dependency then { it with flag := g it.flag }
          else it) := by
    intro s g y
    rw [lookup_modify_item _ _ _ (fun it : depitem => { it with flag := g it.flag })
      (fun _ => rfl)]
    by_cases hy : y = r.dependency
    · simp [hy]
    · simp [hy]
  unfold dep_row_step
  simp only
  by_cases hb : r.builddep = true <;> by_cases hv : r.full_version = none
  · simp only [hb, hv, if_true, row_flags]
    rw [h3 _ (fun f => f ||| PKG_DEP_NOT_MET), h3 _ (fun f => f ||| PKG_BUILDDEP), h2]
    cases lookup t x <;> by_cases hx : x = r.dependency <;> simp [hx]
  · simp only [hb, hv, if_true, if_false, row_flags]
    rw [h3 _ (fun f => f ||| PKG_BUILDDEP), h2]
  · simp only [hb, hv, if_true, if_false, row_flags, Bool.false_eq_true]
    rw [h3 _ (fun f => f ||| PKG_DEP_NOT_MET), h2]
  · simp only [hb, hv, if_false, row_flags, Bool.false_eq_true]
    rw [h2]
    cases lookup t x <;> by_cases hx : x = r.dependency <;> simp [hx]

theorem flagOf_eq_of_lookup {t : Table} {n : String} {it : depitem}
    (h : lookup t n = some it) : flagOf t n = it.flag := by
  simp [flagOf, h]

theorem has_flag_row_flags_visited (r : dep_row) (f : Nat) :
    has_flag (row_flags r f) PKG_VISITED = has_flag f PKG_VISITED := by
  have h2 : ∀ g : Nat, (g ||| 2) &&& 1 = g &&& 1 := by
    intro g
    apply Nat.eq_of_testBit_eq
    intro i
    simp only [Nat.testBit_and, Nat.testBit_or]
    rcases i with _ | _ | i <;> simp [Nat.testBit_succ]
  have h8 : ∀ g : Nat, (g ||| 8) &&& 1 = g &&& 1 := by
    intro g
    apply Nat.eq_of_testBit_eq
    intro i
    simp only [Nat.testBit_and, Nat.testBit_or]
    rcases i with _ | _ | _ | _ | i <;> simp [Nat.testBit_succ]
  simp only [has_flag, row_flags, PKG_VISITED, PKG_BUILDDEP, PKG_DEP_NOT_MET]
  split_ifs <;> simp only [h2, h8]

theorem has_flag_row_flags_not_found (r : dep_row) (f : Nat) :
    has_flag (row_flags r f) PKG_NOT_FOUND = has_flag f PKG_NOT_FOUND := by
  have h2 : ∀ g : Nat, (g ||| 2) &&& 4 = g &&& 4 := by
    intro g
    apply Nat.eq_of_testBit_eq
    intro i
    simp only [Nat.testBit_and, Nat.testBit_or]
    rcases i with _ | _ | _ | i <;> simp [Nat.testBit_succ]
  have h8 : ∀ g : Nat, (g ||| 8) &&& 4 = g &&& 4 := by
    intro g
    apply Nat.eq_of_testBit_eq
    intro i
    simp only [Nat.testBit_and, Nat.testBit_or]
    rcases i with _ | _ | _ | _ | i <;> simp [Nat.testBit_succ]
  simp only [has_flag, row_flags, PKG_NOT_FOUND, PKG_BUILDDEP, PKG_DEP_NOT_MET]
  split_ifs <;> simp only [h2, h8]

theorem keys_dep_row_step (t : Table) (cur : String) (r : dep_row) (x : String) :
    x ∈ keys (dep_row_step t cur r) ↔ x ∈ keys t ∨ x = r.dependency := by
  have h := lookup_dep_row_step t cur r x
  by_cases hk : x ∈ keys t
  · obtain ⟨it, hit⟩ := lookup_of_key hk
    rw [hit] at h
    simp only [hk, true_or, iff_true]
    exact lookup_some_key h
  · have hn := (lookup_none_iff t x).mpr hk
    rw [hn] at h
    by_cases hx : x = r.dependency
    · simp only [hx, if_true, Option.map_some'] at h
      simp only [hk, hx, or_true, iff_true]
      exact hx ▸ lookup_some_key (hx ▸ h)
    · simp only [hx, if_false, Option.map_none'] at h
      simp only [hk, hx, or_false, iff_false]
      exact (lookup_none_iff _ x).mp h

theorem depsOf_dep_row_step (t : Table) (cur : String) (r : dep_row) (x : String) :
    depsOf (dep_row_step t cur r) x =
      if x = cur ∧ x ∈ keys t then r.dependency :: depsOf t x else depsOf t x := by
  have h := lookup_dep_row_step t cur r x
  simp only [depsOf]
  rw [h]
  cases hl : lookup t x with
  | none =>
    have hk := (lookup_none_iff t x).mp hl
    simp only [hk, and_false, if_false]
    split_ifs <;> simp [new_dep_item, calloc_item]
  | some it =>
    have hk := lookup_some_key hl
    simp only [hk, and_true]
    split_ifs <;> simp

theorem flagOf_dep_row_step (t : Table) (cur : String) (r : dep_row) (x : String) :
    flagOf (dep_row_step t cur r) x =
      if x = r.dependency then row_flags r (flagOf t x) else flagOf t x := by
  have h := lookup_dep_row_step t cur r x
  simp only [flagOf]
  rw [h]
  cases hl : lookup t x with
  | none => split_ifs <;> simp [new_dep_item, calloc_item]
  | some it =>
    simp only [Option.map_some']
    split_ifs <;> rfl

theorem visited_dep_row_step (t : Table) (cur : String) (r : dep_row) (x : String) :
    visited (dep_row_step t cur r) x ↔ visited t x := by
  unfold visited
  rw [flagOf_dep_row_step]
  split_ifs
  · rw [has_flag_row_flags_visited]
  · rfl

theorem not_found_dep_row_step (t : Table) (cur : String) (r : dep_row) (x : String) :
    not_found (dep_row_step t cur r) x ↔ not_found t x := by
  unfold not_found
  rw [flagOf_dep_row_step]
  split_ifs
  · rw [has_flag_row_flags_not_found]
  · rfl

theorem depsOf_enter_item (t : Table) (cur x : String) :
    depsOf (enter_item t cur) x = depsOf t x := by
  simp only [depsOf, lookup_enter_item]
  by_cases hx : x = cur
  · subst hx
    cases lookup t x <;> simp [calloc_item]
  · simp [hx]

theorem flagOf_enter_item (t : Table) (cur x : String) :
    flagOf (enter_item t cur) x = if x = cur then PKG_VISITED else flagOf t x := by
  simp only [flagOf, lookup_enter_item]
  by_cases hx : x = cur
  · simp [hx]
  · simp [hx]

theorem visited_enter_item (t : Table) (cur x : String) :
    visited (enter_item t cur) x ↔ x = cur ∨ visited t x := by
  unfold visited
  rw [flagOf_enter_item]
  by_cases hx : x = cur
  · simp only [hx, if_true, true_or, iff_true]
    decide
  · simp [hx]

theorem not_found_enter_item (t : Table) (cur x : String) :
    not_found (enter_item t cur) x ↔ x ≠ cur ∧ not_found t x := by
  unfold not_found
  rw [flagOf_enter_item]
  by_cases hx : x = cur
  · simp only [hx, if_true, ne_eq, not_true_eq_false, false_and, iff_false]
    decide
  · simp [hx]

/-- The assignment `cur_item->version = v`. -/
theorem lookup_set_version (t : Table) (cur : String) (v : Option String) (x : String) :
    lookup (modify_item t cur (fun it => { it with version := v })) x =
      if x = cur then (lookup t x).map (fun it : depitem => { it with version := v })
      else lookup t x :=
  lookup_modify_item _ _ _ (fun it : depitem => { it with version := v }) (fun _ => rfl)

theorem keys_set_version (t : Table) (cur : String) (v : Option String) :
    keys (modify_item t cur (fun it => { it with version := v })) = keys t :=
  keys_modify_item _ _ (fun it : depitem => { it with version := v }) (fun _ => rfl)

theorem depsOf_set_version (t : Table) (cur : String) (v : Option String) (x : String) :
    depsOf (modify_item t cur (fun it => { it with version := v })) x = depsOf t x := by
  simp only [depsOf, lookup_set_version]
  by_cases hx : x = cur
  · cases lookup t x <;> simp [hx]
  · simp [hx]

theorem flagOf_set_version (t : Table) (cur : String) (v : Option String) (x : String) :
    flagOf (modify_item t cur (fun it => { it with version := v })) x = flagOf t x := by
  simp only [flagOf, lookup_set_version]
  by_cases hx : x = cur
  · cases lookup t x <;> simp [hx]
  · simp [hx]

/-- The statement `cur_item->flag |= PKG_NOT_FOUND`. -/
theorem lookup_mark_not_found (t : Table) (cur x : String) :
    lookup (modify_item t cur (fun it => { it with flag := it.flag ||| PKG_NOT_FOUND })) x =
      if x = cur then
        (lookup t x).map (fun it : depitem => { it with flag := it.flag ||| PKG_NOT_FOUND })
      else lookup t x :=
  lookup_modify_item _ _ _ (fun it : depitem => { it with flag := it.flag ||| PKG_NOT_FOUND })
    (fun _ => rfl)

theorem keys_mark_not_found (t : Table) (cur : String) :
    keys (modify_item t cur (fun it => { it with flag := it.flag ||| PKG_NOT_FOUND })) = keys t :=
  keys_modify_item _ _ (fun it : depitem => { it with flag := it.flag ||| PKG_NOT_FOUND })
    (fun _ => rfl)

theorem depsOf_mark_not_found (t : Table) (cur x : String) :
    depsOf (modify_item t cur (fun it => { it with flag := it.flag ||| PKG_NOT_FOUND })) x
      = depsOf t x := by
  simp only [depsOf, lookup_mark_not_found]
  by_cases hx : x = cur
  · cases lookup t x <;> simp [hx]
  · simp [hx]

theorem flagOf_mark_not_found (t : Table) (cur x : String) :
    flagOf (modify_item t cur (fun it => { it with flag := it.flag ||| PKG_NOT_FOUND })) x
      = if x = cur ∧ x ∈ keys t then flagOf t x ||| PKG_NOT_FOUND else flagOf t x := by
  simp only [flagOf, lookup_mark_not_found]
  cases hl : lookup t x with
  | none =>
    have hk := (lookup_none_iff t x).mp hl
    simp [hk]
  | some it =>
    have hk := lookup_some_key hl
    by_cases hx : x = cur
    · subst hx; simp [hk]
    · simp [hx]

theorem visited_mark_not_found (t : Table) (cur x : String) :
    visited (modify_item t cur (fun it => { it with flag := it.flag ||| PKG_NOT_FOUND })) x
      ↔ visited t x := by
  have h4 : ∀ g : Nat, (g ||| 4) &&& 1 = g &&& 1 := by
    intro g
    apply Nat.eq_of_testBit_eq
    intro i
    simp only [Nat.testBit_and, Nat.testBit_or]
    rcases i with _ | _ | _ | i <;> simp [Nat.testBit_succ]
  unfold visited
  rw [flagOf_mark_not_found]
  split_ifs
  · simp only [has_flag, PKG_NOT_FOUND, PKG_VISITED, h4]
  · rfl

/-! ## The rows of one dependency query -/

theorem keys_rows (cur : String) : ∀ (rows : List dep_row) (t : Table) (x : String),
    x ∈ keys (rows.foldl (fun t r => dep_row_step t cur r) t) ↔
      x ∈ keys t ∨ ∃ r ∈ rows, r.dependency = x := by
  intro rows
  induction rows with
  | nil => intro t x; simp
  | cons r rest ih =>
    intro t x
    simp only [List.foldl_cons, ih, keys_dep_row_step, List.mem_cons, exists_eq_or_imp]
    constructor
    · rintro ((h | h) | h)
      · exact Or.inl h
      · exact Or.inr (Or.inl h.symm)
      · exact Or.inr (Or.inr h)
    · rintro (h | h | h)
      · exact Or.inl (Or.inl h)
      · exact Or.inl (Or.inr h.symm)
      · exact Or.inr h

theorem visited_rows (cur : String) : ∀ (rows : List dep_row) (t : Table) (x : String),
    visited (rows.foldl (fun t r => dep_row_step t cur r) t) x ↔ visited t x := by
  intro rows
  induction rows with
  | nil => intro t x; rfl
  | cons r rest ih =>
    intro t x
    simp only [List.foldl_cons, ih, visited_dep_row_step]

theorem not_found_rows (cur : String) : ∀ (rows : List dep_row) (t : Table) (x : String),
    not_found (rows.foldl (fun t r => dep_row_step t cur r) t) x ↔ not_found t x := by
  intro rows
  induction rows with
  | nil => intro t x; rfl
  | cons r rest ih =>
    intro t x
    simp only [List.foldl_cons, ih, not_found_dep_row_step]

/-- The dependency list of the current item after the rows: the names of
the rows in reverse order, in front of the list it had. -/
theorem depsOf_rows (cur : String) : ∀ (rows : List dep_row) (t : Table) (x : String),
    cur ∈ keys t →
    depsOf (rows.foldl (fun t r => dep_row_step t cur r) t) x =
      if x = cur then (rows.map (fun r => r.dependency)).reverse ++ depsOf t x
      else depsOf t x := by
  intro rows
  induction rows with
  | nil => intro t x _; simp
  | cons r rest ih =>
    intro t x hk
    have hk1 : cur ∈ keys (dep_row_step t cur r) := (keys_dep_row_step t cur r cur).mpr (Or.inl hk)
    simp only [List.foldl_cons, ih _ x hk1, depsOf_dep_row_step]
    by_cases hx : x = cur
    · subst hx
      simp [hk]
    · simp [hx]

/-! ## Induction over `find_deps` -/

/-- An induction principle for `find_deps`.  The property `P S t` speaks of
the table `t` and of the names `S` that the calls in progress still have to
visit; it is carried over a name that is skipped, over a name that is not
found, and over the expansion of a name by its dependency rows. -/
theorem find_deps_induct (ctx : db_ctx) (arch : String) (builddep : Bool)
    (P : List String → Table → Prop)
    (h_skip : ∀ S cur t, P (cur :: S) t → visited t cur → P S t)
    (h_notfound : ∀ S cur t, P (cur :: S) t → ¬ visited t cur →
      versionOf (enter_item t cur) cur = none →
      ctx.stmt_package cur arch = package_step.done →
      P S (modify_item (enter_item t cur) cur
        (fun it => { it with flag := it.flag ||| PKG_NOT_FOUND })))
    (h_expand : ∀ S cur t t2, P (cur :: S) t → ¬ visited t cur →
      ((versionOf (enter_item t cur) cur ≠ none ∧ t2 = enter_item t cur) ∨
        ∃ v, versionOf (enter_item t cur) cur = none ∧
          ctx.stmt_package cur arch = package_step.row v ∧
          t2 = modify_item (enter_item t cur) cur (fun it => { it with version := v })) →
      (expand_item ctx arch builddep t2 cur).2 = true →
      P (depsOf (expand_item ctx arch builddep t2 cur).1 cur ++ S)
        (expand_item ctx arch builddep t2 cur).1) :
    ∀ (fuel : Nat) (pk S : List String) (t t1 : Table),
      find_deps fuel ctx arch builddep pk t = Run.ok t1 → P (pk ++ S) t → P S t1 := by
  intro fuel
  induction fuel with
  | zero => intro pk S t t1 h; simp [find_deps] at h
  | succ f ih =>
    have hvisit : ∀ cur S t t1,
        find_deps_visit (find_deps f ctx arch builddep) ctx arch builddep cur t = Run.ok t1 →
        P (cur :: S) t → P S t1 := by
      intro cur S t t1 h hP
      unfold find_deps_visit at h
      by_cases hv : has_flag (flagOf t cur) PKG_VISITED = true
      · simp only [hv, if_true, Run.ok.injEq] at h
        subst h
        exact h_skip S cur t hP hv
      · simp only [hv, Bool.false_eq_true, if_false] at h
        cases hver : versionOf (enter_item t cur) cur with
        | some v0 =>
          simp only [hver] at h
          by_cases hok : (expand_item ctx arch builddep (enter_item t cur) cur).2 = true
          · simp only [hok, if_true] at h
            exact ih _ S _ t1 h
              (h_expand S cur t _ hP hv (Or.inl ⟨by simp [hver], rfl⟩) hok)
          · simp [hok] at h
        | none =>
          simp only [hver] at h
          cases hst : ctx.stmt_package cur arch with
          | row v =>
            simp only [hst] at h
            by_cases hok : (expand_item ctx arch builddep
                (modify_item (enter_item t cur) cur (fun it => { it with version := v })) cur).2
                  = true
            · simp only [hok, if_true] at h
              exact ih _ S _ t1 h
                (h_expand S cur t _ hP hv (Or.inr ⟨v, hver, hst, rfl⟩) hok)
            · simp [hok] at h
          | done =>
            simp only [hst, Run.ok.injEq] at h
            subst h
            exact h_notfound S cur t hP hv hver hst
          | error => simp [hst] at h
    have hloop : ∀ (pk S : List String) (t t1 : Table),
        find_deps_loop (find_deps f ctx arch builddep) ctx arch builddep pk t = Run.ok t1 →
        P (pk ++ S) t → P S t1 := by
      intro pk
      induction pk with
      | nil =>
        intro S t t1 h hP
        simp only [find_deps_loop, Run.ok.injEq] at h
        subst h
        exact hP
      | cons cur rest ihl =>
        intro S t t1 h hP
        simp only [find_deps_loop] at h
        cases hv : find_deps_visit (find_deps f ctx arch builddep) ctx arch builddep cur t with
        | ok ta =>
          rw [hv] at h
          exact ihl S ta t1 h (hvisit cur (rest ++ S) t ta hv hP)
        | exit_failure => simp [hv] at h
        | no_fuel => simp [hv] at h
    intro pk S t t1 h hP
    exact hloop pk S t t1 h hP

/-! ## What `find_deps` keeps: unique keys, depth `0`, a node for every name -/

theorem keys_enter_item_eq (t : Table) (cur : String) :
    keys (enter_item t cur) = if cur ∈ keys t then keys t else keys t ++ [cur] := by
  unfold enter_item
  simp only
  rw [keys_modify_item _ _ (fun it : depitem => { it with flag := PKG_VISITED })
    (fun _ => rfl)]
  cases hl : lookup t cur with
  | none =>
    have := (lookup_none_iff t cur).mp hl
    simp [this, keys_insert_item, calloc_item]
  | some it =>
    have := lookup_some_key hl
    simp [this]

theorem keys_dep_row_step_eq (t : Table) (cur : String) (r : dep_row) :
    keys (dep_row_step t cur r) =
      if r.dependency ∈ keys t then keys t else keys t ++ [r.dependency] := by
  have hk1 : keys (modify_item t cur (fun it => { it with deps := r.dependency :: it.deps }))
      = keys t :=
    keys_modify_item _ _ (fun it : depitem => { it with deps := r.dependency :: it.deps })
      (fun _ => rfl)
  have hf : ∀ (s : Table) (g : Nat → Nat),
      keys (modify_item s r.dependency (fun it => { it with flag := g it.flag })) = keys s :=
    fun s g => keys_modify_item _ _ (fun it : depitem => { it with flag := g it.flag })
      (fun _ => rfl)
  have h2 : keys (match lookup (modify_item t cur
        (fun it => { it with deps := r.dependency :: it.deps })) r.dependency with
      | none => insert_item (modify_item t cur
          (fun it => { it with deps := r.dependency :: it.deps })) (new_dep_item r)
      | some _ => modify_item t cur (fun it => { it with deps := r.dependency :: it.deps }))
      = if r.dependency ∈ keys t then keys t else keys t ++ [r.dependency] := by
    cases hl : lookup (modify_item t cur
        (fun it => { it with deps := r.dependency :: it.deps })) r.dependency with
    | none =>
      have := (lookup_none_iff _ _).mp hl
      rw [hk1] at this
      simp [this, keys_insert_item, hk1, new_dep_item, calloc_item]
    | some it =>
      have := lookup_some_key hl
      rw [hk1] at this
      simp [this, hk1]
  unfold dep_row_step
  simp only
  split_ifs with hb hv hv hd hd
  all_goals first
    | rw [hf _ (fun f => f ||| PKG_DEP_NOT_MET), hf _ (fun f => f ||| PKG_BUILDDEP), h2]
    | rw [hf _ (fun f => f ||| PKG_DEP_NOT_MET), h2]
    | rw [hf _ (fun f => f ||| PKG_BUILDDEP), h2]
    | rw [h2]
  all_goals simp_all

theorem keys_unique_append {t : List String} {a : String} (h : t.Nodup) (ha : a ∉ t) :
    (t ++ [a]).Nodup := by
  rw [List.nodup_append]
  refine ⟨h, List.nodup_singleton a, ?_⟩
  intro x hx hy
  simp only [List.mem_singleton] at hy
  exact ha (hy ▸ hx)

theorem keys_unique_enter_item {t : Table} (cur : String) (h : keys_unique t) :
    keys_unique (enter_item t cur) := by
  unfold keys_unique at h ⊢
  rw [keys_enter_item_eq]
  split_ifs with hc
  · exact h
  · exact keys_unique_append h hc

theorem keys_unique_dep_row_step {t : Table} (cur : String) (r : dep_row) (h : keys_unique t) :
    keys_unique (dep_row_step t cur r) := by
  unfold keys_unique at h ⊢
  rw [keys_dep_row_step_eq]
  split_ifs with hc
  · exact h
  · exact keys_unique_append h hc

theorem keys_unique_rows (cur : String) : ∀ (rows : List dep_row) (t : Table),
    keys_unique t → keys_unique (rows.foldl (fun t r => dep_row_step t cur r) t) := by
  intro rows
  induction rows with
  | nil => intro t h; exact h
  | cons r rest ih =>
    intro t h
    exact ih _ (keys_unique_dep_row_step cur r h)

/-- The function `find_deps` keeps the keys of the table unique. -/
theorem find_deps_keys_unique (ctx : db_ctx) (arch : String) (builddep : Bool) (fuel : Nat)
    (pk : List String) (t t1 : Table)
    (h : find_deps fuel ctx arch builddep pk t = Run.ok t1) (hu : keys_unique t) :
    keys_unique t1 := by
  refine find_deps_induct ctx arch builddep (fun _ t => keys_unique t) ?_ ?_ ?_
    fuel pk [] t t1 h hu
  · intro S cur t hP _; exact hP
  · intro S cur t hP _ _ _
    simp only [keys_unique] at hP ⊢
    rw [keys_mark_not_found]
    exact keys_unique_enter_item cur hP
  · intro S cur t t2 hP _ ht2 _
    have h2 : keys_unique t2 := by
      rcases ht2 with ⟨_, rfl⟩ | ⟨v, _, _, rfl⟩
      · exact keys_unique_enter_item cur hP
      · simp only [keys_unique]
        rw [keys_set_version]
        exact keys_unique_enter_item cur hP
    exact keys_unique_rows cur _ t2 h2

theorem depthOf_enter_item (t : Table) (cur x : String) :
    depthOf (enter_item t cur) x = depthOf t x := by
  simp only [depthOf, lookup_enter_item]
  by_cases hx : x = cur
  · subst hx
    cases lookup t x <;> simp [calloc_item]
  · simp [hx]

theorem depthOf_dep_row_step (t : Table) (cur : String) (r : dep_row) (x : String) :
    depthOf (dep_row_step t cur r) x = depthOf t x := by
  simp only [depthOf]
  rw [lookup_dep_row_step]
  cases hl : lookup t x with
  | none => split_ifs <;> simp [new_dep_item, calloc_item]
  | some it =>
    simp only [Option.map_some']
    split_ifs <;> rfl

theorem depthOf_rows (cur : String) : ∀ (rows : List dep_row) (t : Table) (x : String),
    depthOf (rows.foldl (fun t r => dep_row_step t cur r) t) x = depthOf t x := by
  intro rows
  induction rows with
  | nil => intro t x; rfl
  | cons r rest ih =>
    intro t x
    simp only [List.foldl_cons, ih, depthOf_dep_row_step]

theorem depthOf_set_version (t : Table) (cur : String) (v : Option String) (x : String) :
    depthOf (modify_item t cur (fun it => { it with version := v })) x = depthOf t x := by
  simp only [depthOf, lookup_set_version]
  by_cases hx : x = cur
  · cases lookup t x <;> simp [hx]
  · simp [hx]

theorem depthOf_mark_not_found (t : Table) (cur x : String) :
    depthOf (modify_item t cur (fun it => { it with flag := it.flag ||| PKG_NOT_FOUND })) x
      = depthOf t x := by
  simp only [depthOf, lookup_mark_not_found]
  by_cases hx : x = cur
  · cases lookup t x <;> simp [hx]
  · simp [hx]

/-- The function `find_deps` stores no depth. -/
theorem find_deps_depth (ctx : db_ctx) (arch : String) (builddep : Bool) (fuel : Nat)
    (pk : List String) (t t1 : Table)
    (h : find_deps fuel ctx arch builddep pk t = Run.ok t1) (h0 : ∀ x, depthOf t x = 0) :
    ∀ x, depthOf t1 x = 0 := by
  refine find_deps_induct ctx arch builddep (fun _ t => ∀ x, depthOf t x = 0) ?_ ?_ ?_
    fuel pk [] t t1 h h0
  · intro S cur t hP _; exact hP
  · intro S cur t hP _ _ _ x
    rw [depthOf_mark_not_found, depthOf_enter_item]
    exact hP x
  · intro S cur t t2 hP _ ht2 _ x
    simp only [expand_item]
    rw [depthOf_rows]
    rcases ht2 with ⟨_, rfl⟩ | ⟨v, _, _, rfl⟩
    · rw [depthOf_enter_item]; exact hP x
    · rw [depthOf_set_version, depthOf_enter_item]; exact hP x

theorem fresh_of_depthOf {t : Table} (hu : keys_unique t) (h : ∀ x, depthOf t x = 0) :
    fresh t := by
  intro it hit
  have hl := lookup_of_mem_unique hu hit
  rw [← depthOf_eq_of_lookup hl]
  exact h _

theorem closed_of_view {t : Table} (hu : keys_unique t) (h : closed_view t) : closed t := by
  intro it hit d hd
  have hl := lookup_of_mem_unique hu hit
  exact h it.name d (by rw [depsOf_eq_of_lookup hl]; exact hd)

/-- The function `find_deps` keeps a node for every name of a dependency
list. -/
theorem find_deps_closed_view (ctx : db_ctx) (arch : String) (builddep : Bool) (fuel : Nat)
    (pk : List String) (t t1 : Table)
    (h : find_deps fuel ctx arch builddep pk t = Run.ok t1) (hc : closed_view t) :
    closed_view t1 := by
  refine find_deps_induct ctx arch builddep (fun _ t => closed_view t) ?_ ?_ ?_
    fuel pk [] t t1 h hc
  · intro S cur t hP _; exact hP
  · intro S cur t hP _ _ _ x d hd
    rw [depsOf_mark_not_found, depsOf_enter_item] at hd
    rw [keys_mark_not_found]
    exact (keys_enter_item t cur d).mpr (Or.inl (hP x d hd))
  · intro S cur t t2 hP _ ht2 _ x d hd
    have hk2 : ∀ y, y ∈ keys t2 ↔ y ∈ keys t ∨ y = cur := by
      intro y
      rcases ht2 with ⟨_, rfl⟩ | ⟨v, _, _, rfl⟩
      · exact keys_enter_item t cur y
      · rw [keys_set_version]; exact keys_enter_item t cur y
    have hd2 : ∀ y, depsOf t2 y = depsOf t y := by
      intro y
      rcases ht2 with ⟨_, rfl⟩ | ⟨v, _, _, rfl⟩
      · exact depsOf_enter_item t cur y
      · rw [depsOf_set_version]; exact depsOf_enter_item t cur y
    simp only [expand_item] at hd ⊢
    rw [depsOf_rows cur _ t2 x ((hk2 cur).mpr (Or.inr rfl))] at hd
    rw [keys_rows]
    have hold : d ∈ depsOf t x → d ∈ keys t2 := fun hh => (hk2 d).mpr (Or.inl (hP x d hh))
    by_cases hx : x = cur
    · simp only [hx, if_true, List.mem_append, List.mem_reverse, List.mem_map] at hd
      rcases hd with ⟨r, hr, hrd⟩ | hd
      · exact Or.inr ⟨r, hr, hrd⟩
      · rw [hd2] at hd
        exact Or.inl (hold (hx ▸ hd))
    · simp only [hx, if_false] at hd
      rw [hd2] at hd
      exact Or.inl (hold hd)

/-! ## Flags and dependency lists after `find_deps` -/

theorem visited_set_version (t : Table) (cur : String) (v : Option String) (x : String) :
    visited (modify_item t cur (fun it => { it with version := v })) x ↔ visited t x := by
  unfold visited
  rw [flagOf_set_version]

theorem not_found_set_version (t : Table) (cur : String) (v : Option String) (x : String) :
    not_found (modify_item t cur (fun it => { it with version := v })) x ↔ not_found t x := by
  unfold not_found
  rw [flagOf_set_version]

/-- The table in which an unvisited name is expanded: keys, dependency
lists and flags. -/
theorem expand_start {ctx : db_ctx} {arch : String} {t t2 : Table} {cur : String}
    (ht2 : (versionOf (enter_item t cur) cur ≠ none ∧ t2 = enter_item t cur) ∨
      ∃ v, versionOf (enter_item t cur) cur = none ∧
        ctx.stmt_package cur arch = package_step.row v ∧
        t2 = modify_item (enter_item t cur) cur (fun it => { it with version := v })) :
    (∀ y, y ∈ keys t2 ↔ y ∈ keys t ∨ y = cur) ∧ (∀ y, depsOf t2 y = depsOf t y) ∧
    (∀ y, visited t2 y ↔ y = cur ∨ visited t y) ∧
    (∀ y, not_found t2 y ↔ y ≠ cur ∧ not_found t y) := by
  rcases ht2 with ⟨_, rfl⟩ | ⟨v, _, _, rfl⟩
  · exact ⟨keys_enter_item t cur, depsOf_enter_item t cur, visited_enter_item t cur,
      not_found_enter_item t cur⟩
  · refine ⟨fun y => ?_, fun y => ?_, fun y => ?_, fun y => ?_⟩
    · rw [keys_set_version]; exact keys_enter_item t cur y
    · rw [depsOf_set_version]; exact depsOf_enter_item t cur y
    · rw [visited_set_version]; exact visited_enter_item t cur y
    · rw [not_found_set_version]; exact not_found_enter_item t cur y

/-- After `find_deps` a node that is not visited, and a node that carries
`PKG_NOT_FOUND`, has an empty dependency list, when this holds before. -/
theorem find_deps_leaf_flags (ctx : db_ctx) (arch : String) (builddep : Bool) (fuel : Nat)
    (pk : List String) (t t1 : Table)
    (h : find_deps fuel ctx arch builddep pk t = Run.ok t1)
    (h0 : ∀ x, (¬ visited t x → depsOf t x = []) ∧ (not_found t x → depsOf t x = [])) :
    ∀ x, (¬ visited t1 x → depsOf t1 x = []) ∧ (not_found t1 x → depsOf t1 x = []) := by
  refine find_deps_induct ctx arch builddep
    (fun _ t => ∀ x, (¬ visited t x → depsOf t x = []) ∧ (not_found t x → depsOf t x = []))
    ?_ ?_ ?_ fuel pk [] t t1 h h0
  · intro S cur t hP _; exact hP
  · intro S cur t hP hv _ _ x
    rw [depsOf_mark_not_found, depsOf_enter_item, visited_mark_not_found, visited_enter_item]
    by_cases hx : x = cur
    · subst hx
      exact ⟨fun _ => (hP x).1 hv, fun _ => (hP x).1 hv⟩
    · refine ⟨fun hh => (hP x).1 (fun hvis => hh (Or.inr hvis)), fun hh => (hP x).2 ?_⟩
      unfold not_found at hh ⊢
      rw [flagOf_mark_not_found] at hh
      simp only [hx, false_and, if_false] at hh
      have := (not_found_enter_item t cur x).mp hh
      exact this.2
  · intro S cur t t2 hP hv ht2 _ x
    obtain ⟨hk2, hd2, hv2, hn2⟩ := expand_start ht2
    simp only [expand_item]
    rw [visited_rows, not_found_rows, depsOf_rows cur _ t2 x ((hk2 cur).mpr (Or.inr rfl)),
      hv2, hn2]
    by_cases hx : x = cur
    · subst hx
      exact ⟨fun hh => absurd (Or.inl rfl) hh, fun hh => absurd rfl hh.1⟩
    · simp only [hx, if_false, false_or, ne_eq, not_false_eq_true, true_and, hd2]
      exact hP x

/-- After `find_deps` from the empty table every node is visited, every name
of `roots` has a node, and every dependency row of a visited package whose
version query returns a row names a node. -/
theorem find_deps_closure_view (ctx : db_ctx) (arch : String) (builddep : Bool) (fuel : Nat)
    (roots : List String) (t1 : Table)
    (h : find_deps fuel ctx arch builddep roots [] = Run.ok t1) :
    (∀ x ∈ keys t1, visited t1 x) ∧ (∀ x ∈ roots, x ∈ keys t1) ∧
    (∀ a, a ∈ keys t1 → ∀ b, db_edge ctx arch builddep a b → b ∈ keys t1) := by
  have key := find_deps_induct ctx arch builddep
    (fun S t => (∀ x ∈ keys t, visited t x ∨ x ∈ S) ∧ (∀ x ∈ roots, x ∈ S ∨ x ∈ keys t) ∧
      (∀ a, visited t a → ∀ b, db_edge ctx arch builddep a b → b ∈ keys t))
    ?_ ?_ ?_ fuel roots [] [] t1 h ?_
  · obtain ⟨h1, h2, h3⟩ := key
    have hvis : ∀ x ∈ keys t1, visited t1 x := by
      intro x hx
      rcases h1 x hx with hh | hh
      · exact hh
      · simp at hh
    refine ⟨hvis, fun x hx => ?_, fun a ha => h3 a (hvis a ha)⟩
    rcases h2 x hx with hh | hh
    · simp at hh
    · exact hh
  · intro S cur t ⟨h1, h2, h3⟩ hv
    have hck : cur ∈ keys t := by
      by_contra hck
      simp [visited, flagOf, (lookup_none_iff t cur).mpr hck, has_flag] at hv
    refine ⟨fun x hx => ?_, fun x hx => ?_, h3⟩
    · rcases h1 x hx with hh | hh
      · exact Or.inl hh
      · rcases List.mem_cons.mp hh with e | hh1
        · exact Or.inl (e ▸ hv)
        · exact Or.inr hh1
    · rcases h2 x hx with hh | hh
      · rcases List.mem_cons.mp hh with e | hh1
        · exact Or.inr (e ▸ hck)
        · exact Or.inl hh1
      · exact Or.inr hh
  · intro S cur t ⟨h1, h2, h3⟩ hv _ hst
    have hkeys : ∀ y, y ∈ keys (modify_item (enter_item t cur) cur
        (fun it => { it with flag := it.flag ||| PKG_NOT_FOUND })) ↔ y ∈ keys t ∨ y = cur := by
      intro y
      rw [keys_mark_not_found]
      exact keys_enter_item t cur y
    have hvis : ∀ y, visited (modify_item (enter_item t cur) cur
        (fun it => { it with flag := it.flag ||| PKG_NOT_FOUND })) y ↔ y = cur ∨ visited t y := by
      intro y
      rw [visited_mark_not_found]
      exact visited_enter_item t cur y
    refine ⟨fun x hx => ?_, fun x hx => ?_, fun a ha b hab => ?_⟩
    · rw [hvis]
      rcases (hkeys x).mp hx with hh | hh
      · rcases h1 x hh with h4 | h4
        · exact Or.inl (Or.inr h4)
        · rcases List.mem_cons.mp h4 with e | h5
          · exact Or.inl (Or.inl e)
          · exact Or.inr h5
      · exact Or.inl (Or.inl hh)
    · rw [hkeys]
      rcases h2 x hx with hh | hh
      · rcases List.mem_cons.mp hh with e | hh1
        · exact Or.inr (Or.inr e)
        · exact Or.inl hh1
      · exact Or.inr (Or.inl hh)
    · rw [hkeys]
      rcases (hvis a).mp ha with e | ha1
      · subst e
        obtain ⟨⟨v, hv1⟩, _⟩ := hab
        rw [hst] at hv1
        exact absurd hv1 (by simp)
      · exact Or.inl (h3 a ha1 b hab)
  · intro S cur t t2 ⟨h1, h2, h3⟩ hv ht2 _
    obtain ⟨hk2, hd2, hv2, _⟩ := expand_start ht2
    have hck : cur ∈ keys t2 := (hk2 cur).mpr (Or.inr rfl)
    simp only [expand_item]
    refine ⟨fun x hx => ?_, fun x hx => ?_, fun a ha b hab => ?_⟩
    · rw [visited_rows, hv2]
      rw [keys_rows, hk2] at hx
      rcases hx with (hh | hh) | ⟨r, hr, hrd⟩
      · rcases h1 x hh with h4 | h4
        · exact Or.inl (Or.inr h4)
        · rcases List.mem_cons.mp h4 with e | h5
          · exact Or.inl (Or.inl e)
          · exact Or.inr (List.mem_append_right _ h5)
      · exact Or.inl (Or.inl hh)
      · refine Or.inr (List.mem_append_left _ ?_)
        rw [depsOf_rows cur _ t2 cur hck]
        simp only [if_true, List.mem_append, List.mem_reverse, List.mem_map]
        exact Or.inl ⟨r, hr, hrd⟩
    · rw [keys_rows, hk2]
      rcases h2 x hx with hh | hh
      · rcases List.mem_cons.mp hh with e | hh1
        · exact Or.inr (Or.inl (Or.inr e))
        · exact Or.inl (List.mem_append_right _ hh1)
      · exact Or.inr (Or.inl (Or.inl hh))
    · rw [keys_rows, hk2]
      rw [visited_rows, hv2] at ha
      rcases ha with e | ha1
      · subst e
        obtain ⟨_, r, hr, hrd⟩ := hab
        exact Or.inr ⟨r, hr, hrd⟩
      · exact Or.inl (Or.inl (h3 a ha1 b hab))
  · refine ⟨fun x hx => ?_, fun x hx => Or.inl (by simpa using hx), fun a ha => ?_⟩
    · simp [keys] at hx
    · simp [visited, flagOf, lookup, has_flag] at ha

/-! ## The claims about `find_deps` and `main` -/

theorem foldl_max_eq_zero : ∀ (l : List Nat) (acc : Nat),
    l.foldl max acc = 0 ↔ acc = 0 ∧ ∀ a ∈ l, a = 0 := by
  intro l
  induction l with
  | nil => intro acc; simp
  | cons b rest ih =>
    intro acc
    simp only [List.foldl_cons, ih, List.mem_cons, forall_eq_or_imp]
    constructor
    · rintro ⟨h1, h2⟩
      have : acc = 0 ∧ b = 0 := by omega
      exact ⟨this.1, this.2, h2⟩
    · rintro ⟨h1, h2, h3⟩
      exact ⟨by omega, h3⟩

theorem depthOf_nil (x : String) : depthOf [] x = 0 := rfl

/-- The table `find_deps` builds from the empty table is fresh, has unique
keys and a node for every dependency name. -/
theorem find_deps_table (ctx : db_ctx) (arch : String) (builddep : Bool) (fuel : Nat)
    (roots : List String) (t1 : Table)
    (h : find_deps fuel ctx arch builddep roots [] = Run.ok t1) :
    keys_unique t1 ∧ fresh t1 ∧ closed t1 := by
  have hu : keys_unique t1 :=
    find_deps_keys_unique ctx arch builddep fuel roots [] t1 h List.nodup_nil
  have hf := find_deps_depth ctx arch builddep fuel roots [] t1 h depthOf_nil
  have hc := find_deps_closed_view ctx arch builddep fuel roots [] t1 h
    (fun x d hd => by simp [depsOf, lookup] at hd)
  exact ⟨hu, fresh_of_depthOf hu hf, closed_of_view hu hc⟩

/-- C9 (table invariant).  When the keys of the table are unique and every
name of a dependency list has a node before a call of `find_deps` that
returns, the same holds after it; in particular for the table built from the
empty table.  One row of the dependency query prepends the name to the
dependency list of the current item and leaves the table with a node for
that name. -/
theorem find_deps_keeps_closed (ctx : db_ctx) (arch : String) (builddep : Bool) (fuel : Nat)
    (pk : List String) (t t1 : Table)
    (h : find_deps fuel ctx arch builddep pk t = Run.ok t1) (hu : keys_unique t)
    (hc : closed t) :
    closed t1 ∧ keys_unique t1 ∧
    (∀ (pk2 : List String) (t2 : Table),
      find_deps fuel ctx arch builddep pk2 [] = Run.ok t2 → closed t2) ∧
    (∀ (s : Table) (cur : String) (r : dep_row), cur ∈ keys s →
      depsOf (dep_row_step s cur r) cur = r.dependency :: depsOf s cur ∧
      r.dependency ∈ keys (dep_row_step s cur r)) := by
  have hu1 := find_deps_keys_unique ctx arch builddep fuel pk t t1 h hu
  have hc1 := find_deps_closed_view ctx arch builddep fuel pk t t1 h
    (fun x d hd => hc.deps_mem hd)
  refine ⟨closed_of_view hu1 hc1, hu1,
    fun pk2 t2 h2 => (find_deps_table ctx arch builddep fuel pk2 t2 h2).2.2,
    fun s cur r hcur => ⟨?_, ?_⟩⟩
  · rw [depsOf_dep_row_step]
    simp [hcur]
  · exact (keys_dep_row_step s cur r r.dependency).mpr (Or.inr rfl)

/-- Witness of C9: the table built for `db_cycle` from the root `A`. -/
theorem find_deps_keeps_closed_witness :
    find_deps 5 db_cycle "amd64" true ["A"] [] = Run.ok table_cycle ∧
    closed table_cycle ∧ keys_unique table_cycle ∧
    (∀ (pk2 : List String) (t2 : Table),
      find_deps 5 db_cycle "amd64" true pk2 [] = Run.ok t2 → closed t2) ∧
    (∀ (s : Table) (cur : String) (r : dep_row), cur ∈ keys s →
      depsOf (dep_row_step s cur r) cur = r.dependency :: depsOf s cur ∧
      r.dependency ∈ keys (dep_row_step s cur r)) :=
  ⟨by decide, find_deps_keeps_closed db_cycle "amd64" true 5 ["A"] [] table_cycle
    (by decide) (by decide) (by decide)⟩

/-- C8 (closure of the builder).  When `find_deps` returns on the empty
table, every root name and every name reachable from a root through the
dependency rows of packages whose version query returns a row has a node,
and every node of the table carries `PKG_VISITED`. -/
theorem find_deps_closure (ctx : db_ctx) (arch : String) (builddep : Bool) (fuel : Nat)
    (roots : List String) (t1 : Table)
    (h : find_deps fuel ctx arch builddep roots [] = Run.ok t1) :
    (∀ r ∈ roots, ∀ x, Relation.ReflTransGen (db_edge ctx arch builddep) r x → x ∈ keys t1) ∧
    (∀ it ∈ t1, has_flag it.flag PKG_VISITED = true) := by
  obtain ⟨hvis, hroots, hedge⟩ := find_deps_closure_view ctx arch builddep fuel roots t1 h
  obtain ⟨hu, _, _⟩ := find_deps_table ctx arch builddep fuel roots t1 h
  refine ⟨fun r hr x hx => ?_, fun it hit => ?_⟩
  · induction hx with
    | refl => exact hroots r hr
    | tail _ hbc ih => exact hedge _ ih _ hbc
  · have hl := lookup_of_mem_unique hu hit
    have := hvis it.name (lookup_some_key hl)
    unfold visited at this
    rw [flagOf_eq_of_lookup hl] at this
    exact this

/-- Witness of C8: the table built for `db_cycle` from the root `A`. -/
theorem find_deps_closure_witness :
    find_deps 5 db_cycle "amd64" true ["A"] [] = Run.ok table_cycle ∧
    (∀ r ∈ ["A"], ∀ x,
      Relation.ReflTransGen (db_edge db_cycle "amd64" true) r x → x ∈ keys table_cycle) ∧
    (∀ it ∈ table_cycle, has_flag it.flag PKG_VISITED = true) :=
  ⟨by decide, find_deps_closure db_cycle "amd64" true 5 ["A"] table_cycle (by decide)⟩

/-- C7 (package not found).  When `find_deps` returns on the empty table,
every node that carries `PKG_NOT_FOUND` has an empty dependency list, and
for every iteration order of the table `toposort` returns, gives the node
depth `1` and puts it in `levels[0]`. -/
theorem not_found_is_leaf (ctx : db_ctx) (arch : String) (builddep : Bool) (fuel : Nat)
    (roots : List String) (t1 : Table)
    (h : find_deps fuel ctx arch builddep roots [] = Run.ok t1) :
    (∀ it ∈ t1, has_flag it.flag PKG_NOT_FOUND = true → it.deps = []) ∧
    ∀ (t2 : Table), t2.Perm t1 → ∀ (fuel2 : Nat), t2.length + 1 ≤ fuel2 →
      ∃ t3 loop3 levels loops,
        toposort_resolve fuel2 (keys t2) t2 (-1) = some (t3, loop3) ∧
        toposort fuel2 t2 [] [] = some (levels, loops) ∧
        ∀ it ∈ t1, has_flag it.flag PKG_NOT_FOUND = true →
          depthOf t3 it.name = 1 ∧ it.name ∈ levels.getD 0 [] := by
  obtain ⟨hu, hfresh, _⟩ := find_deps_table ctx arch builddep fuel roots t1 h
  have hq := find_deps_leaf_flags ctx arch builddep fuel roots [] t1 h
    (fun x => ⟨fun _ => rfl, fun _ => rfl⟩)
  have hleaf : ∀ it ∈ t1, has_flag it.flag PKG_NOT_FOUND = true → it.deps = [] := by
    intro it hit hnf
    have hl := lookup_of_mem_unique hu hit
    have := (hq it.name).2 (by unfold not_found; rw [flagOf_eq_of_lookup hl]; exact hnf)
    rw [depsOf_eq_of_lookup hl] at this
    exact this
  refine ⟨hleaf, fun t2 hp fuel2 hfuel2 => ?_⟩
  have hu2 := keys_unique_perm hp hu
  have hf2 := fresh_perm hp hfresh
  obtain ⟨t3, loop3, levels, loops, he, hts, hg, _, hlv, _, _, _⟩ := toposort_total hu2 hfuel2
  obtain ⟨t3a, loop3a, hea, _, _, hI, hnz⟩ := toposort_resolve_fresh hf2 hfuel2
  rw [he] at hea
  simp only [Option.some.injEq, Prod.mk.injEq] at hea
  obtain ⟨rfl, rfl⟩ := hea
  refine ⟨t3, loop3, levels, loops, he, hts, fun it hit hnf => ?_⟩
  have hl := lookup_of_mem_unique hu hit
  have hk2 : it.name ∈ keys t2 := (keys_perm hp it.name).mpr (lookup_some_key hl)
  have hd : depsOf t3 it.name = [] := by
    rw [← hg.depsOf_eq, depsOf_perm hu hp, depsOf_eq_of_lookup hl]
    exact hleaf it hit hnf
  have h1 : depthOf t3 it.name = 1 := by
    rcases hI.leaf it.name (hg.keys_eq ▸ hk2) hd with h0 | h1
    · exact absurd h0 (hnz it.name hk2)
    · exact h1
  exact ⟨h1, (mem_of_count_ite (hlv 0 it.name)).mpr ⟨hk2, by rw [h1]; rfl⟩⟩

/-- Witness of C7: a single root `X` for which the version query returns no
row gives the levels `[[X]]`, no cycle group and the exit status `0`. -/
theorem not_found_is_leaf_witness :
    find_deps 5 db_empty "amd64" true ["X"] [] = Run.ok table_missing ∧
    toposort 5 table_missing [] [] = some ([["X"]], []) ∧
    main 5 db_empty "amd64" true ["X"] = some EXIT_SUCCESS ∧
    (∀ it ∈ table_missing, has_flag it.flag PKG_NOT_FOUND = true → it.deps = []) ∧
    ∀ (t2 : Table), t2.Perm table_missing → ∀ (fuel2 : Nat), t2.length + 1 ≤ fuel2 →
      ∃ t3 loop3 levels loops,
        toposort_resolve fuel2 (keys t2) t2 (-1) = some (t3, loop3) ∧
        toposort fuel2 t2 [] [] = some (levels, loops) ∧
        ∀ it ∈ table_missing, has_flag it.flag PKG_NOT_FOUND = true →
          depthOf t3 it.name = 1 ∧ it.name ∈ levels.getD 0 [] :=
  ⟨by decide, by decide, by decide,
    not_found_is_leaf db_empty "amd64" true 5 ["X"] table_missing (by decide)⟩

theorem reach_mono {a b : Table} (h : ∀ x, ∀ d ∈ depsOf a x, d ∈ depsOf b x) {r x : String}
    (hr : Relation.ReflTransGen (edge a) r x) : Relation.ReflTransGen (edge b) r x :=
  Relation.ReflTransGen.mono (fun u v huv => h u v huv) hr

/-- Every node of the table `find_deps` builds from the empty table is
reachable from a root through the dependency lists of the table. -/
theorem find_deps_reachable (ctx : db_ctx) (arch : String) (builddep : Bool) (fuel : Nat)
    (roots : List String) (t1 : Table)
    (h : find_deps fuel ctx arch builddep roots [] = Run.ok t1) :
    ∀ x ∈ keys t1, ∃ r ∈ roots, Relation.ReflTransGen (edge t1) r x := by
  have key := find_deps_induct ctx arch builddep
    (fun S t => (∀ x ∈ S, x ∈ roots ∨ x ∈ keys t) ∧
      (∀ x ∈ keys t, ∃ r ∈ roots, Relation.ReflTransGen (edge t) r x) ∧ closed_view t)
    ?_ ?_ ?_ fuel roots [] [] t1 h ?_
  · exact key.2.1
  · intro S cur t ⟨h1, h2, h3⟩ _
    exact ⟨fun x hx => h1 x (List.mem_cons_of_mem _ hx), h2, h3⟩
  · intro S cur t ⟨h1, h2, h3⟩ _ _ _
    have hkeys : ∀ y, y ∈ keys (modify_item (enter_item t cur) cur
        (fun it => { it with flag := it.flag ||| PKG_NOT_FOUND })) ↔ y ∈ keys t ∨ y = cur := by
      intro y
      rw [keys_mark_not_found]
      exact keys_enter_item t cur y
    have hdeps : ∀ y, depsOf (modify_item (enter_item t cur) cur
        (fun it => { it with flag := it.flag ||| PKG_NOT_FOUND })) y = depsOf t y := by
      intro y
      rw [depsOf_mark_not_found, depsOf_enter_item]
    refine ⟨fun x hx => ?_, fun x hx => ?_, fun x d hd => ?_⟩
    · rcases h1 x (List.mem_cons_of_mem _ hx) with hh | hh
      · exact Or.inl hh
      · exact Or.inr ((hkeys x).mpr (Or.inl hh))
    · have hreach : ∀ y ∈ keys t, ∃ r ∈ roots, Relation.ReflTransGen
          (edge (modify_item (enter_item t cur) cur
            (fun it => { it with flag := it.flag ||| PKG_NOT_FOUND }))) r y := by
        intro y hy
        obtain ⟨r, hr, hry⟩ := h2 y hy
        exact ⟨r, hr, reach_mono (fun u d hd => by rw [hdeps]; exact hd) hry⟩
      rcases (hkeys x).mp hx with hh | hh
      · exact hreach x hh
      · rcases h1 cur (List.mem_cons_self _ _) with h4 | h4
        · exact ⟨x, hh ▸ h4, Relation.ReflTransGen.refl⟩
        · exact hreach x (hh ▸ h4)
    · rw [hdeps] at hd
      exact (hkeys d).mpr (Or.inl (h3 x d hd))
  · intro S cur t t2 ⟨h1, h2, h3⟩ _ ht2 _
    obtain ⟨hk2, hd2, _, _⟩ := expand_start ht2
    have hck : cur ∈ keys t2 := (hk2 cur).mpr (Or.inr rfl)
    simp only [expand_item]
    have hdeps : ∀ y, depsOf ((ctx.stmt_dep cur arch (relationship builddep)).1.foldl
        (fun t r => dep_row_step t cur r) t2) y =
        if y = cur then ((ctx.stmt_dep cur arch (relationship builddep)).1.map
          (fun r => r.dependency)).reverse ++ depsOf t y else depsOf t y := by
      intro y
      rw [depsOf_rows cur _ t2 y hck, hd2]
    have hmono : ∀ u, ∀ d ∈ depsOf t u, d ∈ depsOf
        ((ctx.stmt_dep cur arch (relationship builddep)).1.foldl
          (fun t r => dep_row_step t cur r) t2) u := by
      intro u d hd
      rw [hdeps]
      split_ifs
      · exact List.mem_append_right _ hd
      · exact hd
    have hreach : ∀ y ∈ keys t, ∃ r ∈ roots, Relation.ReflTransGen
        (edge ((ctx.stmt_dep cur arch (relationship builddep)).1.foldl
          (fun t r => dep_row_step t cur r) t2)) r y := by
      intro y hy
      obtain ⟨r, hr, hry⟩ := h2 y hy
      exact ⟨r, hr, reach_mono hmono hry⟩
    have hcur : ∃ r ∈ roots, Relation.ReflTransGen
        (edge ((ctx.stmt_dep cur arch (relationship builddep)).1.foldl
          (fun t r => dep_row_step t cur r) t2)) r cur := by
      rcases h1 cur (List.mem_cons_self _ _) with h4 | h4
      · exact ⟨cur, h4, Relation.ReflTransGen.refl⟩
      · exact hreach cur h4
    have hclosed : ∀ x, ∀ d ∈ depsOf ((ctx.stmt_dep cur arch (relationship builddep)).1.foldl
          (fun t r => dep_row_step t cur r) t2) x,
        d ∈ keys ((ctx.stmt_dep cur arch (relationship builddep)).1.foldl
          (fun t r => dep_row_step t cur r) t2) := by
      intro x d hd
      rw [hdeps] at hd
      rw [keys_rows, hk2]
      by_cases hx : x = cur
      · simp only [hx, if_true, List.mem_append, List.mem_reverse, List.mem_map] at hd
        rcases hd with ⟨r, hr, hrd⟩ | hd
        · exact Or.inr ⟨r, hr, hrd⟩
        · exact Or.inl (Or.inl (h3 cur d hd))
      · simp only [hx, if_false] at hd
        exact Or.inl (Or.inl (h3 x d hd))
    refine ⟨fun x hx => ?_, fun x hx => ?_, hclosed⟩
    · rcases List.mem_append.mp hx with hh | hh
      · exact Or.inr (hclosed cur x hh)
      · rcases h1 x (List.mem_cons_of_mem _ hh) with h4 | h4
        · exact Or.inl h4
        · exact Or.inr ((keys_rows cur _ t2 x).mpr (Or.inl ((hk2 x).mpr (Or.inl h4))))
    · rw [keys_rows, hk2] at hx
      rcases hx with (hh | hh) | ⟨r, hr, hrd⟩
      · exact hreach x hh
      · exact hh ▸ hcur
      · obtain ⟨r0, hr0, hr0c⟩ := hcur
        refine ⟨r0, hr0, hr0c.tail ?_⟩
        unfold edge
        rw [hdeps]
        simp only [if_true, List.mem_append, List.mem_reverse, List.mem_map]
        exact Or.inl ⟨r, hr, hrd⟩
  · refine ⟨fun x hx => Or.inl (by simpa using hx), fun x hx => ?_, fun x d hd => ?_⟩
    · simp [keys] at hx
    · simp [depsOf, lookup] at hd

/-- The dependency lists of the table `find_deps` builds from the empty table
hold names of dependency rows of the database only, and the list of a node
whose version query returns a row holds the name of each of its rows. -/
theorem find_deps_edges (ctx : db_ctx) (arch : String) (builddep : Bool) (fuel : Nat)
    (roots : List String) (t1 : Table)
    (h : find_deps fuel ctx arch builddep roots [] = Run.ok t1) :
    (∀ a b, edge t1 a b →
      ∃ r ∈ (ctx.stmt_dep a arch (relationship builddep)).1, r.dependency = b) ∧
    (∀ a ∈ keys t1, ∀ b, db_edge ctx arch builddep a b → edge t1 a b) := by
  have key := find_deps_induct ctx arch builddep
    (fun _ t => (∀ a, ∀ b ∈ depsOf t a,
        ∃ r ∈ (ctx.stmt_dep a arch (relationship builddep)).1, r.dependency = b) ∧
      (∀ a, visited t a → ∀ b, db_edge ctx arch builddep a b → b ∈ depsOf t a))
    ?_ ?_ ?_ fuel roots [] [] t1 h ?_
  · obtain ⟨hvis, _, _⟩ := find_deps_closure_view ctx arch builddep fuel roots t1 h
    exact ⟨fun a b hab => key.1 a b hab, fun a ha b hab => key.2 a (hvis a ha) b hab⟩
  · intro S cur t hP _; exact hP
  · intro S cur t ⟨h1, h2⟩ _ _ hst
    refine ⟨fun a b hb => ?_, fun a ha b hab => ?_⟩
    · rw [depsOf_mark_not_found, depsOf_enter_item] at hb
      exact h1 a b hb
    · rw [depsOf_mark_not_found, depsOf_enter_item]
      rw [visited_mark_not_found, visited_enter_item] at ha
      rcases ha with e | ha1
      · subst e
        obtain ⟨⟨v, hv1⟩, _⟩ := hab
        rw [hst] at hv1
        exact absurd hv1 (by simp)
      · exact h2 a ha1 b hab
  · intro S cur t t2 ⟨h1, h2⟩ _ ht2 _
    obtain ⟨hk2, hd2, hv2, _⟩ := expand_start ht2
    have hck : cur ∈ keys t2 := (hk2 cur).mpr (Or.inr rfl)
    simp only [expand_item]
    refine ⟨fun a b hb => ?_, fun a ha b hab => ?_⟩
    · rw [depsOf_rows cur _ t2 a hck, hd2] at hb
      by_cases hx : a = cur
      · simp only [hx, if_true, List.mem_append, List.mem_reverse, List.mem_map] at hb
        rcases hb with ⟨r, hr, hrd⟩ | hb
        · exact ⟨r, hx ▸ hr, hrd⟩
        · exact hx ▸ h1 cur b hb
      · simp only [hx, if_false] at hb
        exact h1 a b hb
    · rw [depsOf_rows cur _ t2 a hck, hd2]
      rw [visited_rows, hv2] at ha
      by_cases hx : a = cur
      · subst hx
        obtain ⟨_, r, hr, hrd⟩ := hab
        simp only [if_true, List.mem_append, List.mem_reverse, List.mem_map]
        exact Or.inl ⟨r, hr, hrd⟩
      · simp only [hx, if_false]
        rcases ha with e | ha1
        · exact absurd e hx
        · exact h2 a ha1 b hab
  · refine ⟨fun a b hb => ?_, fun a ha => ?_⟩
    · simp [depsOf, lookup] at hb
    · simp [visited, flagOf, lookup, has_flag] at ha

/-- C5 (exit status).  Let `find_deps` return the table `t1` for the roots
`args.reverse` on the empty table.  Every node of `t1` is reachable from a
root through the dependency lists of `t1`, every edge of `t1` is a
dependency row of the database, and every dependency row of a node whose
version query returns a row is an edge of `t1`: the graph of `t1` is the
dependency graph reachable from the roots.  With fuel above the number of
nodes `main` returns `EXIT_CIRCULAR` exactly when that graph has a cycle and
`EXIT_SUCCESS` exactly when it has none; and for every iteration order of
the table `toposort` returns a non-empty list of cycle groups exactly when
the graph has a cycle. -/
theorem exit_status_iff_cycle (ctx : db_ctx) (arch : String) (builddep : Bool) (fuel : Nat)
    (args : List String) (t1 : Table) (hargs : args ≠ [])
    (h : find_deps fuel ctx arch builddep args.reverse [] = Run.ok t1)
    (hfuel : t1.length + 1 ≤ fuel) :
    (∀ x ∈ keys t1, ∃ r ∈ args, Relation.ReflTransGen (edge t1) r x) ∧
    (∀ a b, edge t1 a b →
      ∃ r ∈ (ctx.stmt_dep a arch (relationship builddep)).1, r.dependency = b) ∧
    (∀ a ∈ keys t1, ∀ b, db_edge ctx arch builddep a b → edge t1 a b) ∧
    (main fuel ctx arch builddep args = some EXIT_CIRCULAR ↔ ∃ x, on_cycle t1 x) ∧
    (main fuel ctx arch builddep args = some EXIT_SUCCESS ↔ ¬ ∃ x, on_cycle t1 x) ∧
    ∀ (t2 : Table), t2.Perm t1 → ∀ (fuel2 : Nat), t2.length + 1 ≤ fuel2 →
      ∃ levels loops, toposort fuel2 t2 [] [] = some (levels, loops) ∧
        (loops ≠ [] ↔ ∃ x, on_cycle t1 x) ∧
        (exit_status loops = EXIT_CIRCULAR ↔ ∃ x, on_cycle t1 x) ∧
        (exit_status loops = EXIT_SUCCESS ↔ ¬ ∃ x, on_cycle t1 x) := by
  obtain ⟨hu, hfresh, hc⟩ := find_deps_table ctx arch builddep fuel args.reverse t1 h
  have hperm : ∀ (t2 : Table), t2.Perm t1 → ∀ (fuel2 : Nat), t2.length + 1 ≤ fuel2 →
      ∃ levels loops, toposort fuel2 t2 [] [] = some (levels, loops) ∧
        (loops ≠ [] ↔ ∃ x, on_cycle t1 x) := by
    intro t2 hp fuel2 hfuel2
    have hu2 := keys_unique_perm hp hu
    obtain ⟨t3, loop3, levels, loops, he, hts, hg, _, _, _, _, hlen⟩ := toposort_total hu2 hfuel2
    obtain ⟨t3a, loop3a, hea, _, _, _, hnz, hsign⟩ :=
      toposort_resolve_closed (fresh_perm hp hfresh) (closed_perm hp hc) hfuel2
    rw [he] at hea
    simp only [Option.some.injEq, Prod.mk.injEq] at hea
    obtain ⟨rfl, rfl⟩ := hea
    have hu3 : keys_unique t3 := by unfold keys_unique; rw [← hg.keys_eq]; exact hu2
    refine ⟨levels, loops, hts, ?_⟩
    have hcyc : (∃ x, on_cycle t1 x) ↔ ∃ x ∈ keys t2, reaches_cycle t2 x := by
      simp only [reaches_cycle, on_cycle, edge_perm hu hp]
      constructor
      · rintro ⟨x, hx⟩
        have hr : reaches_cycle t1 x := ⟨x, Relation.ReflTransGen.refl, hx⟩
        exact ⟨x, (keys_perm hp x).mpr (reaches_cycle_key hr), x,
          Relation.ReflTransGen.refl, hx⟩
      · rintro ⟨x, _, c, _, hcc⟩
        exact ⟨c, hcc⟩
    rw [hcyc]
    constructor
    · intro hne
      have hlen0 : loops.length ≠ 0 := fun e => hne (List.eq_nil_of_length_eq_zero e)
      rw [hlen] at hlen0
      have : ¬ ∀ a ∈ t3.map (fun it => (-it.depth).toNat), a = 0 :=
        fun hall => hlen0 ((foldl_max_eq_zero _ 0).mpr ⟨rfl, hall⟩)
      push_neg at this
      obtain ⟨a, ha, ha0⟩ := this
      obtain ⟨it, hit, rfl⟩ := List.mem_map.mp ha
      have hl := lookup_of_mem_unique hu3 hit
      have hk : it.name ∈ keys t2 := hg.keys_eq ▸ lookup_some_key hl
      refine ⟨it.name, hk, (hsign it.name hk).1.mp ?_⟩
      rw [depthOf_eq_of_lookup hl]
      omega
    · rintro ⟨x, hx, hr⟩ hnil
      have hneg := (hsign x hx).1.mpr hr
      obtain ⟨it, hl⟩ := lookup_of_key (hg.keys_eq ▸ hx)
      rw [depthOf_eq_of_lookup hl] at hneg
      have hlen0 : loops.length = 0 := by rw [hnil]; rfl
      rw [hlen] at hlen0
      have := ((foldl_max_eq_zero _ 0).mp hlen0).2 _
        (List.mem_map.mpr ⟨it, lookup_some_mem hl, rfl⟩)
      omega
  have hstatus : ∀ loops : Buckets,
      (exit_status loops = EXIT_CIRCULAR ↔ loops ≠ []) ∧
      (exit_status loops = EXIT_SUCCESS ↔ ¬ loops ≠ []) := by
    intro loops
    cases loops with
    | nil => simp [exit_status, EXIT_CIRCULAR, EXIT_SUCCESS]
    | cons b rest => simp [exit_status, EXIT_CIRCULAR, EXIT_SUCCESS]
  refine ⟨?_, (find_deps_edges ctx arch builddep fuel args.reverse t1 h).1,
    (find_deps_edges ctx arch builddep fuel args.reverse t1 h).2, ?_, ?_,
    fun t2 hp fuel2 hfuel2 => ?_⟩
  · intro x hx
    obtain ⟨r, hr, hrx⟩ := find_deps_reachable ctx arch builddep fuel args.reverse t1 h x hx
    exact ⟨r, List.mem_reverse.mp hr, hrx⟩
  · obtain ⟨levels, loops, hts, hl⟩ := hperm t1 (List.Perm.refl _) fuel hfuel
    simp only [main, hargs, if_false, h, hts, Option.some.injEq]
    rw [(hstatus loops).1, hl]
  · obtain ⟨levels, loops, hts, hl⟩ := hperm t1 (List.Perm.refl _) fuel hfuel
    simp only [main, hargs, if_false, h, hts, Option.some.injEq]
    rw [(hstatus loops).2, hl]
  · obtain ⟨levels, loops, hts, hl⟩ := hperm t2 hp fuel2 hfuel2
    refine ⟨levels, loops, hts, hl, ?_, ?_⟩
    · rw [(hstatus loops).1, hl]
    · rw [(hstatus loops).2, hl]

/-- Witness of C5: the database `db_cycle` with the root `A` gives the exit
status `2`. -/
theorem exit_status_iff_cycle_witness :
    find_deps 5 db_cycle "amd64" true ["A"].reverse [] = Run.ok table_cycle ∧
    main 5 db_cycle "amd64" true ["A"] = some EXIT_CIRCULAR ∧
    main 5 db_chain "amd64" true ["A"] = some EXIT_SUCCESS ∧
    (∀ x ∈ keys table_cycle, ∃ r ∈ ["A"], Relation.ReflTransGen (edge table_cycle) r x) ∧
    (∀ a b, edge table_cycle a b →
      ∃ r ∈ (db_cycle.stmt_dep a "amd64" (relationship true)).1, r.dependency = b) ∧
    (∀ a ∈ keys table_cycle, ∀ b, db_edge db_cycle "amd64" true a b → edge table_cycle a b) ∧
    (main 5 db_cycle "amd64" true ["A"] = some EXIT_CIRCULAR ↔ ∃ x, on_cycle table_cycle x) ∧
    (main 5 db_cycle "amd64" true ["A"] = some EXIT_SUCCESS ↔ ¬ ∃ x, on_cycle table_cycle x) ∧
    ∀ (t2 : Table), t2.Perm table_cycle → ∀ (fuel2 : Nat), t2.length + 1 ≤ fuel2 →
      ∃ levels loops, toposort fuel2 t2 [] [] = some (levels, loops) ∧
        (loops ≠ [] ↔ ∃ x, on_cycle table_cycle x) ∧
        (exit_status loops = EXIT_CIRCULAR ↔ ∃ x, on_cycle table_cycle x) ∧
        (exit_status loops = EXIT_SUCCESS ↔ ¬ ∃ x, on_cycle table_cycle x) :=
  ⟨by decide, by decide, by decide,
    exit_status_iff_cycle db_cycle "amd64" true 5 ["A"] table_cycle (by decide) (by decide)
      (by decide)⟩

/-! ## Termination of the resolver and safe indexing -/

/-- C17 (termination of the resolver).  On every table, whatever cycles and
stored depths it has, and for every negative sentinel, `calc_depth` returns
when the fuel exceeds the number of nodes, and more fuel gives the same
result.  The nodes of a call chain (each with a node, a non-empty
dependency list and a negative depth) are pairwise distinct, so a chain is
no longer than the table, and a call leaves their depths alone; a call on
such a node returns its stored depth at once, without a recursive call. -/
theorem calc_depth_terminates (t : Table) (n : String) (loop : Int) (hloop : loop < 0)
    (fuel : Nat) (hfuel : t.length + 1 ≤ fuel) :
    (∃ t1 d, calc_depth fuel t n loop = some (t1, d) ∧
      ∀ fuel1, fuel ≤ fuel1 → calc_depth fuel1 t n loop = some (t1, d)) ∧
    (∀ chain : List String, chain_ok t chain → chain.Nodup →
      chain.length ≤ t.length ∧
      ∀ fuel2, t.length + 1 ≤ fuel2 + chain.length →
        ∃ t1 d, calc_depth fuel2 t n loop = some (t1, d) ∧
          ∀ c ∈ chain, depthOf t1 c = depthOf t c) ∧
    (∀ c, c ∈ keys t → depsOf t c ≠ [] → depthOf t c < 0 →
      ∀ fuel2, calc_depth (fuel2 + 1) t c loop = some (t, depthOf t c)) := by
  have hlen : (keys t).length = t.length := by simp [keys]
  refine ⟨?_, fun chain hc hn => ⟨?_, fun fuel2 hf2 => ?_⟩, fun c hck hcd hcn fuel2 => ?_⟩
  · obtain ⟨t1, d, he, _⟩ := calc_depth_total hloop fuel t [] n
      (fun c hcm => by simp at hcm) List.nodup_nil (by simpa [hlen] using hfuel)
    exact ⟨t1, d, he, fun fuel1 hle => calc_depth_mono_le hle he⟩
  · rw [← hlen]; exact chain_length_le hc hn
  · obtain ⟨t1, d, he, _, hch, _⟩ := calc_depth_total hloop fuel2 t chain n hc hn
      (by rw [hlen]; exact hf2)
    exact ⟨t1, d, he, hch⟩
  · rw [calc_depth_succ]
    simp [hck, hcd, hcn]

/-- Witness of C17: the table `stale_cycle` with the sentinel `-7`. -/
theorem calc_depth_terminates_witness :
    calc_depth 4 stale_cycle "C" (-7) =
      some ([{ depth := -3, flag := 0, name := "A", version := none, deps := ["B"] },
             { depth := -3, flag := 0, name := "B", version := none, deps := ["A"] },
             { depth := -3, flag := 0, name := "C", version := none, deps := ["A", "B"] }],
            -3) ∧
    (∃ t1 d, calc_depth 4 stale_cycle "C" (-7) = some (t1, d) ∧
      ∀ fuel1, 4 ≤ fuel1 → calc_depth fuel1 stale_cycle "C" (-7) = some (t1, d)) ∧
    (∀ chain : List String, chain_ok stale_cycle chain → chain.Nodup →
      chain.length ≤ stale_cycle.length ∧
      ∀ fuel2, stale_cycle.length + 1 ≤ fuel2 + chain.length →
        ∃ t1 d, calc_depth fuel2 stale_cycle "C" (-7) = some (t1, d) ∧
          ∀ c ∈ chain, depthOf t1 c = depthOf stale_cycle c) ∧
    (∀ c, c ∈ keys stale_cycle → depsOf stale_cycle c ≠ [] → depthOf stale_cycle c < 0 →
      ∀ fuel2, calc_depth (fuel2 + 1) stale_cycle c (-7) = some (stale_cycle, depthOf stale_cycle c)) :=
  ⟨by decide, calc_depth_terminates stale_cycle "C" (-7) (by decide) 4 (by decide)⟩

theorem bucket_step_zero (levels loops : Buckets) (name : String) :
    bucket_step levels loops name 0 = none := by
  simp [bucket_step]

/-! ## A resolved table -/

/-- On a table in which the resolutions are settled, a call of `calc_depth`
for a node whose depth is not `0` gives the table back and returns the
stored depth. -/
theorem calc_depth_resolved {loop s : Int} (hs : s < 0) {t : Table}
    (hI : entry_inv t loop []) {n : String} (hn : n ∈ keys t) (hnz : depthOf t n ≠ 0)
    {fuel : Nat} {t1 : Table} {d : Int} (h : calc_depth fuel t n s = some (t1, d)) :
    t1 = t ∧ d = depthOf t n := by
  by_cases hpos : 0 < depthOf t n
  · have hset := calc_depth_settled hs (depthOf t n).toNat t n
      (max fuel ((depthOf t n).toNat + 1)) hn hpos (by omega) (hI.pos _) (by omega)
    have hmono := calc_depth_mono_le (le_max_left fuel ((depthOf t n).toNat + 1)) h
    rw [hset] at hmono
    simp only [Option.some.injEq, Prod.mk.injEq] at hmono
    exact ⟨hmono.1.symm, hmono.2.symm⟩
  · have hneg : depthOf t n < 0 := by omega
    obtain ⟨m, hm, _⟩ := hI.same n hneg (by simp)
    have hd : depsOf t n ≠ [] := List.ne_nil_of_mem hm
    obtain ⟨f, rfl⟩ : ∃ f, fuel = f + 1 := by
      cases fuel with
      | zero => simp [calc_depth] at h
      | succ f => exact ⟨f, rfl⟩
    rw [calc_depth_succ] at h
    simp only [hn, not_true_eq_false, if_false, hd, hneg, if_true, Option.some.injEq,
      Prod.mk.injEq] at h
    exact ⟨h.1.symm, h.2.symm⟩

/-- C15 (memoisation).  Let the first loop of `toposort` resolve a fresh
table.  Then for every key `n` and every negative sentinel `s` a call of
`calc_depth` on the resolved table returns the depth stored for `n` and
gives the table back as it was, so no depth changes; when the stored depth
is negative the call already returns with fuel `1`, that is without a
recursive call. -/
theorem calc_depth_memoised (t : Table) (hfresh : fresh t) (fuel : Nat)
    (hfuel : t.length + 1 ≤ fuel) :
    ∃ t1 loop1, toposort_resolve fuel (keys t) t (-1) = some (t1, loop1) ∧
      ∀ n ∈ keys t, ∀ s : Int, s < 0 →
        calc_depth fuel t1 n s = some (t1, depthOf t1 n) ∧
        (depthOf t1 n < 0 → calc_depth 1 t1 n s = some (t1, depthOf t1 n)) := by
  obtain ⟨t1, loop1, he, hg, _, hI, hnz⟩ := toposort_resolve_fresh hfresh hfuel
  refine ⟨t1, loop1, he, fun n hn s hs => ?_⟩
  have hn1 : n ∈ keys t1 := hg.keys_eq ▸ hn
  have hlen : (keys t1).length = t.length := by rw [← hg.keys_eq]; simp [keys]
  have hex : ∀ f, (keys t1).length + 1 ≤ f ∨ (depthOf t1 n < 0 ∧ 1 ≤ f) →
      calc_depth f t1 n s = some (t1, depthOf t1 n) := by
    intro f hf
    have hsome : ∃ t2 d, calc_depth f t1 n s = some (t2, d) := by
      rcases hf with hf | ⟨hneg, hf⟩
      · obtain ⟨t2, d, h2, _⟩ := calc_depth_total hs f t1 [] n
          (fun c hcm => by simp at hcm) List.nodup_nil (by simpa using hf)
        exact ⟨t2, d, h2⟩
      · obtain ⟨m, hm, _⟩ := hI.same n hneg (by simp)
        have hd : depsOf t1 n ≠ [] := List.ne_nil_of_mem hm
        obtain ⟨f1, rfl⟩ : ∃ f1, f = f1 + 1 := ⟨f - 1, by omega⟩
        rw [calc_depth_succ]
        simp [hn1, hd, hneg]
    obtain ⟨t2, d, h2⟩ := hsome
    obtain ⟨e1, e2⟩ := calc_depth_resolved hs hI hn1 (hnz n hn) h2
    rw [h2, e1, e2]
  exact ⟨hex fuel (Or.inl (by omega)), fun hneg => hex 1 (Or.inr ⟨hneg, le_refl _⟩)⟩

/-- Witness of C15: the table `N -> A -> B -> A` and the chain
`A -> B -> C`. -/
theorem calc_depth_memoised_witness :
    (toposort_resolve 4 (keys chain_abc) chain_abc (-1)).bind
      (fun r => calc_depth 4 r.1 "A" (-5)) =
      (toposort_resolve 4 (keys chain_abc) chain_abc (-1)).map (fun r => (r.1, 3)) ∧
    ∃ t1 loop1, toposort_resolve 4 (keys tail_cycle) tail_cycle (-1) = some (t1, loop1) ∧
      ∀ n ∈ keys tail_cycle, ∀ s : Int, s < 0 →
        calc_depth 4 t1 n s = some (t1, depthOf t1 n) ∧
        (depthOf t1 n < 0 → calc_depth 1 t1 n s = some (t1, depthOf t1 n)) :=
  ⟨by decide, calc_depth_memoised tail_cycle (by decide) 4 (by decide)⟩

/-! ## Dense depths -/

/-- A call of `calc_depth` leaves a negative depth of a node with
dependencies as it is. -/
theorem calc_depth_keeps_negative {loop : Int} (hloop : loop < 0) {fuel : Nat} {t t1 : Table}
    {n : String} {d : Int} (h : calc_depth fuel t n loop = some (t1, d)) {x : String}
    (hx : depthOf t x < 0) (hd : depsOf t x ≠ []) : depthOf t1 x = depthOf t x := by
  have hxk : x ∈ keys t := depthOf_neg_key (by omega)
  have hc : chain_ok t [x] := by
    intro c hc
    simp only [List.mem_singleton] at hc
    subst hc
    exact ⟨hxk, hd, hx⟩
  obtain ⟨t2, d2, h2, _, hch, _⟩ := calc_depth_total hloop (max fuel ((keys t).length + 1))
    t [x] n hc (List.nodup_singleton x)
    (le_trans (le_max_right fuel ((keys t).length + 1)) (Nat.le_add_right _ _))
  have hmono := calc_depth_mono_le (le_max_left fuel ((keys t).length + 1)) h
  rw [h2] at hmono
  simp only [Option.some.injEq, Prod.mk.injEq] at hmono
  rw [← hmono.1]
  exact hch x (List.mem_singleton.mpr rfl)

theorem toposort_closed_cons (fuel : Nat) (name : String) (rest : List String)
    (t : Table) (loop : Int) :
    toposort_closed fuel (name :: rest) t loop =
      if name ∈ keys t ∧ depthOf t name = 0 then
        match calc_depth fuel t name loop with
        | none => 0
        | some (t1, depth) =>
          if depth = loop then 1 + toposort_closed fuel rest t1 (loop - 1)
          else toposort_closed fuel rest t1 loop
      else toposort_closed fuel rest t loop := by
  cases hl : lookup t name with
  | none =>
    have := (lookup_none_iff t name).mp hl
    simp [toposort_closed, hl, this]
  | some it =>
    have h1 := lookup_some_key hl
    have h2 := depthOf_eq_of_lookup hl
    simp only [toposort_closed, hl, h1, h2, true_and]

/-- The first loop of `toposort`: the sentinel ends `toposort_closed` below
where it started, and when every negative depth above the sentinel is the
depth of some node before the loop, the same holds after it. -/
theorem toposort_resolve_dense (fuel : Nat) :
    ∀ (names : List String) (t : Table) (loop : Int) (t1 : Table) (loop1 : Int),
      toposort_resolve fuel names t loop = some (t1, loop1) → loop < 0 →
      entry_inv t loop [] →
      (∀ k : Int, loop < k → k < 0 → ∃ x, depthOf t x = k) →
      (∀ k : Int, loop1 < k → k < 0 → ∃ x, depthOf t1 x = k) ∧
      loop1 = loop - toposort_closed fuel names t loop := by
  intro names
  induction names with
  | nil =>
    intro t loop t1 loop1 h _ _ hD
    simp only [toposort_resolve, Option.some.injEq, Prod.mk.injEq] at h
    obtain ⟨rfl, rfl⟩ := h
    exact ⟨hD, by simp [toposort_closed]⟩
  | cons name rest ih =>
    intro t loop t1 loop1 h hloop hI hD
    rw [toposort_resolve_cons] at h
    rw [toposort_closed_cons]
    by_cases hc : name ∈ keys t ∧ depthOf t name = 0
    · simp only [hc, and_self, if_true] at h ⊢
      cases he : calc_depth fuel t name loop with
      | none => simp [he] at h
      | some r =>
        obtain ⟨ta, d⟩ := r
        rw [he] at h
        simp only at h ⊢
        obtain ⟨_, hin, _, hnn, hneg⟩ := calc_depth_inv hloop fuel t [] name ta d he hI
        have hkeep : ∀ k : Int, loop < k → k < 0 → ∃ x, depthOf ta x = k := by
          intro k hk1 hk2
          obtain ⟨x, hx⟩ := hD k hk1 hk2
          have hxneg : depthOf t x < 0 := by omega
          obtain ⟨m, hm, _⟩ := hI.same x hxneg (by simp)
          exact ⟨x, by rw [calc_depth_keeps_negative hloop he hxneg (List.ne_nil_of_mem hm)]
                       exact hx⟩
        by_cases hd : d = loop
        · simp only [hd, if_true] at h ⊢
          have hIa : entry_inv ta (loop - 1) [] := by
            have := (hneg (by omega)).finish
            simpa [hd] using this
          have hDa : ∀ k : Int, loop - 1 < k → k < 0 → ∃ x, depthOf ta x = k := by
            intro k hk1 hk2
            by_cases hk : k = loop
            · exact ⟨name, by rw [(hin hc.1).1, hd, hk]⟩
            · exact hkeep k (by omega) hk2
          obtain ⟨h1, h2⟩ := ih ta (loop - 1) t1 loop1 h (by omega) hIa hDa
          refine ⟨h1, ?_⟩
          rw [h2]
          push_cast
          ring
        · simp only [hd, if_false] at h ⊢
          have hIa : entry_inv ta loop [] := by
            by_cases hdn : d < 0
            · have := (hneg hdn).finish
              simpa [hd] using this
            · exact (hnn (not_lt.mp hdn)).1
          exact ih ta loop t1 loop1 h hloop hIa hkeep
    · simp only [hc, if_false] at h ⊢
      exact ih t loop t1 loop1 h hloop hI hD

theorem foldl_max_ge_acc : ∀ (l : List Nat) (acc : Nat), acc ≤ l.foldl max acc := by
  intro l
  induction l with
  | nil => intro acc; exact le_refl _
  | cons b rest ih =>
    intro acc
    simp only [List.foldl_cons]
    exact le_trans (le_max_left acc b) (ih _)

theorem foldl_max_ge_mem : ∀ (l : List Nat) (acc a : Nat), a ∈ l → a ≤ l.foldl max acc := by
  intro l
  induction l with
  | nil => intro acc a ha; simp at ha
  | cons b rest ih =>
    intro acc a ha
    simp only [List.foldl_cons]
    rcases List.mem_cons.mp ha with e | h1
    · subst e
      exact le_trans (le_max_right acc a) (foldl_max_ge_acc rest _)
    · exact ih _ a h1

theorem foldl_max_attained : ∀ (l : List Nat) (acc : Nat),
    l.foldl max acc = acc ∨ l.foldl max acc ∈ l := by
  intro l
  induction l with
  | nil => intro acc; exact Or.inl rfl
  | cons b rest ih =>
    intro acc
    simp only [List.foldl_cons, List.mem_cons]
    rcases ih (max acc b) with h | h
    · rw [h]
      rcases le_total acc b with hab | hab
      · exact Or.inr (Or.inl (max_eq_right hab))
      · exact Or.inl (max_eq_left hab)
    · exact Or.inr (Or.inr h)

/-- In a settled table a node of depth `k + 2` has a dependency of depth
`k + 1`. -/
theorem settled_descend {t : Table} {loop : Int} (hI : entry_inv t loop []) :
    ∀ (j : Nat) (x : String), depthOf t x = (j : Int) + 1 →
      ∀ k : Nat, 1 ≤ k → k ≤ j + 1 → ∃ y ∈ keys t, depthOf t y = (k : Int) := by
  intro j
  induction j with
  | zero =>
    intro x hx k hk1 hk2
    have hk : k = 1 := by omega
    subst hk
    exact ⟨x, depthOf_neg_key (by omega), by simpa using hx⟩
  | succ j ih =>
    intro x hx k hk1 hk2
    have hxk : x ∈ keys t := depthOf_neg_key (by omega)
    by_cases hk : k = j + 2
    · exact ⟨x, hxk, by rw [hx, hk]; push_cast; ring⟩
    · have hs := hI.pos _ x hxk (by omega) (le_refl _)
      have hd : depsOf t x ≠ [] := by
        intro hd
        have := hs.1 hd
        omega
      obtain ⟨_, hmax⟩ := hs.2 hd
      rcases max_fold_attained t (depsOf t x) 0 with h0 | ⟨m, _, hm⟩
      · omega
      · have hmd : depthOf t m = (j : Int) + 1 := by
          rw [← hmax, hx] at hm
          push_cast at hm
          omega
        exact ih m hmd k hk1 (by omega)

/-- C11 (dense indices).  On a fresh table with unique keys and from empty
arrays `toposort` returns; for every `k` from `1` to the length of `levels`
some node has depth `k`, for every `k` from `1` to the length of `loops`
some node has depth `-k`, so no bucket of either array is empty; the
sentinel starts at `-1` and ends `toposort_closed` below it, where
`toposort_closed` counts the resolutions that return the sentinel they were
given, and the length of `loops` is that count. -/
theorem dense_bucket_indices (t : Table) (hfresh : fresh t) (hu : keys_unique t)
    (fuel : Nat) (hfuel : t.length + 1 ≤ fuel) :
    ∃ t1 loop1 levels loops, toposort_resolve fuel (keys t) t (-1) = some (t1, loop1) ∧
      toposort fuel t [] [] = some (levels, loops) ∧
      (∀ k : Nat, 1 ≤ k → k ≤ levels.length → ∃ x ∈ keys t, depthOf t1 x = (k : Int)) ∧
      (∀ k : Nat, 1 ≤ k → k ≤ loops.length → ∃ x ∈ keys t, depthOf t1 x = -(k : Int)) ∧
      (∀ j, j < levels.length → levels.getD j [] ≠ []) ∧
      (∀ j, j < loops.length → loops.getD j [] ≠ []) ∧
      loop1 = -1 - (toposort_closed fuel (keys t) t (-1) : Int) ∧
      loops.length = toposort_closed fuel (keys t) t (-1) := by
  obtain ⟨t1, loop1, levels, loops, he, hts, hg, hnz, hlv, hlp, hlen1, hlen2⟩ :=
    toposort_total hu hfuel
  obtain ⟨t1a, loop1a, hea, _, hl1, hI, _⟩ := toposort_resolve_fresh hfresh hfuel
  rw [he] at hea
  simp only [Option.some.injEq, Prod.mk.injEq] at hea
  obtain ⟨rfl, rfl⟩ := hea
  have h0 := depthOf_fresh hfresh
  obtain ⟨hD, hcount⟩ := toposort_resolve_dense fuel (keys t) t (-1) t1 loop1 he (by decide)
    (entry_inv_of_fresh hfresh) (fun k hk1 hk2 => by omega)
  have hu1 : keys_unique t1 := by unfold keys_unique; rw [← hg.keys_eq]; exact hu
  have hkey : ∀ x, depthOf t1 x ≠ 0 → x ∈ keys t := fun x hx => hg.keys_eq ▸ depthOf_neg_key hx
  have hitem : ∀ x, x ∈ keys t1 → ∃ it ∈ t1, it.name = x ∧ it.depth = depthOf t1 x := by
    intro x hx
    obtain ⟨it, hit⟩ := lookup_of_key hx
    exact ⟨it, lookup_some_mem hit, lookup_some_name hit, (depthOf_eq_of_lookup hit).symm⟩
  have hlevels : ∀ k : Nat, 1 ≤ k → k ≤ levels.length →
      ∃ x ∈ keys t, depthOf t1 x = (k : Int) := by
    intro k hk1 hk2
    rcases foldl_max_attained (t1.map (fun it => it.depth.toNat)) 0 with h | h
    · rw [← hlen1] at h; omega
    · rw [← hlen1] at h
      obtain ⟨it, hit, hd⟩ := List.mem_map.mp h
      have hl := lookup_of_mem_unique hu1 hit
      have hdx : depthOf t1 it.name = ((levels.length - 1 : Nat) : Int) + 1 := by
        rw [depthOf_eq_of_lookup hl]
        omega
      obtain ⟨y, hy, hyd⟩ := settled_descend hI (levels.length - 1) it.name hdx k hk1 (by omega)
      exact ⟨y, hg.keys_eq ▸ hy, hyd⟩
  have hlen : (loops.length : Int) = -loop1 - 1 := by
    apply le_antisymm
    · rcases foldl_max_attained (t1.map (fun it => (-it.depth).toNat)) 0 with h | h
      · rw [← hlen2] at h; omega
      · rw [← hlen2] at h
        obtain ⟨it, hit, hd⟩ := List.mem_map.mp h
        have hl := lookup_of_mem_unique hu1 hit
        have := hI.above it.name (by simp)
        rw [depthOf_eq_of_lookup hl] at this
        omega
    · by_cases hone : loop1 = -1
      · omega
      · obtain ⟨x, hx⟩ := hD (loop1 + 1) (by omega) (by omega)
        obtain ⟨it, hit, _, hd⟩ := hitem x (depthOf_neg_key (by omega))
        have := foldl_max_ge_mem (t1.map (fun it => (-it.depth).toNat)) 0 _
          (List.mem_map.mpr ⟨it, hit, rfl⟩)
        rw [← hlen2] at this
        omega
  have hloops : ∀ k : Nat, 1 ≤ k → k ≤ loops.length →
      ∃ x ∈ keys t, depthOf t1 x = -(k : Int) := by
    intro k hk1 hk2
    obtain ⟨x, hx⟩ := hD (-(k : Int)) (by omega) (by omega)
    exact ⟨x, hkey x (by omega), hx⟩
  refine ⟨t1, loop1, levels, loops, he, hts, hlevels, hloops, fun j hj => ?_, fun j hj => ?_,
    by omega, by omega⟩
  · obtain ⟨x, hx, hd⟩ := hlevels (j + 1) (by omega) (by omega)
    have := (mem_of_count_ite (hlv j x)).mpr ⟨hx, by rw [hd]; push_cast; ring⟩
    exact List.ne_nil_of_mem this
  · obtain ⟨x, hx, hd⟩ := hloops (j + 1) (by omega) (by omega)
    have := (mem_of_count_ite (hlp j x)).mpr ⟨hx, by rw [hd]; push_cast; ring⟩
    exact List.ne_nil_of_mem this

/-- Witness of C11: the table `split_cycle`, in which two resolutions
return their sentinel. -/
theorem dense_bucket_indices_witness :
    toposort_closed 6 (keys split_cycle) split_cycle (-1) = 2 ∧
    ∃ t1 loop1 levels loops,
      toposort_resolve 6 (keys split_cycle) split_cycle (-1) = some (t1, loop1) ∧
      toposort 6 split_cycle [] [] = some (levels, loops) ∧
      (∀ k : Nat, 1 ≤ k → k ≤ levels.length → ∃ x ∈ keys split_cycle, depthOf t1 x = (k : Int)) ∧
      (∀ k : Nat, 1 ≤ k → k ≤ loops.length →
        ∃ x ∈ keys split_cycle, depthOf t1 x = -(k : Int)) ∧
      (∀ j, j < levels.length → levels.getD j [] ≠ []) ∧
      (∀ j, j < loops.length → loops.getD j [] ≠ []) ∧
      loop1 = -1 - (toposort_closed 6 (keys split_cycle) split_cycle (-1) : Int) ∧
      loops.length = toposort_closed 6 (keys split_cycle) split_cycle (-1) :=
  ⟨by decide, dense_bucket_indices split_cycle (by decide) (by decide) 6 (by decide)⟩

/-! ## The order of a dependency list -/

theorem deps_reordered.keys_same {a b : Table} (h : deps_reordered a b) : keys b = keys a := by
  induction h with
  | nil => rfl
  | cons hxy _ ih =>
    simp only [keys, List.map_cons] at ih ⊢
    rw [ih, hxy.1]

theorem deps_reordered.lookup_rel {a b : Table} (h : deps_reordered a b) (x : String) :
    (lookup a x = none ∧ lookup b x = none) ∨
    ∃ ia ib, lookup a x = some ia ∧ lookup b x = some ib ∧ ia.deps.Perm ib.deps := by
  induction h with
  | nil => exact Or.inl ⟨rfl, rfl⟩
  | @cons u v l1 l2 hxy _ ih =>
    by_cases hx : u.name = x
    · have hv : v.name = x := hxy.1 ▸ hx
      exact Or.inr ⟨u, v, by simp [lookup, List.find?_cons, hx],
        by simp [lookup, List.find?_cons, hv], hxy.2⟩
    · have hv : ¬ v.name = x := hxy.1 ▸ hx
      simp only [lookup, List.find?_cons, hx, hv, decide_False] at ih ⊢
      exact ih

theorem deps_reordered.mem_deps {a b : Table} (h : deps_reordered a b) (x d : String) :
    d ∈ depsOf b x ↔ d ∈ depsOf a x := by
  rcases h.lookup_rel x with ⟨h1, h2⟩ | ⟨ia, ib, h1, h2, hp⟩
  · simp [depsOf, h1, h2]
  · simp only [depsOf, h1, h2]
    exact hp.mem_iff.symm

theorem deps_reordered.edge_same {a b : Table} (h : deps_reordered a b) : edge b = edge a := by
  funext x d
  exact propext (h.mem_deps x d)

theorem deps_reordered.deps_nil {a b : Table} (h : deps_reordered a b) (x : String) :
    depsOf b x = [] ↔ depsOf a x = [] := by
  simp only [List.eq_nil_iff_forall_not_mem, h.mem_deps]

/-- Two settlements of graphs with the same nodes and the same edges agree on
every node that is positive in both. -/
theorem settled_agree {a b : Table} {la lb : Int} (hIa : entry_inv a la [])
    (hIb : entry_inv b lb []) (hkeys : ∀ x, x ∈ keys b ↔ x ∈ keys a)
    (hdeps : ∀ x d, d ∈ depsOf b x ↔ d ∈ depsOf a x)
    (hpos : ∀ x, 0 < depthOf a x → 0 < depthOf b x) :
    ∀ (n : Nat) (x : String), 0 < depthOf a x → depthOf a x ≤ n →
      depthOf b x = depthOf a x := by
  intro n
  induction n with
  | zero => intro x h1 h2; omega
  | succ n ih =>
    intro x hxa hle
    have hxb := hpos x hxa
    have hka : x ∈ keys a := depthOf_neg_key (by omega)
    have hkb : x ∈ keys b := (hkeys x).mpr hka
    have hsa := hIa.pos _ x hka hxa (le_refl _)
    have hsb := hIb.pos _ x hkb hxb (le_refl _)
    have hnil : depsOf b x = [] ↔ depsOf a x = [] := by
      simp only [List.eq_nil_iff_forall_not_mem, hdeps]
    by_cases hd : depsOf a x = []
    · rw [hsa.1 hd, hsb.1 (hnil.mpr hd)]
    · have hdb : depsOf b x ≠ [] := fun e => hd (hnil.mp e)
      obtain ⟨hcha, hmaxa⟩ := hsa.2 hd
      obtain ⟨_, hmaxb⟩ := hsb.2 hdb
      have heq : ∀ m ∈ depsOf a x, depthOf b m = depthOf a m := by
        intro m hm
        by_cases hmk : m ∈ keys a
        · have hmpos := hcha m hm hmk
          have := max_fold_ge a (depsOf a x) 0 m hm
          exact ih m hmpos (by omega)
        · rw [depthOf_absent hmk, depthOf_absent (fun e => hmk ((hkeys m).mp e))]
      apply le_antisymm
      · rcases max_fold_attained b (depsOf b x) 0 with h0 | ⟨m, hm, h1⟩
        · omega
        · have hma : m ∈ depsOf a x := (hdeps x m).mp hm
          have := max_fold_ge a (depsOf a x) 0 m hma
          rw [hmaxb, h1, heq m hma]
          omega
      · rcases max_fold_attained a (depsOf a x) 0 with h0 | ⟨m, hm, h1⟩
        · omega
        · have hmb : m ∈ depsOf b x := (hdeps x m).mpr hm
          have := max_fold_ge b (depsOf b x) 0 m hmb
          rw [hmaxa, h1, ← heq m hm]
          omega

/-- C12, counterexample.  The tables `scc_split` and `scc_split_rev` differ
only in the dependency list of `N`, which is reversed; both are fresh, have
unique keys and a node for every dependency name.  With the same iteration
order `toposort` emits the cycle groups `{N, Q}` and `{M, M2}` for the first
and the single cycle group `{N, Q, M, M2}` for the second. -/
theorem deps_order_changes_cycle_groups :
    deps_reordered scc_split scc_split_rev ∧
    depsOf scc_split_rev "N" = (depsOf scc_split "N").reverse ∧
    closed scc_split ∧ fresh scc_split ∧ keys_unique scc_split ∧
    closed scc_split_rev ∧ fresh scc_split_rev ∧ keys_unique scc_split_rev ∧
    toposort 5 scc_split [] [] = some ([], [["Q", "N"], ["M2", "M"]]) ∧
    toposort 5 scc_split_rev [] [] = some ([], [["M2", "M", "Q", "N"]]) := by
  refine ⟨?_, by decide, by decide, by decide, by decide, by decide, by decide, by decide,
    by decide, by decide⟩
  exact List.Forall₂.cons ⟨rfl, List.Perm.swap _ _ _⟩
    (List.Forall₂.cons ⟨rfl, List.Perm.refl _⟩
      (List.Forall₂.cons ⟨rfl, List.Perm.refl _⟩
        (List.Forall₂.cons ⟨rfl, List.Perm.refl _⟩ List.Forall₂.nil)))

/-- C12, amended.  Let `t2` be the fresh table `t` (unique keys, a node for
every dependency name) with every dependency list replaced by a permutation
of it, in the same iteration order.  Then `toposort` returns on both, every
level holds the same set of packages, and the same packages are emitted in
cycle groups. -/
theorem deps_order_keeps_levels (t t2 : Table) (hr : deps_reordered t t2) (hc : closed t)
    (hfresh : fresh t) (hfresh2 : fresh t2) (hu : keys_unique t) (fuel : Nat)
    (hfuel : t.length + 1 ≤ fuel) :
    ∃ levels loops levels2 loops2, toposort fuel t [] [] = some (levels, loops) ∧
      toposort fuel t2 [] [] = some (levels2, loops2) ∧
      (∀ j x, x ∈ levels.getD j [] ↔ x ∈ levels2.getD j []) ∧
      (∀ x, (∃ j, x ∈ loops.getD j []) ↔ ∃ j, x ∈ loops2.getD j []) := by
  have hk := hr.keys_same
  have hu2 : keys_unique t2 := by unfold keys_unique; rw [hk]; exact hu
  have hc2 : closed t2 := by
    apply closed_of_view hu2
    intro x d hd
    rw [hk]
    exact hc.deps_mem ((hr.mem_deps x d).mp hd)
  have hfuel2 : t2.length + 1 ≤ fuel := by
    have : t2.length = t.length := by
      have := congrArg List.length hk
      simpa [keys] using this
    omega
  obtain ⟨t1, loop1, levels, loops, he, hts, hg, hI, hc1, hnz, hlv, hlp⟩ :=
    toposort_closed_total hc hfresh hu hfuel
  obtain ⟨t3, loop3, levels2, loops2, he3, hts3, hg3, hI3, hc3, hnz3, hlv3, hlp3⟩ :=
    toposort_closed_total hc2 hfresh2 hu2 hfuel2
  obtain ⟨t1a, loop1a, hea, _, _, _, _, hsign⟩ := toposort_resolve_closed hfresh hc hfuel
  rw [he] at hea
  simp only [Option.some.injEq, Prod.mk.injEq] at hea
  obtain ⟨rfl, rfl⟩ := hea
  obtain ⟨t3a, loop3a, hea3, _, _, _, _, hsign3⟩ := toposort_resolve_closed hfresh2 hc2 hfuel2
  rw [he3] at hea3
  simp only [Option.some.injEq, Prod.mk.injEq] at hea3
  obtain ⟨rfl, rfl⟩ := hea3
  have hcyc : ∀ x, reaches_cycle t2 x ↔ reaches_cycle t x := by
    intro x
    simp only [reaches_cycle, on_cycle, hr.edge_same]
  have hposiff : ∀ x ∈ keys t, (0 < depthOf t3 x ↔ 0 < depthOf t1 x) := by
    intro x hx
    rw [(hsign x hx).2, (hsign3 x (hk ▸ hx)).2, hcyc]
  have hkeys13 : ∀ x, x ∈ keys t3 ↔ x ∈ keys t1 := by
    intro x
    rw [← hg3.keys_eq, ← hg.keys_eq, hk]
  have hdeps13 : ∀ x d, d ∈ depsOf t3 x ↔ d ∈ depsOf t1 x := by
    intro x d
    rw [← hg3.depsOf_eq, ← hg.depsOf_eq]
    exact hr.mem_deps x d
  have hagree : ∀ x, 0 < depthOf t1 x → depthOf t3 x = depthOf t1 x := by
    intro x hx
    exact settled_agree hI hI3 hkeys13 hdeps13
      (fun y hy => (hposiff y (hg.keys_eq ▸ depthOf_neg_key (by omega))).mpr hy)
      (depthOf t1 x).toNat x hx (by omega)
  have hagree2 : ∀ x, 0 < depthOf t3 x → depthOf t3 x = depthOf t1 x := by
    intro x hx
    have hxk : x ∈ keys t := by
      rw [← hk]
      exact hg3.keys_eq ▸ depthOf_neg_key (by omega)
    exact hagree x ((hposiff x hxk).mp hx)
  refine ⟨levels, loops, levels2, loops2, hts, hts3, fun j x => ?_, fun x => ?_⟩
  · rw [hlv, hlv3, hk]
    constructor
    · rintro ⟨h1, h2⟩
      exact ⟨h1, by rw [hagree x (by omega)]; exact h2⟩
    · rintro ⟨h1, h2⟩
      exact ⟨h1, by rw [← hagree2 x (by omega)]; exact h2⟩
  · have hnegiff : ∀ y ∈ keys t, (depthOf t3 y < 0 ↔ depthOf t1 y < 0) := by
      intro y hy
      rw [(hsign y hy).1, (hsign3 y (hk ▸ hy)).1, hcyc]
    constructor
    · rintro ⟨j, hj⟩
      obtain ⟨h1, h2⟩ := (hlp j x).mp hj
      have hneg := (hnegiff x h1).mpr (by omega)
      exact ⟨(-depthOf t3 x - 1).toNat, (hlp3 _ x).mpr ⟨hk ▸ h1, by omega⟩⟩
    · rintro ⟨j, hj⟩
      obtain ⟨h1, h2⟩ := (hlp3 j x).mp hj
      have h1' : x ∈ keys t := hk ▸ h1
      have hneg := (hnegiff x h1').mp (by omega)
      exact ⟨(-depthOf t1 x - 1).toNat, (hlp _ x).mpr ⟨h1', by omega⟩⟩

/-- Witness of the amended C12: the tables `scc_split` and `scc_split_rev`. -/
theorem deps_order_keeps_levels_witness :
    ∃ levels loops levels2 loops2, toposort 5 scc_split [] [] = some (levels, loops) ∧
      toposort 5 scc_split_rev [] [] = some (levels2, loops2) ∧
      (∀ j x, x ∈ levels.getD j [] ↔ x ∈ levels2.getD j []) ∧
      (∀ x, (∃ j, x ∈ loops.getD j []) ↔ ∃ j, x ∈ loops2.getD j []) :=
  deps_order_keeps_levels scc_split scc_split_rev
    (List.Forall₂.cons ⟨rfl, List.Perm.swap _ _ _⟩
      (List.Forall₂.cons ⟨rfl, List.Perm.refl _⟩
        (List.Forall₂.cons ⟨rfl, List.Perm.refl _⟩
          (List.Forall₂.cons ⟨rfl, List.Perm.refl _⟩ List.Forall₂.nil))))
    (by decide) (by decide) (by decide) (by decide) 5 (by decide)

/-! ## The flags of a dependency -/

/-- C13, the code at the failing input.  For `db_cycle` and the root `A` the
row of `A` reports `B` as a build-time dependency and the row of `B` reports
`X` without a resolved version, so `dep_row_step` sets `PKG_BUILDDEP` on `B`
and `PKG_DEP_NOT_MET` on `X`; the assignment `flag = PKG_VISITED` of
`enter_item` then stores `PKG_VISITED` alone, and in the table `find_deps`
returns `B` carries no `PKG_BUILDDEP` and `X` no `PKG_DEP_NOT_MET`. -/
theorem visit_clears_row_flags :
    find_deps 5 db_cycle "amd64" true ["A"] [] = Run.ok table_cycle ∧
    (∃ r ∈ (db_cycle.stmt_dep "A" "amd64" (relationship true)).1,
      r.dependency = "B" ∧ r.builddep = true) ∧
    (∃ r ∈ (db_cycle.stmt_dep "B" "amd64" (relationship true)).1,
      r.dependency = "X" ∧ r.full_version = none) ∧
    flagOf (expand_item db_cycle "amd64" true (enter_item [] "A") "A").1 "B" = PKG_BUILDDEP ∧
    flagOf (enter_item (expand_item db_cycle "amd64" true (enter_item [] "A") "A").1 "B") "B"
      = PKG_VISITED ∧
    has_flag (flagOf table_cycle "B") PKG_BUILDDEP = false ∧
    has_flag (flagOf table_cycle "X") PKG_DEP_NOT_MET = false ∧
    (∀ (t : Table) (cur : String), flagOf (enter_item t cur) cur = PKG_VISITED) := by
  refine ⟨by decide, by decide, by decide, by decide, by decide, by decide, by decide, ?_⟩
  intro t cur
  rw [flagOf_enter_item]
  simp

/-! ## The dependency list of a visited node -/

theorem versionOf_eq_of_lookup {t : Table} {n : String} {it : depitem}
    (h : lookup t n = some it) : versionOf t n = it.version := by
  simp [versionOf, h]

theorem versionOf_enter_item (t : Table) (cur x : String) :
    versionOf (enter_item t cur) x = versionOf t x := by
  simp only [versionOf, lookup_enter_item]
  by_cases hx : x = cur
  · subst hx
    cases lookup t x <;> simp [calloc_item]
  · simp [hx]

theorem versionOf_mark_not_found (t : Table) (cur x : String) :
    versionOf (modify_item t cur (fun it => { it with flag := it.flag ||| PKG_NOT_FOUND })) x
      = versionOf t x := by
  simp only [versionOf, lookup_mark_not_found]
  by_cases hx : x = cur
  · cases lookup t x <;> simp [hx]
  · simp [hx]

theorem versionOf_set_version_ne (t : Table) (cur : String) (v : Option String) {x : String}
    (hx : x ≠ cur) :
    versionOf (modify_item t cur (fun it => { it with version := v })) x = versionOf t x := by
  simp [versionOf, lookup_set_version, hx]

theorem versionOf_dep_row_step (t : Table) (cur : String) (r : dep_row) {x : String}
    (hx : x ∈ keys t) : versionOf (dep_row_step t cur r) x = versionOf t x := by
  obtain ⟨it, hit⟩ := lookup_of_key hx
  simp only [versionOf]
  rw [lookup_dep_row_step, hit]
  simp only [Option.map_some']
  split_ifs <;> rfl

theorem versionOf_rows (cur : String) : ∀ (rows : List dep_row) (t : Table) (x : String),
    x ∈ keys t →
    versionOf (rows.foldl (fun t r => dep_row_step t cur r) t) x = versionOf t x := by
  intro rows
  induction rows with
  | nil => intro t x _; rfl
  | cons r rest ih =>
    intro t x hx
    simp only [List.foldl_cons]
    rw [ih _ x ((keys_dep_row_step t cur r x).mpr (Or.inl hx)), versionOf_dep_row_step t cur r hx]

theorem not_found_key {t : Table} {x : String} (h : not_found t x) : x ∈ keys t := by
  by_contra hk
  simp [not_found, flagOf, (lookup_none_iff t x).mpr hk, has_flag] at h

theorem visited_key {t : Table} {x : String} (h : visited t x) : x ∈ keys t := by
  by_contra hk
  simp [visited, flagOf, (lookup_none_iff t x).mpr hk, has_flag] at h

theorem has_flag_or_not_found (f : Nat) : has_flag (f ||| PKG_NOT_FOUND) PKG_NOT_FOUND = true := by
  simp only [has_flag, PKG_NOT_FOUND, bne_iff_ne, ne_eq]
  intro h
  have h1 := congrArg (fun n => Nat.testBit n 2) h
  have h4 : Nat.testBit 4 2 = true := by decide
  simp [Nat.testBit_and, Nat.testBit_or, h4] at h1

theorem not_found_mark_not_found (t : Table) (cur x : String) :
    not_found (modify_item t cur (fun it => { it with flag := it.flag ||| PKG_NOT_FOUND })) x
      ↔ (x = cur ∧ x ∈ keys t) ∨ not_found t x := by
  unfold not_found
  rw [flagOf_mark_not_found]
  by_cases hc : x = cur ∧ x ∈ keys t
  · rw [if_pos hc]
    exact ⟨fun _ => Or.inl hc, fun _ => has_flag_or_not_found _⟩
  · rw [if_neg hc]
    exact ⟨fun hh => Or.inr hh, fun hh => hh.resolve_left hc⟩

/-- After `find_deps` from the empty table: a node that carries
`PKG_NOT_FOUND` has no version, its version query returns no row and its
dependency list is empty; a visited node without `PKG_NOT_FOUND` has the
names of its dependency rows, in reverse order, as its dependency list. -/
theorem find_deps_deps_view (ctx : db_ctx) (arch : String) (builddep : Bool) (fuel : Nat)
    (roots : List String) (t1 : Table)
    (h : find_deps fuel ctx arch builddep roots [] = Run.ok t1) :
    (∀ x, not_found t1 x →
      ctx.stmt_package x arch = package_step.done ∧ versionOf t1 x = none ∧
      depsOf t1 x = []) ∧
    (∀ x, visited t1 x → ¬ not_found t1 x →
      depsOf t1 x =
        ((ctx.stmt_dep x arch (relationship builddep)).1.map (fun r => r.dependency)).reverse) := by
  have key := find_deps_induct ctx arch builddep
    (fun _ t =>
      (∀ x, not_found t x →
        ctx.stmt_package x arch = package_step.done ∧ versionOf t x = none ∧
        depsOf t x = []) ∧
      (∀ x, visited t x → ¬ not_found t x →
        depsOf t x =
          ((ctx.stmt_dep x arch (relationship builddep)).1.map
            (fun r => r.dependency)).reverse) ∧
      (∀ x, ¬ visited t x → depsOf t x = []))
    ?_ ?_ ?_ fuel roots [] [] t1 h ?_
  · exact ⟨key.1, key.2.1⟩
  · intro S cur t hP _; exact hP
  · intro S cur t ⟨h1, h2, h3⟩ hv hver hst
    have hck : cur ∈ keys (enter_item t cur) := (keys_enter_item t cur cur).mpr (Or.inr rfl)
    refine ⟨fun x hx => ?_, fun x hx hnx => ?_, fun x hx => ?_⟩
    · rw [versionOf_mark_not_found, depsOf_mark_not_found, depsOf_enter_item]
      rw [not_found_mark_not_found] at hx
      by_cases hxc : x = cur
      · subst hxc
        exact ⟨hst, hver, h3 x hv⟩
      · rcases hx with ⟨e, _⟩ | hx
        · exact absurd e hxc
        · rw [versionOf_enter_item]
          exact h1 x ((not_found_enter_item t cur x).mp hx).2
    · rw [depsOf_mark_not_found, depsOf_enter_item]
      rw [visited_mark_not_found, visited_enter_item] at hx
      rw [not_found_mark_not_found] at hnx
      by_cases hxc : x = cur
      · subst hxc
        exact absurd (Or.inl ⟨rfl, hck⟩) hnx
      · rcases hx with e | hx
        · exact absurd e hxc
        · refine h2 x hx (fun hnf => hnx (Or.inr ?_))
          exact (not_found_enter_item t cur x).mpr ⟨hxc, hnf⟩
    · rw [depsOf_mark_not_found, depsOf_enter_item]
      rw [visited_mark_not_found, visited_enter_item] at hx
      exact h3 x (fun hvis => hx (Or.inr hvis))
  · intro S cur t t2 ⟨h1, h2, h3⟩ hv ht2 _
    obtain ⟨hk2, hd2, hv2, hn2⟩ := expand_start ht2
    have hck : cur ∈ keys t2 := (hk2 cur).mpr (Or.inr rfl)
    have hver2 : ∀ y, y ≠ cur → versionOf t2 y = versionOf t y := by
      intro y hy
      rcases ht2 with ⟨_, rfl⟩ | ⟨v, _, _, rfl⟩
      · exact versionOf_enter_item t cur y
      · rw [versionOf_set_version_ne _ _ _ hy]; exact versionOf_enter_item t cur y
    simp only [expand_item]
    refine ⟨fun x hx => ?_, fun x hx hnx => ?_, fun x hx => ?_⟩
    · rw [not_found_rows, hn2] at hx
      obtain ⟨hxc, hnf⟩ := hx
      have hxk : x ∈ keys t2 := (hk2 x).mpr (Or.inl (not_found_key hnf))
      rw [versionOf_rows cur _ t2 x hxk, hver2 x hxc, depsOf_rows cur _ t2 x hck, hd2]
      simp only [hxc, if_false]
      exact h1 x hnf
    · rw [visited_rows, hv2] at hx
      rw [not_found_rows, hn2] at hnx
      rw [depsOf_rows cur _ t2 x hck, hd2]
      by_cases hxc : x = cur
      · subst hxc
        simp only [if_true]
        rw [h3 x hv, List.append_nil]
      · simp only [hxc, if_false]
        rcases hx with e | hx
        · exact absurd e hxc
        · exact h2 x hx (fun hnf => hnx ⟨hxc, hnf⟩)
    · rw [visited_rows, hv2] at hx
      have hxc : x ≠ cur := fun e => hx (Or.inl e)
      rw [depsOf_rows cur _ t2 x hck, hd2]
      simp only [hxc, if_false]
      exact h3 x (fun hvis => hx (Or.inr hvis))
  · refine ⟨fun x hx => ?_, fun x hx => ?_, fun x _ => rfl⟩
    · simp [not_found, flagOf, lookup, has_flag] at hx
    · simp [visited, flagOf, lookup, has_flag] at hx

/-- C14 (dependency list).  When `find_deps` returns on the empty table,
every node is visited.  A node without `PKG_NOT_FOUND`, in particular a node
whose version is set and a node whose version query returns a row, has as
its dependency list the names of the rows of its dependency query in reverse
order, repeated names kept.  A node with `PKG_NOT_FOUND`, that is one whose
version was unset when it was visited and whose version query returned no
row, has an empty dependency list. -/
theorem deps_list_is_reversed_rows (ctx : db_ctx) (arch : String) (builddep : Bool)
    (fuel : Nat) (roots : List String) (t1 : Table)
    (h : find_deps fuel ctx arch builddep roots [] = Run.ok t1) :
    ∀ it ∈ t1,
      has_flag it.flag PKG_VISITED = true ∧
      (has_flag it.flag PKG_NOT_FOUND = false →
        it.deps = ((ctx.stmt_dep it.name arch (relationship builddep)).1.map
          (fun r => r.dependency)).reverse) ∧
      (has_flag it.flag PKG_NOT_FOUND = true →
        it.deps = [] ∧ it.version = none ∧
        ctx.stmt_package it.name arch = package_step.done) ∧
      (it.version ≠ none → has_flag it.flag PKG_NOT_FOUND = false) ∧
      (∀ v, ctx.stmt_package it.name arch = package_step.row v →
        has_flag it.flag PKG_NOT_FOUND = false) := by
  obtain ⟨hu, _, _⟩ := find_deps_table ctx arch builddep fuel roots t1 h
  obtain ⟨hvis, _, _⟩ := find_deps_closure_view ctx arch builddep fuel roots t1 h
  obtain ⟨hnf, hrev⟩ := find_deps_deps_view ctx arch builddep fuel roots t1 h
  intro it hit
  have hl := lookup_of_mem_unique hu hit
  have hk := lookup_some_key hl
  have hv := hvis it.name hk
  have hflag := flagOf_eq_of_lookup hl
  have hnf1 : has_flag it.flag PKG_NOT_FOUND = true →
      it.deps = [] ∧ it.version = none ∧
      ctx.stmt_package it.name arch = package_step.done := by
    intro hf
    obtain ⟨h1, h2, h3⟩ := hnf it.name (by unfold not_found; rw [hflag]; exact hf)
    rw [versionOf_eq_of_lookup hl] at h2
    rw [depsOf_eq_of_lookup hl] at h3
    exact ⟨h3, h2, h1⟩
  refine ⟨?_, fun hf => ?_, hnf1, fun hver => ?_, fun v hrow => ?_⟩
  · unfold visited at hv
    rw [hflag] at hv
    exact hv
  · have := hrev it.name hv (by unfold not_found; rw [hflag, hf]; simp)
    rw [depsOf_eq_of_lookup hl] at this
    exact this
  · by_contra hf
    exact hver (hnf1 (by simpa using hf)).2.1
  · by_contra hf
    have := (hnf1 (by simpa using hf)).2.2
    rw [hrow] at this
    exact absurd this (by simp)

/-- Witness of C14: the table built for `db_cycle` from the root `A`; the
rows of `B` name `A` and then `X`, its dependency list is `[X, A]`. -/
theorem deps_list_is_reversed_rows_witness :
    find_deps 5 db_cycle "amd64" true ["A"] [] = Run.ok table_cycle ∧
    (db_cycle.stmt_dep "B" "amd64" (relationship true)).1.map (fun r => r.dependency)
      = ["A", "X"] ∧
    depsOf table_cycle "B" = ["X", "A"] ∧
    ∀ it ∈ table_cycle,
      has_flag it.flag PKG_VISITED = true ∧
      (has_flag it.flag PKG_NOT_FOUND = false →
        it.deps = ((db_cycle.stmt_dep it.name "amd64" (relationship true)).1.map
          (fun r => r.dependency)).reverse) ∧
      (has_flag it.flag PKG_NOT_FOUND = true →
        it.deps = [] ∧ it.version = none ∧
        db_cycle.stmt_package it.name "amd64" = package_step.done) ∧
      (it.version ≠ none → has_flag it.flag PKG_NOT_FOUND = false) ∧
      (∀ v, db_cycle.stmt_package it.name "amd64" = package_step.row v →
        has_flag it.flag PKG_NOT_FOUND = false) :=
  ⟨by decide, by decide, by decide,
    deps_list_is_reversed_rows db_cycle "amd64" true 5 ["A"] table_cycle (by decide)⟩

/-! ## Termination of the builder -/

theorem find_deps_visit_log_table
    {recur : List String → Table → Run Table}
    {recur_log : List String → Table × List String → Run (Table × List String)}
    (hrec : ∀ pk st, run_table (recur_log pk st) = recur pk st.1)
    (ctx : db_ctx) (arch : String) (builddep : Bool) (cur : String)
    (st : Table × List String) :
    run_table (find_deps_visit_log recur_log ctx arch builddep cur st) =
      find_deps_visit recur ctx arch builddep cur st.1 := by
  unfold find_deps_visit_log find_deps_visit
  by_cases hv : has_flag (flagOf st.1 cur) PKG_VISITED = true
  · simp [hv, run_table]
  · simp only [hv, Bool.false_eq_true, if_false]
    cases hver : versionOf (enter_item st.1 cur) cur with
    | some v0 =>
      simp only
      split_ifs
      · rw [hrec]
      · rfl
    | none =>
      simp only
      cases hst : ctx.stmt_package cur arch with
      | row v =>
        simp only
        split_ifs
        · rw [hrec]
        · rfl
      | done => rfl
      | error => rfl

theorem find_deps_loop_log_table
    {recur : List String → Table → Run Table}
    {recur_log : List String → Table × List String → Run (Table × List String)}
    (hrec : ∀ pk st, run_table (recur_log pk st) = recur pk st.1)
    (ctx : db_ctx) (arch : String) (builddep : Bool) :
    ∀ (pk : List String) (st : Table × List String),
      run_table (find_deps_loop_log recur_log ctx arch builddep pk st) =
        find_deps_loop recur ctx arch builddep pk st.1 := by
  intro pk
  induction pk with
  | nil => intro st; rfl
  | cons cur rest ih =>
    intro st
    have hv := find_deps_visit_log_table hrec ctx arch builddep cur st
    simp only [find_deps_loop_log, find_deps_loop]
    cases h1 : find_deps_visit_log recur_log ctx arch builddep cur st with
    | ok st1 =>
      rw [h1] at hv
      simp only [run_table] at hv
      rw [← hv]
      exact ih st1
    | exit_failure =>
      rw [h1] at hv
      simp only [run_table] at hv
      rw [← hv]
      rfl
    | no_fuel =>
      rw [h1] at hv
      simp only [run_table] at hv
      rw [← hv]
      rfl

/-- The run with the log builds the table of `find_deps`. -/
theorem find_deps_log_table (ctx : db_ctx) (arch : String) (builddep : Bool) :
    ∀ (fuel : Nat) (pk : List String) (st : Table × List String),
      run_table (find_deps_log fuel ctx arch builddep pk st) =
        find_deps fuel ctx arch builddep pk st.1 := by
  intro fuel
  induction fuel with
  | zero => intro pk st; rfl
  | succ f ih =>
    intro pk st
    exact find_deps_loop_log_table ih ctx arch builddep pk st

theorem countP_le_of_imp {l : List String} {p q : String → Bool}
    (h : ∀ x, q x = true → p x = true) : l.countP q ≤ l.countP p :=
  List.countP_mono_left (fun x _ hx => h x hx)

theorem countP_lt_of_imp : ∀ (l : List String) (p q : String → Bool) (a : String),
    (∀ x, q x = true → p x = true) → a ∈ l → p a = true → q a = false →
    l.countP q < l.countP p := by
  intro l
  induction l with
  | nil => intro p q a _ ha; simp at ha
  | cons b rest ih =>
    intro p q a h ha hpa hqa
    simp only [List.countP_cons]
    have hle : rest.countP q ≤ rest.countP p := countP_le_of_imp h
    by_cases hb : b = a
    · subst hb
      simp only [hpa, hqa, if_true, Bool.false_eq_true, if_false]
      omega
    · have ha1 : a ∈ rest := by
        rcases List.mem_cons.mp ha with e | h1
        · exact absurd e.symm hb
        · exact h1
      have hlt : rest.countP q < rest.countP p := ih p q a h ha1 hpa hqa
      by_cases hqb : q b = true
      · simp only [hqb, h b hqb, if_true]
        omega
      · simp only [hqb, Bool.false_eq_true, if_false]
        by_cases hpb : p b = true
        · simp only [hpb, if_true]
          omega
        · simp only [hpb, Bool.false_eq_true, if_false]
          omega

theorem unvisited_le {names : List String} {t t1 : Table}
    (h : ∀ x, visited t x → visited t1 x) : unvisited names t1 ≤ unvisited names t := by
  apply countP_le_of_imp
  intro x hx
  simp only [Bool.not_eq_true', ← Bool.not_eq_true] at hx ⊢
  exact fun hv => hx (h x hv)

theorem unvisited_lt {names : List String} {t t1 : Table} {cur : String}
    (h : ∀ x, visited t x → visited t1 x) (hc : cur ∈ names) (h0 : ¬ visited t cur)
    (h1 : visited t1 cur) : unvisited names t1 < unvisited names t := by
  apply countP_lt_of_imp names _ _ cur _ hc
  · simpa [visited] using h0
  · simpa [visited] using h1
  · intro x hx
    simp only [Bool.not_eq_true', ← Bool.not_eq_true] at hx ⊢
    exact fun hv => hx (h x hv)

theorem log_inv_expand {ctx : db_ctx} {arch : String} {builddep : Bool} {names : List String}
    {t t2 : Table} {cur : String} {log : List String}
    (hrows : ∀ p ∈ names, ∀ r ∈ (ctx.stmt_dep p arch (relationship builddep)).1,
      r.dependency ∈ names)
    (hc : cur ∈ names) (hinv : log_inv names t log) (hv : ¬ visited t cur)
    (ht2 : (versionOf (enter_item t cur) cur ≠ none ∧ t2 = enter_item t cur) ∨
      ∃ v, versionOf (enter_item t cur) cur = none ∧
        ctx.stmt_package cur arch = package_step.row v ∧
        t2 = modify_item (enter_item t cur) cur (fun it => { it with version := v })) :
    (∀ x ∈ depsOf (expand_item ctx arch builddep t2 cur).1 cur, x ∈ names) ∧
    log_inv names (expand_item ctx arch builddep t2 cur).1 (cur :: log) ∧
    (∀ x, visited t x → visited (expand_item ctx arch builddep t2 cur).1 x) ∧
    unvisited names (expand_item ctx arch builddep t2 cur).1 < unvisited names t := by
  obtain ⟨hk2, hd2, hv2, _⟩ := expand_start ht2
  obtain ⟨hdeps, hnd, hlog⟩ := hinv
  have hvis : ∀ x, visited (expand_item ctx arch builddep t2 cur).1 x ↔ x = cur ∨ visited t x := by
    intro x
    simp only [expand_item]
    rw [visited_rows, hv2]
  have hdep4 : ∀ x, ∀ d ∈ depsOf (expand_item ctx arch builddep t2 cur).1 x, d ∈ names := by
    intro x d hd
    simp only [expand_item] at hd
    rw [depsOf_rows cur _ t2 x ((hk2 cur).mpr (Or.inr rfl)), hd2] at hd
    by_cases hx : x = cur
    · rw [if_pos hx] at hd
      rcases List.mem_append.mp hd with h1 | h1
      · rw [List.mem_reverse, List.mem_map] at h1
        obtain ⟨r, hr, rfl⟩ := h1
        exact hrows cur hc r hr
      · exact hdeps x d h1
    · rw [if_neg hx] at hd
      exact hdeps x d hd
  have hmono : ∀ x, visited t x → visited (expand_item ctx arch builddep t2 cur).1 x :=
    fun x hx => (hvis x).mpr (Or.inr hx)
  refine ⟨hdep4 cur, ⟨hdep4, ?_, ?_⟩, hmono, ?_⟩
  · exact List.nodup_cons.mpr ⟨fun hin => hv (hlog cur hin), hnd⟩
  · intro x hx
    rcases List.mem_cons.mp hx with rfl | h1
    · exact (hvis x).mpr (Or.inl rfl)
    · exact hmono x (hlog x h1)
  · exact unvisited_lt hmono hc hv ((hvis cur).mpr (Or.inl rfl))

theorem log_run_ok.after {names : List String} {st st1 : Table × List String}
    {r : Run (Table × List String)}
    (h1 : ∀ x, visited st.1 x → visited st1.1 x) (h2 : ∀ x ∈ st.2, x ∈ st1.2)
    (h : log_run_ok names st1 r) : log_run_ok names st r := by
  rcases h with h | ⟨st2, hr, hinv, hm, hl⟩
  · exact Or.inl h
  · exact Or.inr ⟨st2, hr, hinv, fun x hx => hm x (h1 x hx), fun x hx => hl x (h2 x hx)⟩

theorem find_deps_visit_log_total {ctx : db_ctx} {arch : String} {builddep : Bool}
    {names : List String}
    {recur : List String → Table × List String → Run (Table × List String)} {f : Nat}
    (hrows : ∀ p ∈ names, ∀ r ∈ (ctx.stmt_dep p arch (relationship builddep)).1,
      r.dependency ∈ names)
    (hrec : ∀ pk st, (∀ x ∈ pk, x ∈ names) → log_inv names st.1 st.2 →
      unvisited names st.1 + 1 ≤ f → log_run_ok names st (recur pk st))
    (cur : String) (hc : cur ∈ names) (st : Table × List String)
    (hinv : log_inv names st.1 st.2) (hfuel : unvisited names st.1 ≤ f) :
    log_run_ok names st (find_deps_visit_log recur ctx arch builddep cur st) := by
  unfold find_deps_visit_log
  by_cases hv : has_flag (flagOf st.1 cur) PKG_VISITED = true
  · rw [if_pos hv]
    exact Or.inr ⟨st, rfl, hinv, fun _ h => h, fun _ h => h⟩
  · rw [if_neg hv]
    dsimp only
    have hv0 : ¬ visited st.1 cur := hv
    cases hver : versionOf (enter_item st.1 cur) cur with
    | some v0 =>
      simp only
      have ht2 : (versionOf (enter_item st.1 cur) cur ≠ none ∧
          enter_item st.1 cur = enter_item st.1 cur) ∨
          ∃ v, versionOf (enter_item st.1 cur) cur = none ∧
            ctx.stmt_package cur arch = package_step.row v ∧
            enter_item st.1 cur =
              modify_item (enter_item st.1 cur) cur (fun it => { it with version := v }) :=
        Or.inl ⟨by rw [hver]; exact fun h => Option.noConfusion h, rfl⟩
      obtain ⟨h1, h2, h3, h4⟩ := log_inv_expand hrows hc hinv hv0 ht2
      split_ifs
      · have hr := hrec _ (_, cur :: st.2) h1 h2 (Nat.succ_le_of_lt (lt_of_lt_of_le h4 hfuel))
        exact @log_run_ok.after names st (_, cur :: st.2) _ h3
          (fun x hx => List.mem_cons_of_mem _ hx) hr
      · exact Or.inl rfl
    | none =>
      simp only
      cases hst : ctx.stmt_package cur arch with
      | row v =>
        simp only
        have ht2 : (versionOf (enter_item st.1 cur) cur ≠ none ∧
            modify_item (enter_item st.1 cur) cur (fun it => { it with version := v }) =
              enter_item st.1 cur) ∨
            ∃ v1, versionOf (enter_item st.1 cur) cur = none ∧
              ctx.stmt_package cur arch = package_step.row v1 ∧
              modify_item (enter_item st.1 cur) cur (fun it => { it with version := v }) =
                modify_item (enter_item st.1 cur) cur (fun it => { it with version := v1 }) :=
          Or.inr ⟨v, hver, hst, rfl⟩
        obtain ⟨h1, h2, h3, h4⟩ := log_inv_expand hrows hc hinv hv0 ht2
        split_ifs
        · have hr := hrec _ (_, cur :: st.2) h1 h2
            (Nat.succ_le_of_lt (lt_of_lt_of_le h4 hfuel))
          exact @log_run_ok.after names st (_, cur :: st.2) _ h3
            (fun x hx => List.mem_cons_of_mem _ hx) hr
        · exact Or.inl rfl
      | done =>
        simp only
        refine Or.inr ⟨_, rfl, ⟨?_, hinv.2.1, ?_⟩, ?_, fun _ h => h⟩
        · intro x d hd
          rw [depsOf_mark_not_found, depsOf_enter_item] at hd
          exact hinv.1 x d hd
        · intro x hx
          simp only
          rw [visited_mark_not_found, visited_enter_item]
          exact Or.inr (hinv.2.2 x hx)
        · intro x hx
          simp only
          rw [visited_mark_not_found, visited_enter_item]
          exact Or.inr hx
      | error => exact Or.inl rfl

theorem find_deps_loop_log_total {ctx : db_ctx} {arch : String} {builddep : Bool}
    {names : List String}
    {recur : List String → Table × List String → Run (Table × List String)} {f : Nat}
    (hrows : ∀ p ∈ names, ∀ r ∈ (ctx.stmt_dep p arch (relationship builddep)).1,
      r.dependency ∈ names)
    (hrec : ∀ pk st, (∀ x ∈ pk, x ∈ names) → log_inv names st.1 st.2 →
      unvisited names st.1 + 1 ≤ f → log_run_ok names st (recur pk st)) :
    ∀ (pk : List String) (st : Table × List String), (∀ x ∈ pk, x ∈ names) →
      log_inv names st.1 st.2 → unvisited names st.1 ≤ f →
      log_run_ok names st (find_deps_loop_log recur ctx arch builddep pk st) := by
  intro pk
  induction pk with
  | nil =>
    intro st _ hinv _
    exact Or.inr ⟨st, rfl, hinv, fun _ h => h, fun _ h => h⟩
  | cons cur rest ih =>
    intro st hpk hinv hfuel
    have hv := find_deps_visit_log_total hrows hrec cur (hpk cur (List.mem_cons_self _ _)) st
      hinv hfuel
    simp only [find_deps_loop_log]
    rcases hv with hv | ⟨st1, hv, hinv1, hm, hl⟩
    · rw [hv]
      exact Or.inl rfl
    · rw [hv]
      simp only
      refine log_run_ok.after hm hl ?_
      exact ih st1 (fun x hx => hpk x (List.mem_cons_of_mem _ hx)) hinv1
        (le_trans (unvisited_le hm) hfuel)

/-- With fuel above the number of unvisited names of a set of names that
holds the packages and is closed under the rows of the dependency query,
`find_deps` with a log returns or exits, and the log names no package
twice. -/
theorem find_deps_log_total {ctx : db_ctx} {arch : String} {builddep : Bool}
    {names : List String}
    (hrows : ∀ p ∈ names, ∀ r ∈ (ctx.stmt_dep p arch (relationship builddep)).1,
      r.dependency ∈ names) :
    ∀ (fuel : Nat) (pk : List String) (st : Table × List String), (∀ x ∈ pk, x ∈ names) →
      log_inv names st.1 st.2 → unvisited names st.1 + 1 ≤ fuel →
      log_run_ok names st (find_deps_log fuel ctx arch builddep pk st) := by
  intro fuel
  induction fuel with
  | zero => intro pk st _ _ h; omega
  | succ f ih =>
    intro pk st hpk hinv hfuel
    exact find_deps_loop_log_total hrows ih pk st hpk hinv (by omega)

theorem find_deps_visit_fuel {recur recur2 : List String → Table → Run Table}
    (hrec : ∀ pk t, recur pk t ≠ Run.no_fuel → recur2 pk t = recur pk t)
    (ctx : db_ctx) (arch : String) (builddep : Bool) (cur : String) (t : Table)
    (h : find_deps_visit recur ctx arch builddep cur t ≠ Run.no_fuel) :
    find_deps_visit recur2 ctx arch builddep cur t =
      find_deps_visit recur ctx arch builddep cur t := by
  unfold find_deps_visit at h ⊢
  by_cases hv : has_flag (flagOf t cur) PKG_VISITED = true
  · simp only [hv, if_true]
  · simp only [hv, Bool.false_eq_true, if_false] at h ⊢
    cases hver : versionOf (enter_item t cur) cur with
    | some v0 =>
      rw [hver] at h
      simp only at h ⊢
      split_ifs with he
      · rw [if_pos he] at h
        exact hrec _ _ h
      · rfl
    | none =>
      rw [hver] at h
      simp only at h ⊢
      cases hst : ctx.stmt_package cur arch with
      | row v =>
        rw [hst] at h
        simp only at h ⊢
        split_ifs with he
        · rw [if_pos he] at h
          exact hrec _ _ h
        · rfl
      | done => rfl
      | error => rfl

theorem find_deps_loop_fuel {recur recur2 : List String → Table → Run Table}
    (hrec : ∀ pk t, recur pk t ≠ Run.no_fuel → recur2 pk t = recur pk t)
    (ctx : db_ctx) (arch : String) (builddep : Bool) :
    ∀ (pk : List String) (t : Table),
      find_deps_loop recur ctx arch builddep pk t ≠ Run.no_fuel →
      find_deps_loop recur2 ctx arch builddep pk t =
        find_deps_loop recur ctx arch builddep pk t := by
  intro pk
  induction pk with
  | nil => intro t _; rfl
  | cons cur rest ih =>
    intro t h
    simp only [find_deps_loop] at h ⊢
    cases h1 : find_deps_visit recur ctx arch builddep cur t with
    | ok t1 =>
      rw [h1] at h
      simp only at h
      rw [find_deps_visit_fuel hrec ctx arch builddep cur t (by rw [h1]; exact fun e => Run.noConfusion e)]
      rw [h1]
      exact ih t1 h
    | exit_failure =>
      rw [find_deps_visit_fuel hrec ctx arch builddep cur t (by rw [h1]; exact fun e => Run.noConfusion e)]
      rw [h1]
    | no_fuel =>
      rw [h1] at h
      exact absurd rfl h

/-- A run of `find_deps` that does not run out of fuel is the same with
more fuel. -/
theorem find_deps_fuel_succ (ctx : db_ctx) (arch : String) (builddep : Bool) :
    ∀ (fuel : Nat) (pk : List String) (t : Table),
      find_deps fuel ctx arch builddep pk t ≠ Run.no_fuel →
      find_deps (fuel + 1) ctx arch builddep pk t = find_deps fuel ctx arch builddep pk t := by
  intro fuel
  induction fuel with
  | zero => intro pk t h; exact absurd rfl h
  | succ f ih =>
    intro pk t h
    exact find_deps_loop_fuel ih ctx arch builddep pk t h

theorem find_deps_fuel_le (ctx : db_ctx) (arch : String) (builddep : Bool)
    (fuel : Nat) (pk : List String) (t : Table)
    (h : find_deps fuel ctx arch builddep pk t ≠ Run.no_fuel) :
    ∀ fuel2, fuel ≤ fuel2 →
      find_deps fuel2 ctx arch builddep pk t = find_deps fuel ctx arch builddep pk t := by
  intro fuel2 hle
  induction fuel2 with
  | zero =>
    have : fuel = 0 := by omega
    rw [this]
  | succ f ih =>
    by_cases he : fuel = f + 1
    · rw [he]
    · have h1 := ih (by omega)
      rw [find_deps_fuel_succ ctx arch builddep f pk t (by rw [h1]; exact h), h1]

theorem log_inv_nil (names : List String) : log_inv names [] [] := by
  refine ⟨fun x d hd => ?_, List.nodup_nil, fun x hx => ?_⟩
  · simp [depsOf, lookup] at hd
  · simp at hx

theorem unvisited_le_length (names : List String) (t : Table) :
    unvisited names t ≤ names.length :=
  List.countP_le_length _

/-- C16 (the builder terminates; one dependency query per name).  Let `names`
be a finite list of package names that holds the roots and, with each of its
names, the dependency names that the dependency query returns for it; the
dependency relation may have cycles and shared dependencies.  With a bound of
`names.length + 1` or more on the recursion depth, `find_deps` from the empty
table does not run out of fuel, so it returns a table or exits in
`check_sqlite_ret`, and its outcome is the same for every larger bound.  A name
that carries `PKG_VISITED` is skipped with the table unchanged, whatever the
recursive call would do.  The run that logs the names for which the dependency
query is issued builds the same table, and when it returns, its log holds no
name twice and only names that carry `PKG_VISITED`. -/
theorem find_deps_terminates (ctx : db_ctx) (arch : String) (builddep : Bool)
    (names roots : List String)
    (hroots : ∀ r ∈ roots, r ∈ names)
    (hrows : ∀ p ∈ names, ∀ r ∈ (ctx.stmt_dep p arch (relationship builddep)).1,
      r.dependency ∈ names)
    (fuel : Nat) (hfuel : names.length + 1 ≤ fuel) :
    find_deps fuel ctx arch builddep roots [] ≠ Run.no_fuel ∧
    (∀ fuel2, fuel ≤ fuel2 →
      find_deps fuel2 ctx arch builddep roots [] = find_deps fuel ctx arch builddep roots []) ∧
    (∀ (recur : List String → Table → Run Table) (t : Table) (cur : String),
      has_flag (flagOf t cur) PKG_VISITED = true →
      find_deps_visit recur ctx arch builddep cur t = Run.ok t) ∧
    run_table (find_deps_log fuel ctx arch builddep roots ([], [])) =
      find_deps fuel ctx arch builddep roots [] ∧
    ∀ t1 log, find_deps_log fuel ctx arch builddep roots ([], []) = Run.ok (t1, log) →
      find_deps fuel ctx arch builddep roots [] = Run.ok t1 ∧ log.Nodup ∧
      ∀ x ∈ log, has_flag (flagOf t1 x) PKG_VISITED = true := by
  have htot := find_deps_log_total hrows fuel roots ([], []) hroots (log_inv_nil names)
    (le_trans (Nat.succ_le_succ (unvisited_le_length names [])) hfuel)
  have htab := find_deps_log_table ctx arch builddep fuel roots ([], [])
  have hne : find_deps fuel ctx arch builddep roots [] ≠ Run.no_fuel := by
    intro hno
    rw [show (([] : Table), ([] : List String)).1 = [] from rfl, hno] at htab
    rcases htot with h | ⟨st1, h, _⟩
    · rw [h] at htab
      exact Run.noConfusion htab
    · rw [h] at htab
      exact Run.noConfusion htab
  refine ⟨hne, find_deps_fuel_le ctx arch builddep fuel roots [] hne, ?_, htab, ?_⟩
  · intro recur t cur hv
    unfold find_deps_visit
    rw [if_pos hv]
  · intro t1 log h
    rw [h] at htab
    refine ⟨htab.symm, ?_⟩
    rcases htot with h1 | ⟨st1, h1, hinv, _, _⟩
    · rw [h1] at h
      exact Run.noConfusion h
    · rw [h1] at h
      have hst : st1 = (t1, log) := Run.ok.inj h
      subst hst
      exact ⟨hinv.2.1, hinv.2.2⟩

/-- Witness of C16: the database `db_cycle` with the cycle `A -> B -> A`; the
names are `A`, `B` and `X`, the bound is 4.  The run from the root `A` returns
`table_cycle`; the dependency query is issued for `A` and then for `B`, and
for neither again when `B` names `A`. -/
theorem find_deps_terminates_witness :
    find_deps_log 4 db_cycle "amd64" true ["A"] ([], []) = Run.ok (table_cycle, ["B", "A"]) ∧
    find_deps 3 db_cycle "amd64" true ["A"] [] = Run.ok table_cycle ∧
    (find_deps 4 db_cycle "amd64" true ["A"] [] ≠ Run.no_fuel ∧
    (∀ fuel2, 4 ≤ fuel2 →
      find_deps fuel2 db_cycle "amd64" true ["A"] [] =
        find_deps 4 db_cycle "amd64" true ["A"] []) ∧
    (∀ (recur : List String → Table → Run Table) (t : Table) (cur : String),
      has_flag (flagOf t cur) PKG_VISITED = true →
      find_deps_visit recur db_cycle "amd64" true cur t = Run.ok t) ∧
    run_table (find_deps_log 4 db_cycle "amd64" true ["A"] ([], [])) =
      find_deps 4 db_cycle "amd64" true ["A"] [] ∧
    ∀ t1 log, find_deps_log 4 db_cycle "amd64" true ["A"] ([], []) = Run.ok (t1, log) →
      find_deps 4 db_cycle "amd64" true ["A"] [] = Run.ok t1 ∧ log.Nodup ∧
      ∀ x ∈ log, has_flag (flagOf t1 x) PKG_VISITED = true) :=
  ⟨by decide, by decide,
    find_deps_terminates db_cycle "amd64" true ["A", "B", "X"] ["A"] (by decide) (by decide) 4
      (by decide)⟩

/-! ## The buckets of a fresh table -/

/-- When every integer from `a` to `b` is the depth of some key, the table
has at least `b + 1 - a` nodes. -/
theorem depth_range_le {t : Table} {a b : Int}
    (h : ∀ k, a ≤ k → k ≤ b → ∃ x ∈ keys t, depthOf t x = k) :
    (b + 1 - a).toNat ≤ t.length := by
  have hsub : Finset.Icc a b ⊆ ((keys t).map (depthOf t)).toFinset := by
    intro k hk
    obtain ⟨x, hx, hd⟩ := h k (Finset.mem_Icc.mp hk).1 (Finset.mem_Icc.mp hk).2
    exact List.mem_toFinset.mpr (List.mem_map.mpr ⟨x, hx, hd⟩)
  have h1 := Finset.card_le_card hsub
  rw [Int.card_Icc] at h1
  have h2 := List.toFinset_card_le ((keys t).map (depthOf t))
  have h3 : ((keys t).map (depthOf t)).length = t.length := by simp [keys]
  omega

/-- After the first loop of `toposort` on a fresh table no depth exceeds the
number of nodes in absolute value, so the depths and their negations are
values of a C `int` whenever the number of nodes is. -/
theorem fresh_depth_bound {t : Table} (hfresh : fresh t) {fuel : Nat}
    (hfuel : t.length + 1 ≤ fuel) {t1 : Table} {loop1 : Int}
    (he : toposort_resolve fuel (keys t) t (-1) = some (t1, loop1)) :
    ∀ x, -(t.length : Int) ≤ depthOf t1 x ∧ depthOf t1 x ≤ (t.length : Int) := by
  obtain ⟨t1a, loop1a, hea, hg, hl1, hI, _⟩ := toposort_resolve_fresh hfresh hfuel
  rw [he] at hea
  simp only [Option.some.injEq, Prod.mk.injEq] at hea
  obtain ⟨rfl, rfl⟩ := hea
  obtain ⟨hD, _⟩ := toposort_resolve_dense fuel (keys t) t (-1) t1 loop1 he (by decide)
    (entry_inv_of_fresh hfresh) (fun k hk1 hk2 => by omega)
  have hlen : t1.length = t.length := hg.length_eq.symm
  intro x
  constructor
  · by_cases hneg : depthOf t1 x < 0
    · have habove := hI.above x (by simp)
      have hr : ∀ k, depthOf t1 x ≤ k → k ≤ -1 → ∃ y ∈ keys t1, depthOf t1 y = k := by
        intro k hk1 hk2
        obtain ⟨y, hy⟩ := hD k (by omega) (by omega)
        exact ⟨y, depthOf_neg_key (by omega), hy⟩
      have := depth_range_le hr
      omega
    · omega
  · by_cases hpos : 0 < depthOf t1 x
    · have hdx : depthOf t1 x = (((depthOf t1 x).toNat - 1 : Nat) : Int) + 1 := by omega
      have hr : ∀ k, 1 ≤ k → k ≤ depthOf t1 x → ∃ y ∈ keys t1, depthOf t1 y = k := by
        intro k hk1 hk2
        obtain ⟨y, hy, hyd⟩ := settled_descend hI ((depthOf t1 x).toNat - 1) x hdx k.toNat
          (by omega) (by omega)
        exact ⟨y, hy, by rw [hyd]; omega⟩
      have := depth_range_le hr
      omega
    · omega

/-- C6 (partition).  On a fresh table (every depth `0`, as `find_deps`
leaves it) with unique keys, with any dependency lists, and from empty
arrays, `toposort` returns; after the first loop no key has depth `0`; a key
of final depth `d > 0` occurs exactly once in `levels[d-1]`, in no other
level and in no cycle group; a key of final depth `d < 0` occurs exactly once
in `loops[-d-1]`, in no other cycle group and in no level; a name that is not
a key occurs in no bucket.  Every final depth lies between `-n` and `n` for
`n` the number of nodes, so `depth` and `-depth` are values of a C `int`
whenever `n` is. -/
theorem toposort_partitions (t : Table) (hfresh : fresh t) (hu : keys_unique t) (fuel : Nat)
    (hfuel : t.length + 1 ≤ fuel) :
    ∃ t1 loop1 levels loops, toposort_resolve fuel (keys t) t (-1) = some (t1, loop1) ∧
      toposort fuel t [] [] = some (levels, loops) ∧ keys t1 = keys t ∧
      (∀ x ∈ keys t, depthOf t1 x ≠ 0 ∧
        (0 < depthOf t1 x →
          (levels.getD (depthOf t1 x - 1).toNat []).count x = 1 ∧
          (∀ j, j ≠ (depthOf t1 x - 1).toNat → x ∉ levels.getD j []) ∧
          (∀ j, x ∉ loops.getD j [])) ∧
        (depthOf t1 x < 0 →
          (loops.getD (-depthOf t1 x - 1).toNat []).count x = 1 ∧
          (∀ j, j ≠ (-depthOf t1 x - 1).toNat → x ∉ loops.getD j []) ∧
          (∀ j, x ∉ levels.getD j []))) ∧
      (∀ x, x ∉ keys t → ∀ j, x ∉ levels.getD j [] ∧ x ∉ loops.getD j []) ∧
      (∀ x, -(t.length : Int) ≤ depthOf t1 x ∧ depthOf t1 x ≤ (t.length : Int)) := by
  obtain ⟨t1, loop1, levels, loops, he, hts, hg, hnz, hlv, hlp, _, _⟩ := toposort_total hu hfuel
  refine ⟨t1, loop1, levels, loops, he, hts, hg.keys_eq.symm, fun x hx => ⟨hnz x hx, ?_, ?_⟩,
    fun x hx j => ⟨?_, ?_⟩, fresh_depth_bound hfresh hfuel he⟩
  · intro hpos
    refine ⟨?_, fun j hj hmem => ?_, fun j hmem => ?_⟩
    · rw [hlv, if_pos ⟨hx, by omega⟩]
    · have := ((mem_of_count_ite (hlv j x)).mp hmem).2
      omega
    · have := ((mem_of_count_ite (hlp j x)).mp hmem).2
      omega
  · intro hneg
    refine ⟨?_, fun j hj hmem => ?_, fun j hmem => ?_⟩
    · rw [hlp, if_pos ⟨hx, by omega⟩]
    · have := ((mem_of_count_ite (hlp j x)).mp hmem).2
      omega
    · have := ((mem_of_count_ite (hlv j x)).mp hmem).2
      omega
  · intro hmem
    exact hx ((mem_of_count_ite (hlv j x)).mp hmem).1
  · intro hmem
    exact hx ((mem_of_count_ite (hlp j x)).mp hmem).1

/-- Witness of C6: the fresh table `N -> A -> B -> A`. -/
theorem toposort_partitions_witness :
    toposort 4 tail_cycle [] [] = some ([], [["B", "A", "N"]]) ∧
    ∃ t1 loop1 levels loops,
      toposort_resolve 4 (keys tail_cycle) tail_cycle (-1) = some (t1, loop1) ∧
      toposort 4 tail_cycle [] [] = some (levels, loops) ∧ keys t1 = keys tail_cycle ∧
      (∀ x ∈ keys tail_cycle, depthOf t1 x ≠ 0 ∧
        (0 < depthOf t1 x →
          (levels.getD (depthOf t1 x - 1).toNat []).count x = 1 ∧
          (∀ j, j ≠ (depthOf t1 x - 1).toNat → x ∉ levels.getD j []) ∧
          (∀ j, x ∉ loops.getD j [])) ∧
        (depthOf t1 x < 0 →
          (loops.getD (-depthOf t1 x - 1).toNat []).count x = 1 ∧
          (∀ j, j ≠ (-depthOf t1 x - 1).toNat → x ∉ loops.getD j []) ∧
          (∀ j, x ∉ levels.getD j []))) ∧
      (∀ x, x ∉ keys tail_cycle → ∀ j, x ∉ levels.getD j [] ∧ x ∉ loops.getD j []) ∧
      (∀ x, -(tail_cycle.length : Int) ≤ depthOf t1 x ∧
        depthOf t1 x ≤ (tail_cycle.length : Int)) :=
  ⟨by decide, toposort_partitions tail_cycle (by decide) (by decide) 4 (by decide)⟩

/-- C18 (safe bucket indexing).  On every fresh table (every depth `0`, as
`find_deps` leaves it) with unique keys, also one in which a dependency name
has no node, the first loop of `toposort` returns and leaves no entry with
depth `0`, and every depth it leaves lies between `-n` and `n` for `n` the
number of nodes, so `depth` and `-depth` are values of a C `int` whenever `n`
is.  Hence in the second loop, whatever the arrays hold, an entry of positive
depth `d` uses the index `d-1` below the length of the resized `levels`, an
entry of negative depth `d` uses the index `-d-1`, which is not negative and
below the length of the resized `loops`, every step and the whole loop
return, and the index `-1` that depth `0` selects is never used. -/
theorem bucket_index_in_range (t : Table) (hfresh : fresh t) (hu : keys_unique t)
    (fuel : Nat) (hfuel : t.length + 1 ≤ fuel) :
    ∃ t1 loop1, toposort_resolve fuel (keys t) t (-1) = some (t1, loop1) ∧
      (∀ it ∈ t1, it.depth ≠ 0) ∧
      (∀ it ∈ t1, -(t.length : Int) ≤ it.depth ∧ it.depth ≤ (t.length : Int)) ∧
      (∀ it ∈ t1, ∀ levels loops : Buckets,
        (0 < it.depth →
          (it.depth - 1).toNat <
            (if it.depth.toNat > levels.length then set_size levels it.depth.toNat
              else levels).length) ∧
        (it.depth ≤ 0 →
          0 ≤ -it.depth - 1 ∧
          (-it.depth - 1).toNat <
            (if (-it.depth).toNat > loops.length then set_size loops (-it.depth).toNat
              else loops).length) ∧
        bucket_step levels loops it.name it.depth ≠ none) ∧
      (∀ levels loops : Buckets, toposort_bucket t1 levels loops ≠ none) ∧
      (∀ (levels loops : Buckets) (name : String), bucket_step levels loops name 0 = none) := by
  have hf : (keys t).length + 1 ≤ fuel := by simpa [keys] using hfuel
  obtain ⟨t1, loop1, he, hg, _, _, hall⟩ :=
    toposort_resolve_total fuel (keys t) t (-1) (by decide) hf
  have hu1 : keys_unique t1 := by unfold keys_unique; rw [← hg.keys_eq]; exact hu
  have hnz : ∀ it ∈ t1, it.depth ≠ 0 := by
    intro it hit
    have hl := lookup_of_mem_unique hu1 hit
    rw [← depthOf_eq_of_lookup hl]
    have hk : it.name ∈ keys t := hg.keys_eq ▸ lookup_some_key hl
    exact hall _ hk hk
  have hbound : ∀ it ∈ t1, -(t.length : Int) ≤ it.depth ∧ it.depth ≤ (t.length : Int) := by
    intro it hit
    have hl := lookup_of_mem_unique hu1 hit
    rw [← depthOf_eq_of_lookup hl]
    exact fresh_depth_bound hfresh hfuel he it.name
  refine ⟨t1, loop1, he, hnz, hbound,
    fun it hit levels loops => ⟨fun hpos => ?_, fun hneg => ?_, ?_⟩,
    fun levels loops => ?_, bucket_step_zero⟩
  · split_ifs with h
    · rw [length_set_size]; omega
    · omega
  · have := hnz it hit
    split_ifs with h
    · rw [length_set_size]; omega
    · omega
  · have := hnz it hit
    by_cases hpos : 0 < it.depth
    · obtain ⟨l1, h1, _⟩ := bucket_step_pos levels loops it.name hpos
      rw [h1]; simp
    · obtain ⟨l1, h1, _⟩ := bucket_step_neg levels loops it.name (d := it.depth) (by omega)
      rw [h1]; simp
  · obtain ⟨l1, l2, h1, _⟩ := toposort_bucket_spec t1 levels loops hnz
    rw [h1]; simp

/-- Witness of C18: the fresh table `dangling`, in which `Z` has no node. -/
theorem bucket_index_in_range_witness :
    calc_depth 3 dangling "Z" (-1) = some (dangling, 0) ∧
    toposort 3 dangling [] [] = some ([["A"], ["B"]], []) ∧
    ∃ t1 loop1, toposort_resolve 3 (keys dangling) dangling (-1) = some (t1, loop1) ∧
      (∀ it ∈ t1, it.depth ≠ 0) ∧
      (∀ it ∈ t1, -(dangling.length : Int) ≤ it.depth ∧ it.depth ≤ (dangling.length : Int)) ∧
      (∀ it ∈ t1, ∀ levels loops : Buckets,
        (0 < it.depth →
          (it.depth - 1).toNat <
            (if it.depth.toNat > levels.length then set_size levels it.depth.toNat
              else levels).length) ∧
        (it.depth ≤ 0 →
          0 ≤ -it.depth - 1 ∧
          (-it.depth - 1).toNat <
            (if (-it.depth).toNat > loops.length then set_size loops (-it.depth).toNat
              else loops).length) ∧
        bucket_step levels loops it.name it.depth ≠ none) ∧
      (∀ levels loops : Buckets, toposort_bucket t1 levels loops ≠ none) ∧
      (∀ (levels loops : Buckets) (name : String), bucket_step levels loops name 0 = none) :=
  ⟨by decide, by decide, bucket_index_in_range dangling (by decide) (by decide) 3 (by decide)⟩

end AbbsDep
